import Mathlib

/-!
# Notebook status and image-upload credentials

A shallow embedding of `gradient/v1/notebook.go` (package `v1`): the
`ImageUpload` credential accessors and the `NotebookStatus` classification
methods, together with the parts of Go's standard library they call
(`encoding/base64`, `unicode/utf8`, `unicode.IsSpace`, `strings.TrimSpace`).

Conventions:
* a Go `string` / `[]byte` is a list of bytes, a byte is a `Fin 256`;
* a Go pointer receiver or pointer field is an `Option`, `nil` being `none`;
* a method that assigns to its receiver returns the updated receiver.
-/

namespace GradientV1

/-! ## Go strings -/

/-- Go `byte`: an unsigned 8-bit value. -/
abbrev Byte := Fin 256

/-- Go `string`: an immutable sequence of bytes (not necessarily valid UTF-8). -/
abbrev GoString := List Byte

/-- The Go string written by an ASCII literal: one byte per character, the
character's code. Used only on ASCII literals of the source. -/
def ascii (s : String) : GoString :=
  s.toList.map (fun c => Fin.ofNat c.toNat)

/-! ## Go standard library: `encoding/base64`, the encoding `StdEncoding` -/

namespace Base64

/-- The constant `encodeStd`: the standard base64 alphabet of RFC 4648. -/
def encodeStd : GoString :=
  ascii "ABCDEFGHIJKLMNOPQRSTUVWXYZabcdefghijklmnopqrstuvwxyz0123456789+/"

/-- The constant `StdPadding = '='`, the padding character of `StdEncoding`. -/
def StdPadding : Byte := 61

/-- The field `decodeMap` of `StdEncoding`, as `NewEncoding` fills it: `0xff`
everywhere, then `decodeMap[encoder[i]] = i` for each position `i` of the
alphabet. -/
def decodeMap (c : Byte) : Nat :=
  if encodeStd.indexOf c < encodeStd.length then encodeStd.indexOf c else 0xff

/-- The type `CorruptInputError`: the offset of the offending input byte. -/
structure CorruptInputError where
  offset : Int
  deriving DecidableEq, Repr

/-- What one call of `decodeQuantum` returns: the new source index `nsi`, the
source from that index on, the bytes stored into `dst` (their number is the
returned `n`), and the error. -/
structure Quantum where
  nsi : Nat
  rest : GoString
  out : List Byte
  err : Option CorruptInputError
  deriving DecidableEq, Repr

/-- The loop `for si < len(src) && (src[si] == '\n' || src[si] == '\r') { si++ }`
of `decodeQuantum`, on the source from index `si` on. -/
def skipNewlines : Nat → GoString → Nat × GoString
  | si, [] => (si, [])
  | si, c :: cs => if c = 10 ∨ c = 13 then skipNewlines (si + 1) cs else (si, c :: cs)

/-- The tail of `decodeQuantum`: "Convert 4x 6bit source bytes into 3 bytes".
`dbuf` holds the sextets read so far, the missing ones being zero; `dlen - 1`
bytes are stored (non-strict encoding: no check of the trailing bits). -/
def quantumBytes (dbuf : List Nat) (dlen : Nat) : List Byte :=
  let val := dbuf.getD 0 0 <<< 18 ||| dbuf.getD 1 0 <<< 12 ||| dbuf.getD 2 0 <<< 6 ||| dbuf.getD 3 0
  ([Fin.ofNat (val >>> 16), Fin.ofNat (val >>> 8), Fin.ofNat (val >>> 0)] : List Byte).take (dlen - 1)

/-- The end of the padding branch of `decodeQuantum`: "skip over newlines", then
anything left is "trailing garbage" (`err = CorruptInputError(si)`); `dlen = j`,
the loop is left and `dlen - 1` bytes are stored and returned with `err`. -/
def decodePadding.finish (dbuf : List Nat) (si : Nat) (rest : GoString) : Quantum :=
  let p := skipNewlines si rest
  ⟨p.1, p.2, quantumBytes dbuf dbuf.length, if p.2 ≠ [] then some ⟨(p.1 : Int)⟩ else none⟩

/-- The branch of `decodeQuantum` taken when the byte read is the padding
character: "We've reached the end and there's padding". `dbuf` holds the `j`
sextets read, `si` is the index after the padding character and `rest` the
source from there. -/
def decodePadding (dbuf : List Nat) (si : Nat) (rest : GoString) : Quantum :=
  let j := dbuf.length
  if j = 0 ∨ j = 1 then
    -- incorrect padding
    ⟨si, rest, [], some ⟨(si : Int) - 1⟩⟩
  else if j = 2 then
    -- "==" is expected, the first "=" is already consumed; skip over newlines
    match skipNewlines si rest with
    | (si, []) => ⟨si, [], [], some ⟨(si : Int)⟩⟩  -- not enough padding
    | (si, c :: cs) =>
      if c ≠ StdPadding then ⟨si, c :: cs, [], some ⟨(si : Int) - 1⟩⟩  -- incorrect padding
      else decodePadding.finish dbuf (si + 1) cs
  else decodePadding.finish dbuf si rest

/-- The loop `for j := 0; j < len(dbuf); j++` of `decodeQuantum`, followed by
the conversion. `dbuf` holds the `j` sextets read so far, `si` is the source
index and the list argument the source from `si` on. -/
def decodeQuantum.loop (dbuf : List Nat) : Nat → GoString → Quantum
  | si, [] =>
    if 4 ≤ dbuf.length then ⟨si, [], quantumBytes dbuf 4, none⟩
    else if dbuf.length = 0 then ⟨si, [], [], none⟩
    else ⟨si, [], [], some ⟨(si : Int) - dbuf.length⟩⟩
  | si, c :: cs =>
    if 4 ≤ dbuf.length then ⟨si, c :: cs, quantumBytes dbuf 4, none⟩
    else if decodeMap c ≠ 0xff then decodeQuantum.loop (dbuf ++ [decodeMap c]) (si + 1) cs
    else if c = 10 ∨ c = 13 then decodeQuantum.loop dbuf (si + 1) cs
    else if c ≠ StdPadding then ⟨si + 1, cs, [], some ⟨((si + 1 : Nat) : Int) - 1⟩⟩
    else decodePadding dbuf (si + 1) cs

/-- The method `decodeQuantum` of `StdEncoding` at source index `si`, `rest` being
the source from `si` on: it reads one quantum (up to four sextets, newlines
skipped, padding checked) and stores up to three bytes. -/
def decodeQuantum (si : Nat) (rest : GoString) : Quantum :=
  decodeQuantum.loop [] si rest

/-- The third loop of the method `Decode`, `for si < len(src)`, calling
`decodeQuantum` until the source is used up or an error comes back; the bytes
stored so far are returned with the error. `dst` holds the bytes stored so far
(`dst[:n]`). The first argument bounds the iterations: each call of
`decodeQuantum` on a non-empty source consumes at least one byte, so `len(src)`
iterations are enough (theorem `Decode_loop_fuel` below). -/
def Decode.loop : Nat → Nat → GoString → List Byte → List Byte × Option CorruptInputError
  | 0, _, _, dst => (dst, none)
  | fuel + 1, si, rest, dst =>
    if rest = [] then (dst, none)
    else
      let q := decodeQuantum si rest
      if q.err ≠ none then (dst ++ q.out, q.err)
      else Decode.loop fuel q.nsi q.rest (dst ++ q.out)

/-- The method `DecodedLen` of `StdEncoding` (a padded encoding): `n / 4 * 3`,
the length of the buffer `DecodeString` allocates. -/
def DecodedLen (n : Nat) : Nat :=
  n / 4 * 3

/-- The function `assemble32`: four values of `decodeMap` into a `uint32` whose
three high bytes are the decoded bytes; not ok when one of them is `0xff`. -/
def assemble32 (n1 n2 n3 n4 : Nat) : Nat × Bool :=
  if n1 ||| n2 ||| n3 ||| n4 = 0xff then (0, false)
  else ((n1 <<< 26 ||| n2 <<< 20 ||| n3 <<< 14 ||| n4 <<< 8) % 2 ^ 32, true)

/-- The function `assemble64`: eight values of `decodeMap` into a `uint64` whose
six high bytes are the decoded bytes; not ok when one of them is `0xff`. -/
def assemble64 (n1 n2 n3 n4 n5 n6 n7 n8 : Nat) : Nat × Bool :=
  if n1 ||| n2 ||| n3 ||| n4 ||| n5 ||| n6 ||| n7 ||| n8 = 0xff then (0, false)
  else
    ((n1 <<< 58 ||| n2 <<< 52 ||| n3 <<< 46 ||| n4 <<< 40 ||| n5 <<< 34 ||| n6 <<< 28 |||
      n7 <<< 22 ||| n8 <<< 16) % 2 ^ 64, true)

/-- The bytes `binary.BigEndian.PutUint32` stores. -/
def PutUint32 (v : Nat) : List Byte :=
  [Fin.ofNat (v >>> 24), Fin.ofNat (v >>> 16), Fin.ofNat (v >>> 8), Fin.ofNat v]

/-- The bytes `binary.BigEndian.PutUint64` stores. -/
def PutUint64 (v : Nat) : List Byte :=
  [Fin.ofNat (v >>> 56), Fin.ofNat (v >>> 48), Fin.ofNat (v >>> 40), Fin.ofNat (v >>> 32),
    Fin.ofNat (v >>> 24), Fin.ofNat (v >>> 16), Fin.ofNat (v >>> 8), Fin.ofNat v]

/-- The second loop of `Decode`, `for len(src)-si >= 4 && len(dst)-n >= 4`: four
alphabet characters at once through `assemble32`, `decodeQuantum` otherwise;
then the third loop. `dstLen` is `len(dst)` and `dst` the bytes stored so far
(`dst[:n]`): `PutUint32` stores four bytes at `dst[n:]` and `n` advances by three,
the fourth byte being overwritten by the next store or lying beyond the final `n`. -/
def Decode.loop32 (dstLen : Nat) :
    Nat → Nat → GoString → List Byte → List Byte × Option CorruptInputError
  | 0, _, _, dst => (dst, none)
  | fuel + 1, si, rest, dst =>
    if rest.length ≥ 4 ∧ dstLen - dst.length ≥ 4 then
      let a := assemble32 (decodeMap (rest.getD 0 0)) (decodeMap (rest.getD 1 0))
        (decodeMap (rest.getD 2 0)) (decodeMap (rest.getD 3 0))
      if a.2 then
        -- `PutUint32(dst[n:], dn); n += 3; si += 4`
        Decode.loop32 dstLen fuel (si + 4) (rest.drop 4) (dst ++ (PutUint32 a.1).take 3)
      else
        let q := decodeQuantum si rest
        if q.err ≠ none then (dst ++ q.out, q.err)
        else Decode.loop32 dstLen fuel q.nsi q.rest (dst ++ q.out)
    else Decode.loop (fuel + 1) si rest dst

/-- The first loop of `Decode`, `for strconv.IntSize >= 64 && len(src)-si >= 8 &&
len(dst)-n >= 8` (a 64-bit platform): eight alphabet characters at once through
`assemble64`, `decodeQuantum` otherwise; then the second loop. `PutUint64` stores
eight bytes at `dst[n:]` and `n` advances by six. -/
def Decode.loop64 (dstLen : Nat) :
    Nat → Nat → GoString → List Byte → List Byte × Option CorruptInputError
  | 0, _, _, dst => (dst, none)
  | fuel + 1, si, rest, dst =>
    if rest.length ≥ 8 ∧ dstLen - dst.length ≥ 8 then
      let a := assemble64 (decodeMap (rest.getD 0 0)) (decodeMap (rest.getD 1 0))
        (decodeMap (rest.getD 2 0)) (decodeMap (rest.getD 3 0)) (decodeMap (rest.getD 4 0))
        (decodeMap (rest.getD 5 0)) (decodeMap (rest.getD 6 0)) (decodeMap (rest.getD 7 0))
      if a.2 then
        -- `PutUint64(dst[n:], dn); n += 6; si += 8`
        Decode.loop64 dstLen fuel (si + 8) (rest.drop 8) (dst ++ (PutUint64 a.1).take 6)
      else
        let q := decodeQuantum si rest
        if q.err ≠ none then (dst ++ q.out, q.err)
        else Decode.loop64 dstLen fuel q.nsi q.rest (dst ++ q.out)
    else Decode.loop32 dstLen (fuel + 1) si rest dst

/-- The method `Decode` of `StdEncoding` on a destination of length `dstLen`:
the decoded bytes (`dst[:n]`) and the error. -/
def Decode (dstLen : Nat) (src : GoString) : List Byte × Option CorruptInputError :=
  if src = [] then ([], none)
  else Decode.loop64 dstLen src.length 0 src []

/-- The method `DecodeString` of `StdEncoding`: `dbuf := make([]byte,
enc.DecodedLen(len(s))); n, err := enc.Decode(dbuf, []byte(s)); return dbuf[:n],
err`. As its documentation says, on malformed input it returns the partially
decoded data together with a `CorruptInputError`, and new line characters
(`\r` and `\n`) are ignored. -/
def DecodeString (s : GoString) : List Byte × Option CorruptInputError :=
  Decode (DecodedLen s.length) s

end Base64

/-! ## Go standard library: `unicode/utf8`, `unicode.IsSpace`, `strings.TrimSpace` -/

namespace Utf8

/-- The constant `RuneError`, U+FFFD, the "error" rune. -/
def RuneError : Nat := 0xFFFD

/-- The constant `RuneSelf = 0x80`: bytes below it are single-byte runes. -/
def RuneSelf : Nat := 0x80

/-- The constant `UTFMax = 4`. -/
def UTFMax : Nat := 4

/-- The constant `maskx`: mask of a continuation byte. -/
def maskx : Nat := 0x3F

/-- The constant `mask2`: mask of the first byte of a 2-byte sequence. -/
def mask2 : Nat := 0x1F

/-- The constant `mask3`: mask of the first byte of a 3-byte sequence. -/
def mask3 : Nat := 0x0F

/-- The constant `mask4`: mask of the first byte of a 4-byte sequence. -/
def mask4 : Nat := 0x07

/-- The constant `locb`: the lowest continuation byte. -/
def locb : Nat := 0x80

/-- The constant `hicb`: the highest continuation byte. -/
def hicb : Nat := 0xBF

/-- The constant `xx`: invalid: size 1. -/
def xx : Nat := 0xF1

/-- The constant `as`: ASCII: size 1. -/
def as : Nat := 0xF0

/-- The constant `s1`: accept 0, size 2. -/
def s1 : Nat := 0x02

/-- The constant `s2`: accept 1, size 3. -/
def s2 : Nat := 0x13

/-- The constant `s3`: accept 0, size 3. -/
def s3 : Nat := 0x03

/-- The constant `s4`: accept 2, size 3. -/
def s4 : Nat := 0x23

/-- The constant `s5`: accept 3, size 4. -/
def s5 : Nat := 0x34

/-- The constant `s6`: accept 0, size 4. -/
def s6 : Nat := 0x04

/-- The constant `s7`: accept 4, size 4. -/
def s7 : Nat := 0x44

/-- The table `first`: information about the first byte of a UTF-8 sequence,
row by row as in the source (eight rows of ASCII, four of continuation bytes,
then the rows 0xC0, 0xD0, 0xE0 and 0xF0). -/
def first : List Nat :=
  List.replicate 128 as ++ List.replicate 64 xx ++
  [xx, xx, s1, s1, s1, s1, s1, s1, s1, s1, s1, s1, s1, s1, s1, s1] ++
  [s1, s1, s1, s1, s1, s1, s1, s1, s1, s1, s1, s1, s1, s1, s1, s1] ++
  [s2, s3, s3, s3, s3, s3, s3, s3, s3, s3, s3, s3, s3, s4, s3, s3] ++
  [s5, s6, s6, s6, s7, xx, xx, xx, xx, xx, xx, xx, xx, xx, xx, xx]

/-- The table `acceptRanges` (16 entries, those not listed being zero): the
range `(lo, hi)` of valid second bytes. -/
def acceptRanges : List (Nat × Nat) :=
  [(locb, hicb), (0xA0, hicb), (locb, 0x9F), (0x90, hicb), (locb, 0x8F)] ++
  List.replicate 11 (0, 0)

/-- The function `utf8.DecodeRuneInString`: the first rune of `s` and its width
in bytes; `(RuneError, 0)` on the empty string and `(RuneError, 1)` on an
invalid encoding. The indexings `s[1]`, `s[2]`, `s[3]` are guarded by `n < sz`. -/
def DecodeRuneInString (s : GoString) : Nat × Nat :=
  let n := s.length
  if n < 1 then (RuneError, 0)
  else
    let s0 := (s.getD 0 0).val
    let x := first.getD s0 xx
    if x ≥ as then
      -- `mask := rune(x) << 31 >> 31` on int32: all ones when bit 0 of x is set
      let mask := if (x <<< 31) % 2 ^ 32 ≥ 2 ^ 31 then 0xFFFFFFFF else 0
      ((s0 &&& (0xFFFFFFFF ^^^ mask)) ||| (RuneError &&& mask), 1)
    else
      let sz := x &&& 7
      let accept := acceptRanges.getD (x >>> 4) (0, 0)
      if n < sz then (RuneError, 1)
      else
        let s1 := (s.getD 1 0).val
        if s1 < accept.1 ∨ accept.2 < s1 then (RuneError, 1)
        else if sz ≤ 2 then ((s0 &&& mask2) <<< 6 ||| (s1 &&& maskx), 2)
        else
          let s2 := (s.getD 2 0).val
          if s2 < locb ∨ hicb < s2 then (RuneError, 1)
          else if sz ≤ 3 then
            ((s0 &&& mask3) <<< 12 ||| (s1 &&& maskx) <<< 6 ||| (s2 &&& maskx), 3)
          else
            let s3 := (s.getD 3 0).val
            if s3 < locb ∨ hicb < s3 then (RuneError, 1)
            else
              ((s0 &&& mask4) <<< 18 ||| (s1 &&& maskx) <<< 12 ||| (s2 &&& maskx) <<< 6 |||
                (s3 &&& maskx), 4)

/-- The function `utf8.RuneStart`: `b&0xC0 != 0x80`. -/
def RuneStart (b : Byte) : Bool :=
  b.val &&& 0xC0 != 0x80

/-- The loop `for start--; start >= lim; start-- { if RuneStart(s[start]) { break } }`
of `DecodeLastRuneInString`, entered at the already decremented `start`. It runs
at most `UTFMax - 1` times, the first argument bounds the iterations. -/
def DecodeLastRuneInString.scan (s : GoString) (lim : Int) : Nat → Int → Int
  | 0, start => start
  | k + 1, start =>
    if start ≥ lim then
      if RuneStart (s.getD start.toNat 0) then start
      else DecodeLastRuneInString.scan s lim k (start - 1)
    else start

/-- The index `start` at which `DecodeLastRuneInString` decodes, for a string
whose last byte is not ASCII: `lim := end - UTFMax`, raised to 0 when negative;
the scan from `end - 2` down to `lim` for a byte that starts a rune; and
`if start < 0 { start = 0 }`. -/
def DecodeLastRuneInString.start (s : GoString) : Nat :=
  let stop : Int := s.length
  let lim : Int := if stop - UTFMax < 0 then 0 else stop - UTFMax
  let start := DecodeLastRuneInString.scan s lim UTFMax (stop - 1 - 1)
  (if start < 0 then 0 else start).toNat

/-- The function `utf8.DecodeLastRuneInString`: the last rune of `s` and its
width in bytes (`stop` is the source's `end`). -/
def DecodeLastRuneInString (s : GoString) : Nat × Nat :=
  let stop := s.length
  if stop = 0 then (RuneError, 0)
  else
    let r := (s.getD (stop - 1) 0).val
    if r < RuneSelf then (r, 1)
    else
      let start := DecodeLastRuneInString.start s
      let rs := DecodeRuneInString ((s.drop start).take (stop - start))
      if start + rs.2 ≠ stop then (RuneError, 1) else rs

end Utf8

namespace Unicode

/-- The constant `MaxLatin1`, U+00FF. -/
def MaxLatin1 : Nat := 0xFF

/-- The field `R16` of the range table `White_Space`: triples `(Lo, Hi, Stride)`. -/
def White_Space_R16 : List (Nat × Nat × Nat) :=
  [(0x0009, 0x000d, 1), (0x0020, 0x0085, 101), (0x00a0, 0x1680, 5600),
   (0x2000, 0x200a, 1), (0x2028, 0x2029, 1), (0x202f, 0x205f, 48), (0x3000, 0x3000, 1)]

/-- The field `LatinOffset` of `White_Space`: the number of entries of `R16`
with `Hi <= MaxLatin1`. -/
def White_Space_LatinOffset : Nat := 2

/-- The function `is16`, linear-search branch (taken for tables of at most
`linearMax = 18` ranges): the first range with `r <= Hi` decides. -/
def is16 : List (Nat × Nat × Nat) → Nat → Bool
  | [], _ => false
  | (lo, hi, stride) :: ranges, r =>
    if r < lo then false
    else if r ≤ hi then stride = 1 || (r - lo) % stride = 0
    else is16 ranges r

/-- The function `isExcludingLatin` on `White_Space`, whose `R32` is empty. -/
def isExcludingLatin (r : Nat) : Bool :=
  let r16 := White_Space_R16
  let off := White_Space_LatinOffset
  if r16.length > off ∧ r ≤ (r16.getD (r16.length - 1) (0, 0, 0)).2.1 then is16 (r16.drop off) r
  else false

/-- The function `unicode.IsSpace`. -/
def IsSpace (r : Nat) : Bool :=
  if r ≤ MaxLatin1 then
    r = 0x09 ∨ r = 0x0A ∨ r = 0x0B ∨ r = 0x0C ∨ r = 0x0D ∨ r = 0x20 ∨ r = 0x85 ∨ r = 0xA0
  else isExcludingLatin r

end Unicode

namespace Strings

/-- The table `asciiSpace`: 1 at tab, newline, vertical tab, form feed, carriage
return and space. -/
def asciiSpace (c : Byte) : Nat :=
  if c = 0x09 ∨ c = 0x0A ∨ c = 0x0B ∨ c = 0x0C ∨ c = 0x0D ∨ c = 0x20 then 1 else 0

/-- The loop `for i, r := range s` of `indexFunc`: a range loop over a string
decodes one rune at a time as `utf8.DecodeRuneInString` does. `i` is the index
reached and the list argument the string from `i` on; the first argument bounds
the iterations (each consumes at least one byte). -/
def indexFunc.loop (f : Nat → Bool) (truth : Bool) : Nat → Nat → GoString → Option Nat
  | 0, _, _ => none
  | _ + 1, _, [] => none
  | fuel + 1, i, c :: cs =>
    let rs := Utf8.DecodeRuneInString (c :: cs)
    if f rs.1 = truth then some i
    else indexFunc.loop f truth fuel (i + rs.2) ((c :: cs).drop rs.2)

/-- The function `indexFunc`: the index of the first rune `r` of `s` with
`f(r) == truth`, `none` standing for `-1`. -/
def indexFunc (s : GoString) (f : Nat → Bool) (truth : Bool) : Option Nat :=
  indexFunc.loop f truth s.length 0 s

/-- The loop `for i := len(s); i > 0;` of `lastIndexFunc`; the first argument
bounds the iterations (each decreases `i` by at least one). -/
def lastIndexFunc.loop (s : GoString) (f : Nat → Bool) (truth : Bool) : Nat → Nat → Option Nat
  | 0, _ => none
  | fuel + 1, i =>
    if i > 0 then
      let rs := Utf8.DecodeLastRuneInString (s.take i)
      if f rs.1 = truth then some (i - rs.2)
      else lastIndexFunc.loop s f truth fuel (i - rs.2)
    else none

/-- The function `lastIndexFunc`: the index of the last rune `r` of `s` with
`f(r) == truth`, `none` standing for `-1`. -/
def lastIndexFunc (s : GoString) (f : Nat → Bool) (truth : Bool) : Option Nat :=
  lastIndexFunc.loop s f truth s.length s.length

/-- The function `strings.TrimLeftFunc`. -/
def TrimLeftFunc (s : GoString) (f : Nat → Bool) : GoString :=
  match indexFunc s f false with
  | none => []
  | some i => s.drop i

/-- The function `strings.TrimRightFunc`. -/
def TrimRightFunc (s : GoString) (f : Nat → Bool) : GoString :=
  match lastIndexFunc s f false with
  | some i =>
    if (s.getD i 0).val ≥ Utf8.RuneSelf then s.take (i + (Utf8.DecodeRuneInString (s.drop i)).2)
    else s.take (i + 1)
  | none => s.take 0

/-- The function `strings.TrimFunc`. -/
def TrimFunc (s : GoString) (f : Nat → Bool) : GoString :=
  TrimRightFunc (TrimLeftFunc s f) f

/-- The second loop of `strings.TrimSpace`, `for ; stop > start; stop--`, on
`t = s[start:]` with `stop` counted from `start`. -/
def TrimSpace.right (t : GoString) : Nat → GoString
  | 0 => t.take 0
  | stop + 1 =>
    let c := t.getD stop 0
    if c.val ≥ Utf8.RuneSelf then TrimRightFunc (t.take (stop + 1)) Unicode.IsSpace
    else if asciiSpace c = 0 then t.take (stop + 1)
    else TrimSpace.right t stop

/-- The function `strings.TrimSpace`: the first loop, `for ; start < len(s);
start++`, on the string from `start` on, then the second loop. -/
def TrimSpace : GoString → GoString
  | [] => TrimSpace.right [] 0
  | c :: cs =>
    if c.val ≥ Utf8.RuneSelf then TrimFunc (c :: cs) Unicode.IsSpace
    else if asciiSpace c = 0 then TrimSpace.right (c :: cs) (c :: cs).length
    else TrimSpace cs

end Strings

/-! ## Types declared outside `notebook.go` -/

/-- The type `metav1.Time` of k8s.io/apimachinery, a wrapper around Go's
`time.Time`, whose representation is a wall-clock word, a monotonic/extended
word and a location. The methods of `notebook.go` only store and return it. -/
structure Time where
  wall : Nat
  ext : Int
  loc : Option GoString
  deriving DecidableEq, Repr

/-- The type `batchv1.JobStatus` of k8s.io/api, kept by `NotebookStatus` only in
deprecated fields that no method of `notebook.go` reads. Its counters and
timestamps are carried along. -/
structure JobStatus where
  StartTime : Option Time
  CompletionTime : Option Time
  Active : Int
  Succeeded : Int
  Failed : Int
  deriving DecidableEq, Repr

/-- Modelled from the spec: `JobGradientStatus` is declared in another file of
package `v1`; the spec names no field of it and no method of `notebook.go`
embedded here reads it, so its content is carried as an uninterpreted value. -/
structure JobGradientStatus where
  raw : GoString
  deriving DecidableEq, Repr

/-- Modelled from the spec: `DownloadArtifactStatus` is declared in another file
of package `v1`; the spec only says it is the download status of one artifact,
and no method of `notebook.go` embedded here reads it, so its content is carried
as an uninterpreted value. -/
structure DownloadArtifactStatus where
  raw : GoString
  deriving DecidableEq, Repr

/-- Modelled from the spec: `PodStatus` is declared in another file of package
`v1`. The spec says a pod status object exposes a boolean "is deleted"
predicate; `Deleted` is what a non-null pod status reports. -/
structure PodStatus where
  Deleted : Bool
  deriving DecidableEq, Repr

/-- Modelled from the spec: the method `(*PodStatus).IsDeleted`, declared in
another file of package `v1`. The spec says a null/absent pod status is treated
as already deleted, and a non-null one reports its own deleted flag. -/
def PodStatus.IsDeleted : Option PodStatus → Bool
  | none => true
  | some ps => ps.Deleted

/-! ## `notebook.go`: image-upload credentials -/

/-- The struct `ImageUpload`: four transport-encoded strings. -/
structure ImageUpload where
  Registry : GoString
  Repository : GoString
  Username : GoString
  Password : GoString
  deriving DecidableEq, Repr

/-- The method `func (iu *ImageUpload) HasCredentials() bool`, `return iu != nil`. -/
def ImageUpload.HasCredentials (iu : Option ImageUpload) : Bool :=
  iu.isSome

/-- The type `DeserializedImageUpload`, declared as `type DeserializedImageUpload
ImageUpload`: a distinct type with the same four fields. The default value is
Go's zero value `DeserializedImageUpload{}`. -/
structure DeserializedImageUpload where
  Registry : GoString := []
  Repository : GoString := []
  Username : GoString := []
  Password : GoString := []
  deriving DecidableEq, Repr

/-- The method `func (iu *ImageUpload) GetDeserializedCredentials()
DeserializedImageUpload`: the zero value when `!iu.HasCredentials()`, otherwise
each field decoded by `base64.StdEncoding.DecodeString`, the error dropped
(`username, _ := ...`), converted to a string and passed to `strings.TrimSpace`. -/
def ImageUpload.GetDeserializedCredentials (iu : Option ImageUpload) :
    DeserializedImageUpload :=
  if !ImageUpload.HasCredentials iu then {}
  else
    match iu with
    | none => {}  -- not reached: `HasCredentials` is false on nil
    | some v =>
      let username := (Base64.DecodeString v.Username).1
      let password := (Base64.DecodeString v.Password).1
      let registry := (Base64.DecodeString v.Registry).1
      let repository := (Base64.DecodeString v.Repository).1
      { Registry := Strings.TrimSpace registry,
        Repository := Strings.TrimSpace repository,
        Username := Strings.TrimSpace username,
        Password := Strings.TrimSpace password }

/-! ## `notebook.go`: notebook state and status -/

/-- The type `NotebookState`, a string. -/
abbrev NotebookState := GoString

/-- The blank constant `_ NotebookState = ""`: the zero value of the type. -/
def NotebookStateUninitialized : NotebookState := ascii ""

/-- The constant `NotebookStateError`. -/
def NotebookStateError : NotebookState := ascii "Error"

/-- The constant `NotebookStateWaitingForVolume`. -/
def NotebookStateWaitingForVolume : NotebookState := ascii "WaitingForVolume"

/-- The constant `NotebookStateWaitingForArtifact`. -/
def NotebookStateWaitingForArtifact : NotebookState := ascii "WaitingForArtifact"

/-- The constant `NotebookStateDownloadArtifactError`. -/
def NotebookStateDownloadArtifactError : NotebookState := ascii "DownloadArtifactError"

/-- The constant `NotebookStateIngressError`. -/
def NotebookStateIngressError : NotebookState := ascii "IngressCreateError"

/-- The constant `NotebookStateServiceError`. -/
def NotebookStateServiceError : NotebookState := ascii "ServiceCreateError"

/-- The constant `NotebookStateFinished`. -/
def NotebookStateFinished : NotebookState := ascii "Finished"

/-- The constant `NotebookStatePodStarting`. -/
def NotebookStatePodStarting : NotebookState := ascii "PodStarting"

/-- The constant `NotebookStateRunning`. -/
def NotebookStateRunning : NotebookState := ascii "Running"

/-- The constant `NotebookStateTearingDown`. -/
def NotebookStateTearingDown : NotebookState := ascii "Teardown"

/-- The struct `NotebookStatus`, every field in source order. A Go map is an
association list (keys unique, order irrelevant); `int32` is an `Int`. -/
structure NotebookStatus where
  State : NotebookState
  GradientStatus : JobGradientStatus
  EndpointURL : GoString
  Message : GoString
  ImageSecretName : GoString
  LastUpdatedAt : Option Time
  RunningAt : Option Time
  ExitCode : Int
  PodStatus : Option GradientV1.PodStatus
  DownloadArtifactStatuses : List (GoString × DownloadArtifactStatus)
  NBConvertJobStatus : Option JobStatus
  WorkspaceUploadJobStatus : Option JobStatus
  ImageCacheJobStatus : Option JobStatus
  WorkspaceUploadPodStatus : Option GradientV1.PodStatus
  ImageCachePodStatus : Option GradientV1.PodStatus
  ServiceName : GoString
  IngressName : GoString
  NotebookNodeName : GoString
  WorkspaceExportJobStatus : Option JobStatus
  ImageExportJobStatus : Option JobStatus
  deriving DecidableEq, Repr

/-- The method `GetLastUpdatedAt`: `return ns.LastUpdatedAt`. -/
def NotebookStatus.GetLastUpdatedAt (ns : NotebookStatus) : Option Time :=
  ns.LastUpdatedAt

/-- The method `SetLastUpdatedAt`: `ns.LastUpdatedAt = &tim`, a pointer to the
method's own copy of the argument. Returns the updated receiver. -/
def NotebookStatus.SetLastUpdatedAt (ns : NotebookStatus) (tim : Time) : NotebookStatus :=
  { ns with LastUpdatedAt := some tim }

/-- The method `IsSuccess`: `return ns.State == NotebookStateFinished`. -/
def NotebookStatus.IsSuccess (ns : NotebookStatus) : Bool :=
  ns.State == NotebookStateFinished

/-- The method `IsErrored`: the state is one of the four error constants. -/
def NotebookStatus.IsErrored (ns : NotebookStatus) : Bool :=
  ns.State == NotebookStateError ||
    ns.State == NotebookStateDownloadArtifactError ||
    ns.State == NotebookStateIngressError ||
    ns.State == NotebookStateServiceError

/-- The method `NeedsGarbageCollection`:
`!ns.PodStatus.IsDeleted() || !ns.WorkspaceUploadPodStatus.IsDeleted() ||
!ns.ImageCachePodStatus.IsDeleted()`. -/
def NotebookStatus.NeedsGarbageCollection (ns : NotebookStatus) : Bool :=
  !GradientV1.PodStatus.IsDeleted ns.PodStatus ||
    !GradientV1.PodStatus.IsDeleted ns.WorkspaceUploadPodStatus ||
    !GradientV1.PodStatus.IsDeleted ns.ImageCachePodStatus

/-- The zero value of `NotebookStatus` with the given state and pod statuses,
used to build concrete statuses. -/
def NotebookStatus.zeroWith (st : NotebookState) (p w c : Option GradientV1.PodStatus) :
    NotebookStatus :=
  { State := st, GradientStatus := ⟨[]⟩, EndpointURL := [], Message := [],
    ImageSecretName := [], LastUpdatedAt := none, RunningAt := none, ExitCode := 0,
    PodStatus := p, DownloadArtifactStatuses := [], NBConvertJobStatus := none,
    WorkspaceUploadJobStatus := none, ImageCacheJobStatus := none,
    WorkspaceUploadPodStatus := w, ImageCachePodStatus := c, ServiceName := [],
    IngressName := [], NotebookNodeName := [], WorkspaceExportJobStatus := none,
    ImageExportJobStatus := none }

/-! ## Base64 as the spec words it (RFC 4648, standard alphabet, padded)

The spec speaks of fields that are "valid base64" and of their "base64-decoded"
bytes. The definitions below follow those words, independently of the Go decoder
above: the alphabet by character ranges, the bytes by arithmetic on groups of
four characters. -/

namespace RFC4648

/-- Spec wording: the "standard base64 alphabet". The value of an alphabet
character: `A`-`Z` are 0-25, `a`-`z` are 26-51, `0`-`9` are 52-61, `+` is 62 and
`/` is 63; any other byte is outside the alphabet. -/
def sextet (c : Byte) : Option Nat :=
  if 65 ≤ c.val ∧ c.val ≤ 90 then some (c.val - 65)
  else if 97 ≤ c.val ∧ c.val ≤ 122 then some (c.val - 97 + 26)
  else if 48 ≤ c.val ∧ c.val ≤ 57 then some (c.val - 48 + 52)
  else if c.val = 43 then some 62
  else if c.val = 47 then some 63
  else none

/-- Spec wording: the padding character `=`. -/
def pad : Byte := 61

/-- Spec wording: the "base64-decoded" bytes of a "valid" padded base64 string,
`none` when the string is not valid. A valid string is a sequence of groups of
four alphabet characters, each giving three bytes, where the last group may end
in `==` (one byte) or `=` (two bytes). -/
def decode : GoString → Option (List Byte)
  | [] => some []
  | a :: b :: c :: d :: rest =>
    match sextet a, sextet b with
    | some x, some y =>
      if rest = [] ∧ c = pad ∧ d = pad then some [Fin.ofNat (x * 4 + y / 16)]
      else
        match sextet c with
        | some z =>
          if rest = [] ∧ d = pad then
            some [Fin.ofNat (x * 4 + y / 16), Fin.ofNat (y % 16 * 16 + z / 4)]
          else
            match sextet d with
            | some w =>
              (decode rest).map (fun tl =>
                [Fin.ofNat (x * 4 + y / 16), Fin.ofNat (y % 16 * 16 + z / 4),
                  Fin.ofNat (z % 4 * 64 + w)] ++ tl)
            | none => none
        | none => none
    | _, _ => none
  | _ => none

end RFC4648

/-! ## Base64 encoding as the spec words it -/

namespace RFC4648

/-- Spec wording: the "standard base64 alphabet", from value to character: 0-25
are `A`-`Z`, 26-51 are `a`-`z`, 52-61 are `0`-`9`, 62 is `+` and 63 is `/`. -/
def alphabet (v : Nat) : Byte :=
  if v < 26 then Fin.ofNat (65 + v)
  else if v < 52 then Fin.ofNat (97 + (v - 26))
  else if v < 62 then Fin.ofNat (48 + (v - 52))
  else if v = 62 then 43
  else 47

/-- Spec wording: the "standard padded base64 encoding" of a byte string. Each
group of three bytes gives four alphabet characters; a last group of one byte
gives two characters and `==`, a last group of two bytes three characters and
`=`. -/
def encode : List Byte → GoString
  | [] => []
  | [a] => [alphabet (a.val / 4), alphabet (a.val % 4 * 16), pad, pad]
  | [a, b] =>
    [alphabet (a.val / 4), alphabet (a.val % 4 * 16 + b.val / 16), alphabet (b.val % 16 * 4), pad]
  | a :: b :: c :: rest =>
    [alphabet (a.val / 4), alphabet (a.val % 4 * 16 + b.val / 16),
      alphabet (b.val % 16 * 4 + c.val / 64), alphabet (c.val % 64)] ++ encode rest

end RFC4648

/-! ## The well-formed beginning of a string

What the decoder hands back for a string that is not valid base64 is described
with RFC 4648 only: the groups of four characters that are well formed, from the
beginning of the string up to the first group that is not. -/

namespace RFC4648

/-- The string without its new line characters `\r` and `\n`. -/
def withoutNewlines (s : GoString) : GoString :=
  s.filter (fun c => !(c = 10 ∨ c = 13))

/-- The bytes of the well-formed groups at the beginning of a string. A group of
four alphabet characters gives three bytes and the next group is looked at; a
group of two alphabet characters and `==` gives one byte, a group of three
alphabet characters and `=` gives two bytes, and such a group is the last one;
any other group, complete or not, gives nothing and ends the well-formed
beginning. -/
def beginning : GoString → List Byte
  | a :: b :: c :: d :: rest =>
    match sextet a, sextet b with
    | some x, some y =>
      if c = pad ∧ d = pad then [Fin.ofNat (x * 4 + y / 16)]
      else
        match sextet c with
        | some z =>
          if d = pad then [Fin.ofNat (x * 4 + y / 16), Fin.ofNat (y % 16 * 16 + z / 4)]
          else
            match sextet d with
            | some w =>
              [Fin.ofNat (x * 4 + y / 16), Fin.ofNat (y % 16 * 16 + z / 4),
                Fin.ofNat (z % 4 * 64 + w)] ++ beginning rest
            | none => []
        | none => []
    | _, _ => []
  | _ => []

end RFC4648

/-! ## Whitespace as the spec words it

The spec speaks of "leading" and "trailing whitespace" and of a value that is
"whitespace-trimmed". The definitions below follow those words, independently of
Go's `unicode`, `utf8` and `strings` above: the whitespace characters are the
code points with the Unicode property White_Space, in their UTF-8 encoding, and
trimming removes them one by one from the beginning and from the end of the byte
string. -/

namespace Whitespace

/-- Spec wording: "whitespace". The code points with the Unicode property
White_Space: U+0009 to U+000D, U+0020, U+0085, U+00A0, U+1680, U+2000 to U+200A,
U+2028, U+2029, U+202F, U+205F and U+3000. -/
def codePoints : List Nat :=
  [0x0009, 0x000A, 0x000B, 0x000C, 0x000D, 0x0020, 0x0085, 0x00A0, 0x1680,
   0x2000, 0x2001, 0x2002, 0x2003, 0x2004, 0x2005, 0x2006, 0x2007, 0x2008, 0x2009, 0x200A,
   0x2028, 0x2029, 0x202F, 0x205F, 0x3000]

/-- The UTF-8 encoding of a code point (RFC 3629): one byte below U+0080, two
bytes below U+0800, three bytes below U+10000, four bytes from there on. -/
def utf8 (c : Nat) : List Byte :=
  if c < 0x80 then [Fin.ofNat c]
  else if c < 0x800 then [Fin.ofNat (0xC0 + c / 0x40), Fin.ofNat (0x80 + c % 0x40)]
  else if c < 0x10000 then
    [Fin.ofNat (0xE0 + c / 0x1000), Fin.ofNat (0x80 + c / 0x40 % 0x40),
      Fin.ofNat (0x80 + c % 0x40)]
  else
    [Fin.ofNat (0xF0 + c / 0x40000), Fin.ofNat (0x80 + c / 0x1000 % 0x40),
      Fin.ofNat (0x80 + c / 0x40 % 0x40), Fin.ofNat (0x80 + c % 0x40)]

/-- The whitespace characters as they stand in a byte string. -/
def spaces : List (List Byte) :=
  codePoints.map utf8

/-- Spec wording: "leading whitespace". The whitespace character the string
begins with, `none` when it begins with none. -/
def leading (s : GoString) : Option (List Byte) :=
  spaces.find? (fun e => e.isPrefixOf s)

/-- Spec wording: "trailing whitespace". The whitespace character the string
ends with, `none` when it ends with none. -/
def trailing (s : GoString) : Option (List Byte) :=
  spaces.find? (fun e => e.isSuffixOf s)

/-- Removing the leading whitespace characters one by one; the first argument
bounds the number of characters removed (each has at least one byte). -/
def trimLeft.go : Nat → GoString → GoString
  | 0, s => s
  | n + 1, s =>
    match leading s with
    | some e => trimLeft.go n (s.drop e.length)
    | none => s

/-- The string without its leading whitespace. -/
def trimLeft (s : GoString) : GoString :=
  trimLeft.go s.length s

/-- Removing the trailing whitespace characters one by one; the first argument
bounds the number of characters removed. -/
def trimRight.go : Nat → GoString → GoString
  | 0, s => s
  | n + 1, s =>
    match trailing s with
    | some e => trimRight.go n (s.take (s.length - e.length))
    | none => s

/-- The string without its trailing whitespace. -/
def trimRight (s : GoString) : GoString :=
  trimRight.go s.length s

/-- Spec wording: "whitespace-trimmed", "with leading and trailing whitespace
trimmed". -/
def trim (s : GoString) : GoString :=
  trimRight (trimLeft s)

end Whitespace

/-! ## Statuses in memory: pointers, `CopyToStatus` and the deep copy

The methods above take a status by value, every pointer followed. To speak of a
copy that shares nothing with the original, the pointer fields are addresses
into a memory of cells here. -/

namespace Memory

/-- Modelled from the spec: what a pointer or map field of `NotebookStatus` can
refer to. The spec speaks of a status whose nested values (timestamps, pod
statuses, job statuses, the map of download statuses) are held by reference and
may be shared between two statuses unless they are deep-copied. -/
inductive Cell where
  | time (t : Time)
  | job (j : JobStatus)
  | pod (p : PodStatus)
  | artifacts (m : List (GoString × DownloadArtifactStatus))
  deriving DecidableEq, Repr

/-- Modelled from the spec: the memory in which statuses live, a list of cells;
an address is an index into it and a fresh cell is added at the end. -/
abbrev Heap := List Cell

/-- The struct `NotebookStatus` as it lies in memory: every field in source
order, the pointer fields (`*metav1.Time`, `*PodStatus`, `*batchv1.JobStatus`)
and the map field holding an address, `none` being `nil`. -/
structure NotebookStatusRef where
  State : NotebookState
  GradientStatus : JobGradientStatus
  EndpointURL : GoString
  Message : GoString
  ImageSecretName : GoString
  LastUpdatedAt : Option Nat
  RunningAt : Option Nat
  ExitCode : Int
  PodStatus : Option Nat
  DownloadArtifactStatuses : Option Nat
  NBConvertJobStatus : Option Nat
  WorkspaceUploadJobStatus : Option Nat
  ImageCacheJobStatus : Option Nat
  WorkspaceUploadPodStatus : Option Nat
  ImageCachePodStatus : Option Nat
  ServiceName : GoString
  IngressName : GoString
  NotebookNodeName : GoString
  WorkspaceExportJobStatus : Option Nat
  ImageExportJobStatus : Option Nat
  deriving DecidableEq, Repr

/-- The cell a pointer refers to: `some none` for `nil`, `none` for an address
outside the memory (which a Go pointer never is). -/
def readCell (h : Heap) : Option Nat → Option (Option Cell)
  | none => some none
  | some a => h[a]?.map some

/-- The timestamp behind a `*metav1.Time`. -/
def asTime : Option Cell → Option (Option Time)
  | none => some none
  | some (Cell.time t) => some (some t)
  | some _ => none

/-- The job status behind a `*batchv1.JobStatus`. -/
def asJob : Option Cell → Option (Option JobStatus)
  | none => some none
  | some (Cell.job j) => some (some j)
  | some _ => none

/-- The pod status behind a `*PodStatus`. -/
def asPod : Option Cell → Option (Option GradientV1.PodStatus)
  | none => some none
  | some (Cell.pod p) => some (some p)
  | some _ => none

/-- The entries behind a map field, a `nil` map having none. -/
def asArtifacts : Option Cell → Option (List (GoString × DownloadArtifactStatus))
  | none => some []
  | some (Cell.artifacts m) => some m
  | some _ => none

/-- The value of a status in memory, every pointer followed: the status as the
methods of `notebook.go` see it. `none` when a pointer does not refer to a cell
of its type. -/
def read (h : Heap) (r : NotebookStatusRef) : Option NotebookStatus :=
  (readCell h r.LastUpdatedAt).bind asTime |>.bind fun lastUpdatedAt =>
  (readCell h r.RunningAt).bind asTime |>.bind fun runningAt =>
  (readCell h r.PodStatus).bind asPod |>.bind fun podStatus =>
  (readCell h r.DownloadArtifactStatuses).bind asArtifacts |>.bind fun artifacts =>
  (readCell h r.NBConvertJobStatus).bind asJob |>.bind fun nbconvert =>
  (readCell h r.WorkspaceUploadJobStatus).bind asJob |>.bind fun workspaceUploadJob =>
  (readCell h r.ImageCacheJobStatus).bind asJob |>.bind fun imageCacheJob =>
  (readCell h r.WorkspaceUploadPodStatus).bind asPod |>.bind fun workspaceUploadPod =>
  (readCell h r.ImageCachePodStatus).bind asPod |>.bind fun imageCachePod =>
  (readCell h r.WorkspaceExportJobStatus).bind asJob |>.bind fun workspaceExport =>
  (readCell h r.ImageExportJobStatus).bind asJob |>.bind fun imageExport =>
  some
    { State := r.State, GradientStatus := r.GradientStatus, EndpointURL := r.EndpointURL,
      Message := r.Message, ImageSecretName := r.ImageSecretName,
      LastUpdatedAt := lastUpdatedAt, RunningAt := runningAt, ExitCode := r.ExitCode,
      PodStatus := podStatus, DownloadArtifactStatuses := artifacts,
      NBConvertJobStatus := nbconvert, WorkspaceUploadJobStatus := workspaceUploadJob,
      ImageCacheJobStatus := imageCacheJob, WorkspaceUploadPodStatus := workspaceUploadPod,
      ImageCachePodStatus := imageCachePod, ServiceName := r.ServiceName,
      IngressName := r.IngressName, NotebookNodeName := r.NotebookNodeName,
      WorkspaceExportJobStatus := workspaceExport, ImageExportJobStatus := imageExport }

/-- Modelled from the spec: the deep copy of one pointer field, as the generated
`DeepCopyInto` (not under `src/`) does it: `nil` stays `nil`, otherwise a fresh
cell is allocated and the content copied into it. -/
def copyPtr (h : Heap) : Option Nat → Heap × Option Nat
  | none => (h, none)
  | some a =>
    match h[a]? with
    | some c => (h ++ [c], some h.length)
    | none => (h, none)

/-- Modelled from the spec: the generated method `DeepCopy` of `NotebookStatus`
(file `zz_generated.deepcopy.go`, not under `src/`), which the spec describes as
"producing an independent deep copy of the status": the struct is copied and
every pointer and map field is copied into a fresh cell, in source order.
Returns the memory after the allocations and the copy. -/
def DeepCopy (h : Heap) (r : NotebookStatusRef) : Heap × NotebookStatusRef :=
  let c1 := copyPtr h r.LastUpdatedAt
  let c2 := copyPtr c1.1 r.RunningAt
  let c3 := copyPtr c2.1 r.PodStatus
  let c4 := copyPtr c3.1 r.DownloadArtifactStatuses
  let c5 := copyPtr c4.1 r.NBConvertJobStatus
  let c6 := copyPtr c5.1 r.WorkspaceUploadJobStatus
  let c7 := copyPtr c6.1 r.ImageCacheJobStatus
  let c8 := copyPtr c7.1 r.WorkspaceUploadPodStatus
  let c9 := copyPtr c8.1 r.ImageCachePodStatus
  let c10 := copyPtr c9.1 r.WorkspaceExportJobStatus
  let c11 := copyPtr c10.1 r.ImageExportJobStatus
  (c11.1,
    { r with
      LastUpdatedAt := c1.2, RunningAt := c2.2, PodStatus := c3.2,
      DownloadArtifactStatuses := c4.2, NBConvertJobStatus := c5.2,
      WorkspaceUploadJobStatus := c6.2, ImageCacheJobStatus := c7.2,
      WorkspaceUploadPodStatus := c8.2, ImageCachePodStatus := c9.2,
      WorkspaceExportJobStatus := c10.2, ImageExportJobStatus := c11.2 })

/-- The method `CopyToStatus`: `return ns.DeepCopy()`. -/
def CopyToStatus (h : Heap) (r : NotebookStatusRef) : Heap × NotebookStatusRef :=
  DeepCopy h r

/-- The method `SetLastUpdatedAt` on a status in memory: `ns.LastUpdatedAt =
&tim`, the address of a fresh cell holding the argument. -/
def SetLastUpdatedAt (h : Heap) (r : NotebookStatusRef) (tim : Time) :
    Heap × NotebookStatusRef :=
  (h ++ [Cell.time tim], { r with LastUpdatedAt := some h.length })

/-- The assignment `*p = ps` through a `*PodStatus` at address `a`: a mutation
of the nested pod status. -/
def writePod (h : Heap) (a : Nat) (ps : GradientV1.PodStatus) : Heap :=
  h.set a (Cell.pod ps)

/-- The zero value of `NotebookStatus` in memory with the given state,
`LastUpdatedAt` pointer and `PodStatus` pointer, used to build concrete
statuses. -/
def NotebookStatusRef.zeroWith (st : NotebookState) (lu p : Option Nat) : NotebookStatusRef :=
  { State := st, GradientStatus := ⟨[]⟩, EndpointURL := [], Message := [],
    ImageSecretName := [], LastUpdatedAt := lu, RunningAt := none, ExitCode := 0,
    PodStatus := p, DownloadArtifactStatuses := none, NBConvertJobStatus := none,
    WorkspaceUploadJobStatus := none, ImageCacheJobStatus := none,
    WorkspaceUploadPodStatus := none, ImageCachePodStatus := none, ServiceName := [],
    IngressName := [], NotebookNodeName := [], WorkspaceExportJobStatus := none,
    ImageExportJobStatus := none }

end Memory

/-! ## The Go decoder on valid base64: it returns the RFC 4648 bytes and no error -/

namespace Base64

set_option maxRecDepth 1000000 in
theorem sextet_decodeMap_all : ∀ c : Byte,
    RFC4648.sextet c = none ∨ (RFC4648.sextet c = some (decodeMap c) ∧ decodeMap c < 64) := by
  decide

theorem sextet_decodeMap {c : Byte} {v : Nat} (h : RFC4648.sextet c = some v) :
    decodeMap c = v ∧ v < 64 := by
  rcases sextet_decodeMap_all c with h0 | ⟨h1, h2⟩
  · rw [h] at h0; cases h0
  · rw [h] at h1; cases h1; exact ⟨rfl, h2⟩

theorem sextet_val_eq (x y z w : Nat) (hy : y < 64) (hz : z < 64) (hw : w < 64) :
    x <<< 18 ||| y <<< 12 ||| z <<< 6 ||| w = x * 262144 + y * 4096 + z * 64 + w := by
  have h1 : z <<< 6 ||| w = z * 64 + w := by
    have := Nat.mul_add_lt_is_or (i := 6) (b := w) (by omega) z
    rw [Nat.shiftLeft_eq, Nat.mul_comm]; omega
  have h2 : y <<< 12 ||| (z * 64 + w) = y * 4096 + (z * 64 + w) := by
    have := Nat.mul_add_lt_is_or (i := 12) (b := z * 64 + w) (by omega) y
    rw [Nat.shiftLeft_eq, Nat.mul_comm]; omega
  have h3 : x <<< 18 ||| (y * 4096 + (z * 64 + w)) = x * 262144 + (y * 4096 + (z * 64 + w)) := by
    have := Nat.mul_add_lt_is_or (i := 18) (b := y * 4096 + (z * 64 + w)) (by omega) x
    rw [Nat.shiftLeft_eq, Nat.mul_comm]; omega
  rw [Nat.lor_assoc, Nat.lor_assoc, h1, h2, h3]; omega

theorem quantumBytes_four {x y z w : Nat} (hy : y < 64) (hz : z < 64)
    (hw : w < 64) :
    quantumBytes [x, y, z, w] 4 =
      [Fin.ofNat (x * 4 + y / 16), Fin.ofNat (y % 16 * 16 + z / 4), Fin.ofNat (z % 4 * 64 + w)] := by
  simp only [quantumBytes, List.getD_cons_zero, List.getD_cons_succ, sextet_val_eq x y z w hy hz hw,
    Nat.shiftRight_eq_div_pow]
  simp only [Nat.add_one_sub_one, List.take_succ_cons, List.take_zero, List.cons.injEq, and_true]
  refine ⟨?_, ?_, ?_⟩ <;> (apply Fin.ext; simp only [Fin.ofNat]; omega)

theorem quantumBytes_three {x y z : Nat} (hy : y < 64) (hz : z < 64) :
    quantumBytes [x, y, z] 3 =
      [Fin.ofNat (x * 4 + y / 16), Fin.ofNat (y % 16 * 16 + z / 4)] := by
  have h := sextet_val_eq x y z 0 hy hz (by omega)
  simp only [quantumBytes, List.length_cons, List.length_nil, List.getD_cons_zero, List.getD_cons_succ, List.getD_nil, h,
    Nat.shiftRight_eq_div_pow]
  simp only [List.take_succ_cons, List.take_zero, List.cons.injEq, and_true]
  refine ⟨?_, ?_⟩ <;> (apply Fin.ext; simp only [Fin.ofNat]; omega)

theorem quantumBytes_two {x y : Nat} (hy : y < 64) :
    quantumBytes [x, y] 2 = [Fin.ofNat (x * 4 + y / 16)] := by
  have h := sextet_val_eq x y 0 0 hy (by omega) (by omega)
  simp only [Nat.zero_shiftLeft] at h
  simp only [quantumBytes, List.length_cons, List.length_nil, List.getD_cons_zero, List.getD_cons_succ, List.getD_nil,
    Nat.zero_shiftLeft, h, Nat.shiftRight_eq_div_pow]
  simp only [List.take_succ_cons, List.take_zero, List.cons.injEq, and_true]
  apply Fin.ext; simp only [Fin.ofNat]; omega

theorem loop_sextet (dbuf : List Nat) (si : Nat) {c : Byte} (cs : GoString) {v : Nat}
    (h : RFC4648.sextet c = some v) (hl : dbuf.length < 4) :
    decodeQuantum.loop dbuf si (c :: cs) = decodeQuantum.loop (dbuf ++ [v]) (si + 1) cs := by
  obtain ⟨h1, h2⟩ := sextet_decodeMap h
  have h3 : decodeMap c ≠ 255 := by omega
  have h4 : ¬ 4 ≤ dbuf.length := by omega
  rw [decodeQuantum.loop]
  rw [h1] at h3
  simp only [h4, if_false, h3, ne_eq, not_false_eq_true, if_true, h1]

theorem loop_done (dbuf : List Nat) (si : Nat) (rest : GoString) (h : 4 ≤ dbuf.length) :
    decodeQuantum.loop dbuf si rest = ⟨si, rest, quantumBytes dbuf 4, none⟩ := by
  cases rest <;> simp [decodeQuantum.loop, h]

theorem loop_pad (dbuf : List Nat) (si : Nat) (cs : GoString) (hl : dbuf.length < 4) :
    decodeQuantum.loop dbuf si (RFC4648.pad :: cs) = decodePadding dbuf (si + 1) cs := by
  have h4 : ¬ 4 ≤ dbuf.length := by omega
  rw [decodeQuantum.loop]
  simp only [h4, if_false]
  rfl

theorem skipNewlines_nil (si : Nat) : skipNewlines si [] = (si, []) := rfl

theorem skipNewlines_pad (si : Nat) (cs : GoString) :
    skipNewlines si ((61 : Byte) :: cs) = (si, (61 : Byte) :: cs) := rfl

theorem Decode_loop_nil (fuel si : Nat) (dst : List Byte) :
    Decode.loop fuel si [] dst = (dst, none) := by
  cases fuel <;> simp [Decode.loop]

theorem decodeQuantum_full {a b c d : Byte} {x y z w : Nat} (si : Nat) (rest : GoString)
    (ha : RFC4648.sextet a = some x) (hb : RFC4648.sextet b = some y)
    (hc : RFC4648.sextet c = some z) (hd : RFC4648.sextet d = some w) :
    decodeQuantum si (a :: b :: c :: d :: rest) =
      ⟨si + 4, rest, [Fin.ofNat (x * 4 + y / 16), Fin.ofNat (y % 16 * 16 + z / 4),
        Fin.ofNat (z % 4 * 64 + w)], none⟩ := by
  unfold decodeQuantum
  rw [loop_sextet [] si _ ha (by simp), loop_sextet _ _ _ hb (by simp),
    loop_sextet _ _ _ hc (by simp), loop_sextet _ _ _ hd (by simp), loop_done _ _ _ (by simp)]
  simp only [List.nil_append, List.cons_append]
  rw [quantumBytes_four (sextet_decodeMap hb).2 (sextet_decodeMap hc).2 (sextet_decodeMap hd).2]

theorem decodeQuantum_pad2 {a b : Byte} {x y : Nat} (si : Nat)
    (ha : RFC4648.sextet a = some x) (hb : RFC4648.sextet b = some y) :
    decodeQuantum si [a, b, RFC4648.pad, RFC4648.pad] =
      ⟨si + 4, [], [Fin.ofNat (x * 4 + y / 16)], none⟩ := by
  unfold decodeQuantum
  rw [loop_sextet [] si _ ha (by simp), loop_sextet _ _ _ hb (by simp), loop_pad _ _ _ (by simp)]
  simp only [List.nil_append, List.cons_append]
  have hq := quantumBytes_two (x := x) (sextet_decodeMap hb).2
  simp [decodePadding, skipNewlines_pad, decodePadding.finish, skipNewlines_nil, hq, RFC4648.pad,
    StdPadding]

theorem decodeQuantum_pad1 {a b c : Byte} {x y z : Nat} (si : Nat)
    (ha : RFC4648.sextet a = some x) (hb : RFC4648.sextet b = some y)
    (hc : RFC4648.sextet c = some z) :
    decodeQuantum si [a, b, c, RFC4648.pad] =
      ⟨si + 4, [], [Fin.ofNat (x * 4 + y / 16), Fin.ofNat (y % 16 * 16 + z / 4)], none⟩ := by
  unfold decodeQuantum
  rw [loop_sextet [] si _ ha (by simp), loop_sextet _ _ _ hb (by simp),
    loop_sextet _ _ _ hc (by simp), loop_pad _ _ _ (by simp)]
  simp only [List.nil_append, List.cons_append]
  have hq := quantumBytes_three (x := x) (sextet_decodeMap hb).2 (sextet_decodeMap hc).2
  simp [decodePadding, decodePadding.finish, skipNewlines_nil, hq]

theorem Decode_loop_valid (n : Nat) : ∀ (enc : GoString) (bytes : List Byte),
    enc.length ≤ n → RFC4648.decode enc = some bytes →
    ∀ (fuel si : Nat) (dst : List Byte), enc.length ≤ fuel →
      Decode.loop fuel si enc dst = (dst ++ bytes, none) := by
  induction n with
  | zero =>
    intro enc bytes hn h fuel si dst _
    have : enc = [] := List.length_eq_zero.mp (by omega)
    subst this
    simp only [RFC4648.decode, Option.some.injEq] at h
    subst h
    simp [Decode_loop_nil]
  | succ n ih =>
    intro enc bytes hn h fuel si dst hf
    match enc, h, hn, hf with
    | [], h, _, _ =>
      simp only [RFC4648.decode, Option.some.injEq] at h
      subst h
      simp [Decode_loop_nil]
    | [_], h, _, _ => simp [RFC4648.decode] at h
    | [_, _], h, _, _ => simp [RFC4648.decode] at h
    | [_, _, _], h, _, _ => simp [RFC4648.decode] at h
    | a :: b :: c :: d :: rest, h, hn, hf =>
      obtain ⟨f, rfl⟩ : ∃ f, fuel = f + 1 := ⟨fuel - 1, by simp at hf; omega⟩
      have hlen : rest.length ≤ n := by simp at hn; omega
      have hfl : rest.length ≤ f := by simp at hf; omega
      rw [RFC4648.decode] at h
      cases ha : RFC4648.sextet a with
      | none => simp [ha] at h
      | some x =>
        cases hb : RFC4648.sextet b with
        | none => simp [ha, hb] at h
        | some y =>
          simp only [ha, hb] at h
          split at h
          · rename_i hp
            obtain ⟨rfl, rfl, rfl⟩ := hp
            simp only [Option.some.injEq] at h
            subst h
            simp [Decode.loop, decodeQuantum_pad2 si ha hb, Decode_loop_nil]
          · cases hc : RFC4648.sextet c with
            | none => simp [hc] at h
            | some z =>
              simp only [hc] at h
              split at h
              · rename_i hp
                obtain ⟨rfl, rfl⟩ := hp
                simp only [Option.some.injEq] at h
                subst h
                simp [Decode.loop, decodeQuantum_pad1 si ha hb hc, Decode_loop_nil]
              · cases hd : RFC4648.sextet d with
                | none => simp [hd] at h
                | some w =>
                  simp only [hd, Option.map_eq_some'] at h
                  obtain ⟨tl, htl, rfl⟩ := h
                  have := ih rest tl hlen htl f (si + 4)
                    (dst ++ [Fin.ofNat (x * 4 + y / 16), Fin.ofNat (y % 16 * 16 + z / 4),
                      Fin.ofNat (z % 4 * 64 + w)]) hfl
                  simp [Decode.loop, decodeQuantum_full si rest ha hb hc hd, this]

end Base64

/-! ## The Go decoder on any input: the bytes it returns are those of a well-formed beginning -/

namespace Base64

theorem skipNewlines_split (rest : GoString) : ∀ si : Nat,
    ∃ nl, rest = nl ++ (skipNewlines si rest).2 ∧
      skipNewlines si nl = ((skipNewlines si rest).1, []) ∧
      ∀ c cs cs', (skipNewlines si rest).2 = c :: cs →
        skipNewlines si (nl ++ c :: cs') = ((skipNewlines si rest).1, c :: cs') := by
  induction rest with
  | nil => intro si; exact ⟨[], by simp [skipNewlines]⟩
  | cons a as ih =>
    intro si
    by_cases h : a = 10 ∨ a = 13
    · obtain ⟨nl, h1, h2, h3⟩ := ih (si + 1)
      refine ⟨a :: nl, ?_, ?_, ?_⟩
      · simp only [skipNewlines, h, if_true, List.cons_append]; rw [← h1]
      · simp only [skipNewlines, h, if_true]; exact h2
      · intro c cs cs' hc
        simp only [skipNewlines, h, if_true] at hc
        simp only [skipNewlines, h, if_true, List.cons_append]
        exact h3 c cs cs' hc
    · refine ⟨[], ?_, ?_, ?_⟩
      · simp [skipNewlines, h]
      · simp [skipNewlines, h]
      · intro c cs cs' hc
        simp only [skipNewlines, h, if_false, List.cons.injEq] at hc
        obtain ⟨rfl, rfl⟩ := hc
        simp [skipNewlines, h]

theorem finish_err (dbuf : List Nat) (si : Nat) (rest : GoString)
    (_h : (decodePadding.finish dbuf si rest).err ≠ none) :
    ∃ ch, ch <+: rest ∧
      decodePadding.finish dbuf si ch =
        ⟨(decodePadding.finish dbuf si rest).nsi, [], (decodePadding.finish dbuf si rest).out,
          none⟩ := by
  obtain ⟨nl, h1, h2, -⟩ := skipNewlines_split rest si
  refine ⟨nl, ⟨_, h1.symm⟩, ?_⟩
  simp [decodePadding.finish, h2]

theorem finish_ok (dbuf : List Nat) (si : Nat) (rest : GoString)
    (h : (decodePadding.finish dbuf si rest).err = none) :
    (decodePadding.finish dbuf si rest).rest = [] := by
  simp only [decodePadding.finish] at h ⊢
  by_contra hne
  simp [hne] at h

theorem decodePadding_lt2 (dbuf : List Nat) (si : Nat) (rest : GoString)
    (h : dbuf.length = 0 ∨ dbuf.length = 1) :
    decodePadding dbuf si rest = ⟨si, rest, [], some ⟨(si : Int) - 1⟩⟩ := by
  unfold decodePadding
  simp only
  rw [if_pos h]

theorem decodePadding_two_nil (dbuf : List Nat) (si : Nat) (rest : GoString)
    (h : dbuf.length = 2) (hs : (skipNewlines si rest).2 = []) :
    decodePadding dbuf si rest =
      ⟨(skipNewlines si rest).1, [], [], some ⟨((skipNewlines si rest).1 : Int)⟩⟩ := by
  have hsr : skipNewlines si rest = ((skipNewlines si rest).1, []) := by rw [← hs]
  unfold decodePadding
  simp only
  rw [if_neg (by omega), if_pos h, hsr]

theorem decodePadding_two_bad (dbuf : List Nat) (si : Nat) (rest : GoString) {c : Byte}
    {cs : GoString} (h : dbuf.length = 2) (hs : (skipNewlines si rest).2 = c :: cs)
    (hc : c ≠ StdPadding) :
    decodePadding dbuf si rest =
      ⟨(skipNewlines si rest).1, c :: cs, [], some ⟨((skipNewlines si rest).1 : Int) - 1⟩⟩ := by
  have hsr : skipNewlines si rest = ((skipNewlines si rest).1, c :: cs) := by rw [← hs]
  unfold decodePadding
  simp only
  rw [if_neg (by omega), if_pos h, hsr]
  simp only
  rw [if_pos hc]

theorem decodePadding_two_pad (dbuf : List Nat) (si : Nat) (rest : GoString)
    {cs : GoString} (h : dbuf.length = 2) (hs : (skipNewlines si rest).2 = StdPadding :: cs) :
    decodePadding dbuf si rest = decodePadding.finish dbuf ((skipNewlines si rest).1 + 1) cs := by
  have hsr : skipNewlines si rest = ((skipNewlines si rest).1, StdPadding :: cs) := by rw [← hs]
  unfold decodePadding
  simp only
  rw [if_neg (by omega), if_pos h, hsr]
  simp only [ne_eq, not_true_eq_false, if_false]

theorem decodePadding_three (dbuf : List Nat) (si : Nat) (rest : GoString)
    (h : 3 ≤ dbuf.length) :
    decodePadding dbuf si rest = decodePadding.finish dbuf si rest := by
  unfold decodePadding
  simp only
  rw [if_neg (by omega), if_neg (by omega)]

theorem decodePadding_ok (dbuf : List Nat) (si : Nat) (rest : GoString)
    (h : (decodePadding dbuf si rest).err = none) :
    (decodePadding dbuf si rest).rest = [] := by
  by_cases h1 : dbuf.length = 0 ∨ dbuf.length = 1
  · rw [decodePadding_lt2 _ _ _ h1] at h; simp at h
  · by_cases h2 : dbuf.length = 2
    · cases hs : (skipNewlines si rest).2 with
      | nil => rw [decodePadding_two_nil _ _ _ h2 hs]
      | cons c cs =>
        by_cases hc : c = StdPadding
        · subst hc
          rw [decodePadding_two_pad _ _ _ h2 hs] at h ⊢
          exact finish_ok _ _ _ h
        · rw [decodePadding_two_bad _ _ _ h2 hs hc] at h; simp at h
    · rw [decodePadding_three _ _ _ (by omega)] at h ⊢
      exact finish_ok _ _ _ h

theorem decodePadding_err (dbuf : List Nat) (si : Nat) (rest : GoString)
    (h : (decodePadding dbuf si rest).err ≠ none) :
    (decodePadding dbuf si rest).out = [] ∨
      ∃ ch, ch <+: rest ∧
        decodePadding dbuf si ch =
          ⟨(decodePadding dbuf si rest).nsi, [], (decodePadding dbuf si rest).out, none⟩ := by
  by_cases h1 : dbuf.length = 0 ∨ dbuf.length = 1
  · left; rw [decodePadding_lt2 _ _ _ h1]
  · by_cases h2 : dbuf.length = 2
    · obtain ⟨nl, e1, e2, e3⟩ := skipNewlines_split rest si
      cases hs : (skipNewlines si rest).2 with
      | nil => left; rw [decodePadding_two_nil _ _ _ h2 hs]
      | cons c cs =>
        by_cases hc : c = StdPadding
        · subst hc
          right
          rw [decodePadding_two_pad _ _ _ h2 hs] at h ⊢
          obtain ⟨ch, ⟨t, ht⟩, hch⟩ := finish_err dbuf ((skipNewlines si rest).1 + 1) cs h
          have e4 := e3 StdPadding cs ch hs
          refine ⟨nl ++ StdPadding :: ch, ⟨t, ?_⟩, ?_⟩
          · rw [e1, hs, ← ht]; simp
          · have hs' : (skipNewlines si (nl ++ StdPadding :: ch)).2 = StdPadding :: ch := by
              rw [e4]
            rw [decodePadding_two_pad _ _ _ h2 hs', e4]
            exact hch
        · left; rw [decodePadding_two_bad _ _ _ h2 hs hc]
    · right
      have h3 : 3 ≤ dbuf.length := by omega
      rw [decodePadding_three _ _ _ h3] at h ⊢
      obtain ⟨ch, hp, hch⟩ := finish_err dbuf si rest h
      exact ⟨ch, hp, by rw [decodePadding_three _ _ _ h3]; exact hch⟩

theorem loop_cons_alpha (dbuf : List Nat) (si : Nat) (c : Byte) (cs : GoString)
    (hl : dbuf.length < 4) (hc : decodeMap c ≠ 0xff) :
    decodeQuantum.loop dbuf si (c :: cs) =
      decodeQuantum.loop (dbuf ++ [decodeMap c]) (si + 1) cs := by
  rw [decodeQuantum.loop, if_neg (by omega), if_pos hc]

theorem loop_cons_newline (dbuf : List Nat) (si : Nat) (c : Byte) (cs : GoString)
    (hl : dbuf.length < 4) (hc : ¬ decodeMap c ≠ 0xff) (hn : c = 10 ∨ c = 13) :
    decodeQuantum.loop dbuf si (c :: cs) = decodeQuantum.loop dbuf (si + 1) cs := by
  rw [decodeQuantum.loop, if_neg (by omega), if_neg hc, if_pos hn]

theorem loop_cons_bad (dbuf : List Nat) (si : Nat) (c : Byte) (cs : GoString)
    (hl : dbuf.length < 4) (hc : ¬ decodeMap c ≠ 0xff) (hn : ¬ (c = 10 ∨ c = 13))
    (hp : c ≠ StdPadding) :
    decodeQuantum.loop dbuf si (c :: cs) =
      ⟨si + 1, cs, [], some ⟨((si + 1 : Nat) : Int) - 1⟩⟩ := by
  rw [decodeQuantum.loop, if_neg (by omega), if_neg hc, if_neg hn, if_pos hp]

theorem loop_cons_pad (dbuf : List Nat) (si : Nat) (c : Byte) (cs : GoString)
    (hl : dbuf.length < 4) (hc : ¬ decodeMap c ≠ 0xff) (hn : ¬ (c = 10 ∨ c = 13))
    (hp : ¬ c ≠ StdPadding) :
    decodeQuantum.loop dbuf si (c :: cs) = decodePadding dbuf (si + 1) cs := by
  rw [decodeQuantum.loop, if_neg (by omega), if_neg hc, if_neg hn, if_neg hp]

theorem loop_nil (dbuf : List Nat) (si : Nat) (hl : dbuf.length = 0) :
    decodeQuantum.loop dbuf si [] = ⟨si, [], [], none⟩ := by
  rw [decodeQuantum.loop, if_neg (by omega), if_pos hl]

/-- When `decodeQuantum` fails, either it stored nothing, or (trailing garbage
after a padded quantum) the bytes it stored are those it stores, without error,
on a part of the source that ends before the garbage. -/
theorem loop_err (rest : GoString) : ∀ (dbuf : List Nat) (si : Nat),
    (decodeQuantum.loop dbuf si rest).err ≠ none →
      (decodeQuantum.loop dbuf si rest).out = [] ∨
        ∃ ch, ch <+: rest ∧ ch ≠ [] ∧
          decodeQuantum.loop dbuf si ch =
            ⟨(decodeQuantum.loop dbuf si rest).nsi, [], (decodeQuantum.loop dbuf si rest).out,
              none⟩ := by
  induction rest with
  | nil =>
    intro dbuf si h
    left
    rw [decodeQuantum.loop]
    split
    · rename_i h4; rw [decodeQuantum.loop, if_pos h4] at h; simp at h
    · split <;> rfl
  | cons c cs ih =>
    intro dbuf si h
    by_cases hl : 4 ≤ dbuf.length
    · rw [loop_done _ _ _ hl] at h; simp at h
    · have hl' : dbuf.length < 4 := by omega
      by_cases hc : decodeMap c ≠ 0xff
      · rw [loop_cons_alpha _ _ _ _ hl' hc] at h ⊢
        rcases ih _ _ h with h0 | ⟨ch, ⟨t, ht⟩, -, hch⟩
        · exact Or.inl h0
        · refine Or.inr ⟨c :: ch, ⟨t, by rw [← ht]; simp⟩, by simp, ?_⟩
          rw [loop_cons_alpha _ _ _ _ hl' hc]; exact hch
      · by_cases hn : c = 10 ∨ c = 13
        · rw [loop_cons_newline _ _ _ _ hl' hc hn] at h ⊢
          rcases ih _ _ h with h0 | ⟨ch, ⟨t, ht⟩, -, hch⟩
          · exact Or.inl h0
          · refine Or.inr ⟨c :: ch, ⟨t, by rw [← ht]; simp⟩, by simp, ?_⟩
            rw [loop_cons_newline _ _ _ _ hl' hc hn]; exact hch
        · by_cases hp : c ≠ StdPadding
          · left; rw [loop_cons_bad _ _ _ _ hl' hc hn hp]
          · rw [loop_cons_pad _ _ _ _ hl' hc hn hp] at h ⊢
            rcases decodePadding_err _ _ _ h with h0 | ⟨ch, ⟨t, ht⟩, hch⟩
            · exact Or.inl h0
            · refine Or.inr ⟨c :: ch, ⟨t, by rw [← ht]; simp⟩, by simp, ?_⟩
              rw [loop_cons_pad _ _ _ _ hl' hc hn hp]; exact hch

/-- When `decodeQuantum` succeeds it has consumed a part `ch` of the source, and
it does the same on `ch` followed by any beginning of what it left. -/
theorem loop_ok (rest : GoString) : ∀ (dbuf : List Nat) (si : Nat),
    (decodeQuantum.loop dbuf si rest).err = none →
      ∃ ch, rest = ch ++ (decodeQuantum.loop dbuf si rest).rest ∧
        (dbuf.length < 4 → rest ≠ [] → ch ≠ []) ∧
        ∀ pre, pre <+: (decodeQuantum.loop dbuf si rest).rest →
          decodeQuantum.loop dbuf si (ch ++ pre) =
            ⟨(decodeQuantum.loop dbuf si rest).nsi, pre, (decodeQuantum.loop dbuf si rest).out,
              none⟩ := by
  induction rest with
  | nil =>
    intro dbuf si h
    refine ⟨[], ?_, by simp, ?_⟩
    · rw [decodeQuantum.loop]; split
      · rfl
      · split <;> rfl
    · intro pre hp
      have hr : (decodeQuantum.loop dbuf si []).rest = [] := by
        rw [decodeQuantum.loop]; split
        · rfl
        · split <;> rfl
      rw [hr] at hp
      have : pre = [] := List.prefix_nil.mp hp
      subst this
      simp only [List.append_nil]
      generalize hq : decodeQuantum.loop dbuf si [] = q at h hr
      cases q; simp_all
  | cons c cs ih =>
    intro dbuf si h
    by_cases hl : 4 ≤ dbuf.length
    · rw [loop_done _ _ _ hl]
      refine ⟨[], by simp, by omega, ?_⟩
      intro pre _
      simp [loop_done _ _ _ hl]
    · have hl' : dbuf.length < 4 := by omega
      by_cases hc : decodeMap c ≠ 0xff
      · rw [loop_cons_alpha _ _ _ _ hl' hc] at h ⊢
        obtain ⟨ch, e1, -, e3⟩ := ih _ _ h
        refine ⟨c :: ch, by rw [List.cons_append, ← e1], by simp, ?_⟩
        intro pre hp
        rw [List.cons_append, loop_cons_alpha _ _ _ _ hl' hc]
        exact e3 pre hp
      · by_cases hn : c = 10 ∨ c = 13
        · rw [loop_cons_newline _ _ _ _ hl' hc hn] at h ⊢
          obtain ⟨ch, e1, -, e3⟩ := ih _ _ h
          refine ⟨c :: ch, by rw [List.cons_append, ← e1], by simp, ?_⟩
          intro pre hp
          rw [List.cons_append, loop_cons_newline _ _ _ _ hl' hc hn]
          exact e3 pre hp
        · by_cases hp : c ≠ StdPadding
          · rw [loop_cons_bad _ _ _ _ hl' hc hn hp] at h; simp at h
          · rw [loop_cons_pad _ _ _ _ hl' hc hn hp] at h ⊢
            have hr := decodePadding_ok _ _ _ h
            refine ⟨c :: cs, by rw [hr]; simp, by simp, ?_⟩
            intro pre hpre
            rw [hr] at hpre
            have : pre = [] := List.prefix_nil.mp hpre
            subst this
            simp only [List.append_nil]
            rw [loop_cons_pad _ _ _ _ hl' hc hn hp]
            generalize hq : decodePadding dbuf (si + 1) cs = q at h hr
            cases q; simp_all

/-- The bytes `Decode` returns, with or without an error, are the bytes it
returns without error on some beginning of the source. -/
theorem Decode_loop_pre (fuel : Nat) : ∀ (si : Nat) (rest : GoString) (dst : List Byte),
    rest.length ≤ fuel →
      ∃ pre, pre <+: rest ∧ ∀ fuel', pre.length ≤ fuel' →
        Decode.loop fuel' si pre dst = ((Decode.loop fuel si rest dst).1, none) := by
  induction fuel with
  | zero =>
    intro si rest dst hf
    have : rest = [] := List.length_eq_zero.mp (by omega)
    subst this
    exact ⟨[], List.prefix_refl _, fun f _ => by simp [Decode_loop_nil]⟩
  | succ fuel ih =>
    intro si rest dst hf
    by_cases hr : rest = []
    · subst hr
      exact ⟨[], List.prefix_refl _, fun f _ => by simp [Decode_loop_nil]⟩
    · by_cases he : (decodeQuantum si rest).err = none
      · obtain ⟨ch, e1, e2, e3⟩ := loop_ok rest [] si he
        have hch : ch ≠ [] := e2 (by simp) hr
        have hlen : (decodeQuantum si rest).rest.length ≤ fuel := by
          have := congrArg List.length e1
          have : 0 < ch.length := List.length_pos.mpr hch
          simp only [List.length_append] at *
          unfold decodeQuantum
          omega
        obtain ⟨pre, hpre, hpre2⟩ := ih (decodeQuantum si rest).nsi (decodeQuantum si rest).rest
          (dst ++ (decodeQuantum si rest).out) hlen
        refine ⟨ch ++ pre, ?_, ?_⟩
        · obtain ⟨t, ht⟩ := hpre
          refine ⟨t, ?_⟩
          rw [List.append_assoc, ht]
          exact e1.symm
        · intro fuel' hf'
          have hq := e3 pre hpre
          obtain ⟨f, rfl⟩ : ∃ f, fuel' = f + 1 := by
            have : 0 < ch.length := List.length_pos.mpr hch
            simp only [List.length_append] at hf'
            exact ⟨fuel' - 1, by omega⟩
          have hne : ch ++ pre ≠ [] := by simp [hch]
          have h1 : Decode.loop (f + 1) si (ch ++ pre) dst =
              Decode.loop f (decodeQuantum si rest).nsi pre (dst ++ (decodeQuantum si rest).out) := by
            rw [Decode.loop, if_neg hne]
            simp only [decodeQuantum, hq, ne_eq, not_true_eq_false, if_false]
          have h2 : Decode.loop (fuel + 1) si rest dst =
              Decode.loop fuel (decodeQuantum si rest).nsi (decodeQuantum si rest).rest
                (dst ++ (decodeQuantum si rest).out) := by
            rw [Decode.loop, if_neg hr]
            simp only [he, ne_eq, not_true_eq_false, if_false]
          rw [h1, h2]
          apply hpre2
          simp only [List.length_append] at hf'
          have : 0 < ch.length := List.length_pos.mpr hch
          omega
      · have h2 : Decode.loop (fuel + 1) si rest dst =
            (dst ++ (decodeQuantum si rest).out, (decodeQuantum si rest).err) := by
          rw [Decode.loop, if_neg hr]
          simp only [ne_eq, he, not_false_eq_true, if_true]
        rw [h2]
        rcases loop_err rest [] si he with h0 | ⟨ch, hp, hne, hch⟩
        · refine ⟨[], List.nil_prefix, fun f _ => ?_⟩
          have h0' : (decodeQuantum si rest).out = [] := h0
          simp [Decode_loop_nil, h0']
        · refine ⟨ch, hp, fun fuel' hf' => ?_⟩
          obtain ⟨f, rfl⟩ : ∃ f, fuel' = f + 1 := by
            have : 0 < ch.length := List.length_pos.mpr hne
            exact ⟨fuel' - 1, by omega⟩
          rw [Decode.loop, if_neg hne]
          simp only [decodeQuantum, hch, ne_eq, not_true_eq_false, if_false, Decode_loop_nil]

/-- The bound on the iterations of `Decode.loop` is enough: any bound that is at
least the length of the source gives the same result. -/
theorem Decode_loop_fuel (f1 : Nat) : ∀ (f2 si : Nat) (rest : GoString) (dst : List Byte),
    rest.length ≤ f1 → rest.length ≤ f2 →
      Decode.loop f1 si rest dst = Decode.loop f2 si rest dst := by
  induction f1 with
  | zero =>
    intro f2 si rest dst h1 _
    have : rest = [] := List.length_eq_zero.mp (by omega)
    subst this
    simp [Decode_loop_nil]
  | succ f1 ih =>
    intro f2 si rest dst h1 h2
    by_cases hr : rest = []
    · subst hr; simp [Decode_loop_nil]
    · obtain ⟨f, rfl⟩ : ∃ f, f2 = f + 1 := by
        have : 0 < rest.length := List.length_pos.mpr hr
        exact ⟨f2 - 1, by omega⟩
      rw [Decode.loop, Decode.loop, if_neg hr, if_neg hr]
      simp only
      by_cases he : (decodeQuantum si rest).err = none
      · simp only [he, ne_eq, not_true_eq_false, if_false]
        obtain ⟨ch, e1, e2, -⟩ := loop_ok rest [] si he
        have hch : 0 < ch.length := List.length_pos.mpr (e2 (by simp) hr)
        have hlen := congrArg List.length e1
        simp only [List.length_append] at hlen
        apply ih
        · unfold decodeQuantum; omega
        · unfold decodeQuantum; omega
      · simp only [ne_eq, he, not_false_eq_true, if_true]

end Base64

/-! ## The three loops of `Decode` compute what the third loop alone computes -/

namespace Base64

set_option maxRecDepth 1000000 in
theorem decodeMap_range_all : ∀ c : Byte, decodeMap c = 0xff ∨ decodeMap c < 64 := by
  decide

theorem decodeMap_lt {c : Byte} (h : decodeMap c ≠ 0xff) : decodeMap c < 64 := by
  rcases decodeMap_range_all c with h1 | h1
  · exact absurd h1 h
  · exact h1

theorem shl_or (a k b : Nat) (h : b < 2 ^ k) : a <<< k ||| b = a * 2 ^ k + b := by
  rw [Nat.shiftLeft_eq, Nat.mul_comm, Nat.mul_add_lt_is_or h]

set_option maxRecDepth 1000000 in
theorem lor_255_all : ∀ b : Fin 256, (255 ||| b.val = 255) ∧ (b.val ||| 255 = 255) := by
  decide

theorem lor_eq_255 {a b : Nat} (ha : a = 0xff ∨ a < 64) (hb : b = 0xff ∨ b < 64) :
    (a ||| b = 0xff ∨ a ||| b < 64) ∧ (a ||| b = 0xff ↔ (a = 0xff ∨ b = 0xff)) := by
  rcases ha with rfl | ha
  · have hb' : b < 256 := by omega
    have := (lor_255_all ⟨b, hb'⟩).1
    simp only at this
    simp [this]
  · rcases hb with rfl | hb
    · have ha' : a < 256 := by omega
      have := (lor_255_all ⟨a, ha'⟩).2
      simp only at this
      simp [this]
    · have h6 : a ||| b < 2 ^ 6 := Nat.or_lt_two_pow (by omega) (by omega)
      refine ⟨Or.inr (by omega), ?_⟩
      constructor
      · intro h; omega
      · intro h; omega

theorem assemble32_ok {n1 n2 n3 n4 : Nat} (h1 : n1 = 0xff ∨ n1 < 64) (h2 : n2 = 0xff ∨ n2 < 64)
    (h3 : n3 = 0xff ∨ n3 < 64) (h4 : n4 = 0xff ∨ n4 < 64) :
    (assemble32 n1 n2 n3 n4).2 = true ↔ (n1 ≠ 0xff ∧ n2 ≠ 0xff ∧ n3 ≠ 0xff ∧ n4 ≠ 0xff) := by
  have h12 := lor_eq_255 h1 h2
  have h123 := lor_eq_255 h12.1 h3
  have h1234 := lor_eq_255 h123.1 h4
  unfold assemble32
  split_ifs with h
  · simp only [Bool.false_eq_true, false_iff]
    rw [h1234.2, h123.2, h12.2] at h
    rintro ⟨a, b, c, d⟩
    rcases h with ((h | h) | h) | h <;> contradiction
  · simp only [true_iff]
    rw [h1234.2, h123.2, h12.2] at h
    push_neg at h
    exact ⟨h.1.1.1, h.1.1.2, h.1.2, h.2⟩

theorem assemble32_bytes {n1 n2 n3 n4 : Nat} (h1 : n1 < 64) (h2 : n2 < 64) (h3 : n3 < 64)
    (h4 : n4 < 64) :
    (PutUint32 (assemble32 n1 n2 n3 n4).1).take 3 = quantumBytes [n1, n2, n3, n4] 4 := by
  have hv : n1 <<< 26 ||| n2 <<< 20 ||| n3 <<< 14 ||| n4 <<< 8 =
      n1 * 2 ^ 26 + (n2 * 2 ^ 20 + (n3 * 2 ^ 14 + n4 * 2 ^ 8)) := by
    rw [Nat.lor_assoc, Nat.lor_assoc, Nat.shiftLeft_eq n4 8,
      shl_or n3 14 _ (by omega), shl_or n2 20 _ (by omega), shl_or n1 26 _ (by omega)]
  have hok : (assemble32 n1 n2 n3 n4).2 = true :=
    (assemble32_ok (Or.inr h1) (Or.inr h2) (Or.inr h3) (Or.inr h4)).2
      ⟨by omega, by omega, by omega, by omega⟩
  unfold assemble32 at hok ⊢
  split_ifs at hok ⊢ with h
  rw [quantumBytes_four h2 h3 h4]
  simp only [PutUint32, hv, Nat.shiftRight_eq_div_pow, List.take_succ_cons, List.take_zero,
    List.cons.injEq, and_true]
  refine ⟨?_, ?_, ?_⟩ <;> (apply Fin.ext; simp only [Fin.ofNat]; omega)


theorem assemble64_ok {n1 n2 n3 n4 n5 n6 n7 n8 : Nat} (h1 : n1 = 0xff ∨ n1 < 64)
    (h2 : n2 = 0xff ∨ n2 < 64) (h3 : n3 = 0xff ∨ n3 < 64) (h4 : n4 = 0xff ∨ n4 < 64)
    (h5 : n5 = 0xff ∨ n5 < 64) (h6 : n6 = 0xff ∨ n6 < 64) (h7 : n7 = 0xff ∨ n7 < 64)
    (h8 : n8 = 0xff ∨ n8 < 64) :
    (assemble64 n1 n2 n3 n4 n5 n6 n7 n8).2 = true ↔
      ((n1 ≠ 0xff ∧ n2 ≠ 0xff ∧ n3 ≠ 0xff ∧ n4 ≠ 0xff) ∧
        (n5 ≠ 0xff ∧ n6 ≠ 0xff ∧ n7 ≠ 0xff ∧ n8 ≠ 0xff)) := by
  have g2 := lor_eq_255 h1 h2
  have g3 := lor_eq_255 g2.1 h3
  have g4 := lor_eq_255 g3.1 h4
  have g5 := lor_eq_255 g4.1 h5
  have g6 := lor_eq_255 g5.1 h6
  have g7 := lor_eq_255 g6.1 h7
  have g8 := lor_eq_255 g7.1 h8
  unfold assemble64
  split_ifs with h
  · simp only [Bool.false_eq_true, false_iff]
    rw [g8.2, g7.2, g6.2, g5.2, g4.2, g3.2, g2.2] at h
    rintro ⟨⟨a, b, c, d⟩, e, f, g, i⟩
    rcases h with ((((((h | h) | h) | h) | h) | h) | h) | h <;> contradiction
  · simp only [true_iff]
    rw [g8.2, g7.2, g6.2, g5.2, g4.2, g3.2, g2.2] at h
    push_neg at h
    exact ⟨⟨h.1.1.1.1.1.1.1, h.1.1.1.1.1.1.2, h.1.1.1.1.1.2, h.1.1.1.1.2⟩,
      h.1.1.1.2, h.1.1.2, h.1.2, h.2⟩

theorem assemble64_bytes {n1 n2 n3 n4 n5 n6 n7 n8 : Nat} (h1 : n1 < 64) (h2 : n2 < 64)
    (h3 : n3 < 64) (h4 : n4 < 64) (h5 : n5 < 64) (h6 : n6 < 64) (h7 : n7 < 64) (h8 : n8 < 64) :
    (PutUint64 (assemble64 n1 n2 n3 n4 n5 n6 n7 n8).1).take 6 =
      quantumBytes [n1, n2, n3, n4] 4 ++ quantumBytes [n5, n6, n7, n8] 4 := by
  have hv : n1 <<< 58 ||| n2 <<< 52 ||| n3 <<< 46 ||| n4 <<< 40 ||| n5 <<< 34 ||| n6 <<< 28 |||
      n7 <<< 22 ||| n8 <<< 16 =
      n1 * 2 ^ 58 + (n2 * 2 ^ 52 + (n3 * 2 ^ 46 + (n4 * 2 ^ 40 + (n5 * 2 ^ 34 +
        (n6 * 2 ^ 28 + (n7 * 2 ^ 22 + n8 * 2 ^ 16)))))) := by
    rw [Nat.lor_assoc, Nat.lor_assoc, Nat.lor_assoc, Nat.lor_assoc, Nat.lor_assoc, Nat.lor_assoc,
      Nat.shiftLeft_eq n8 16,
      shl_or n7 22 _ (by omega), shl_or n6 28 _ (by omega), shl_or n5 34 _ (by omega),
      shl_or n4 40 _ (by omega), shl_or n3 46 _ (by omega), shl_or n2 52 _ (by omega),
      shl_or n1 58 _ (by omega)]
  have hok : (assemble64 n1 n2 n3 n4 n5 n6 n7 n8).2 = true :=
    (assemble64_ok (Or.inr h1) (Or.inr h2) (Or.inr h3) (Or.inr h4) (Or.inr h5) (Or.inr h6)
      (Or.inr h7) (Or.inr h8)).2
      ⟨⟨by omega, by omega, by omega, by omega⟩, by omega, by omega, by omega, by omega⟩
  unfold assemble64 at hok ⊢
  split_ifs at hok ⊢ with h
  rw [quantumBytes_four h2 h3 h4, quantumBytes_four h6 h7 h8]
  simp only [PutUint64, hv, Nat.shiftRight_eq_div_pow, List.take_succ_cons, List.take_zero,
    List.cons_append, List.nil_append, List.cons.injEq, and_true]
  refine ⟨?_, ?_, ?_, ?_, ?_, ?_⟩ <;> (apply Fin.ext; simp only [Fin.ofNat]; omega)

/-- On four alphabet characters `decodeQuantum` stores the three bytes of the
quantum and consumes exactly the four characters. -/
theorem decodeQuantum_four (si : Nat) (a b c d : Byte) (tl : GoString)
    (ha : decodeMap a ≠ 0xff) (hb : decodeMap b ≠ 0xff) (hc : decodeMap c ≠ 0xff)
    (hd : decodeMap d ≠ 0xff) :
    decodeQuantum si (a :: b :: c :: d :: tl) =
      ⟨si + 4, tl, quantumBytes [decodeMap a, decodeMap b, decodeMap c, decodeMap d] 4, none⟩ := by
  unfold decodeQuantum
  rw [loop_cons_alpha _ _ _ _ (by simp) ha, loop_cons_alpha _ _ _ _ (by simp) hb,
    loop_cons_alpha _ _ _ _ (by simp) hc, loop_cons_alpha _ _ _ _ (by simp) hd,
    loop_done _ _ _ (by simp)]
  rfl

theorem Decode_loop_step_ok (fuel si : Nat) (rest : GoString) (dst : List Byte) (hr : rest ≠ [])
    (he : (decodeQuantum si rest).err = none) :
    Decode.loop (fuel + 1) si rest dst =
      Decode.loop fuel (decodeQuantum si rest).nsi (decodeQuantum si rest).rest
        (dst ++ (decodeQuantum si rest).out) := by
  rw [Decode.loop, if_neg hr]
  simp only [he, ne_eq, not_true_eq_false, if_false]

theorem Decode_loop_step_err (fuel si : Nat) (rest : GoString) (dst : List Byte) (hr : rest ≠ [])
    (he : (decodeQuantum si rest).err ≠ none) :
    Decode.loop (fuel + 1) si rest dst =
      (dst ++ (decodeQuantum si rest).out, (decodeQuantum si rest).err) := by
  rw [Decode.loop, if_neg hr]
  simp only [ne_eq, he, not_false_eq_true, if_true]

/-- A successful `decodeQuantum` on a non-empty source leaves a shorter source. -/
theorem decodeQuantum_rest_lt (si : Nat) (rest : GoString) (hr : rest ≠ [])
    (he : (decodeQuantum si rest).err = none) :
    (decodeQuantum si rest).rest.length < rest.length := by
  obtain ⟨ch, e1, e2, -⟩ := loop_ok rest [] si he
  have hch : 0 < ch.length := List.length_pos.mpr (e2 (by simp) hr)
  have hlen := congrArg List.length e1
  simp only [List.length_append] at hlen
  unfold decodeQuantum
  omega

/-- The second loop of `Decode` computes what the third loop alone computes. -/
theorem Decode_loop32_eq (dstLen : Nat) (fuel : Nat) : ∀ (si : Nat) (rest : GoString)
    (dst : List Byte), rest.length ≤ fuel →
      Decode.loop32 dstLen fuel si rest dst = Decode.loop fuel si rest dst := by
  induction fuel with
  | zero => intro si rest dst _; rfl
  | succ fuel ih =>
    intro si rest dst hf
    rw [Decode.loop32]
    by_cases hc : rest.length ≥ 4 ∧ dstLen - dst.length ≥ 4
    · rw [if_pos hc]
      have hr : rest ≠ [] := by
        intro h; subst h; simp at hc
      simp only
      by_cases hok : (assemble32 (decodeMap (rest.getD 0 0)) (decodeMap (rest.getD 1 0))
          (decodeMap (rest.getD 2 0)) (decodeMap (rest.getD 3 0))).2 = true
      · -- four alphabet characters at once
        rw [if_pos hok]
        obtain ⟨hl, -⟩ := hc
        match rest, hl, hf, hok with
        | a :: b :: c :: d :: tl, _, hf, hok =>
          simp only [List.getD_cons_zero, List.getD_cons_succ] at hok
          obtain ⟨ha, hb, hc', hd⟩ := (assemble32_ok (decodeMap_range_all a)
            (decodeMap_range_all b) (decodeMap_range_all c) (decodeMap_range_all d)).1 hok
          have hq := decodeQuantum_four si a b c d tl ha hb hc' hd
          rw [Decode_loop_step_ok _ _ _ _ (by simp) (by rw [hq]), hq]
          simp only [List.getD_cons_zero, List.getD_cons_succ, List.drop_succ_cons,
            List.drop_zero]
          rw [assemble32_bytes (decodeMap_lt ha) (decodeMap_lt hb) (decodeMap_lt hc')
            (decodeMap_lt hd)]
          apply ih
          simp only [List.length_cons] at hf
          omega
      · rw [if_neg hok]
        by_cases hq : (decodeQuantum si rest).err = none
        · rw [if_neg (by simp [hq]), Decode_loop_step_ok _ _ _ _ hr hq]
          apply ih
          have := decodeQuantum_rest_lt si rest hr hq
          omega
        · rw [if_pos hq, Decode_loop_step_err _ _ _ _ hr hq]
    · rw [if_neg hc]

/-- The first loop of `Decode` computes what the third loop alone computes. -/
theorem Decode_loop64_eq (dstLen : Nat) (fuel : Nat) : ∀ (si : Nat) (rest : GoString)
    (dst : List Byte), rest.length ≤ fuel →
      Decode.loop64 dstLen fuel si rest dst = Decode.loop fuel si rest dst := by
  induction fuel with
  | zero => intro si rest dst _; rfl
  | succ fuel ih =>
    intro si rest dst hf
    rw [Decode.loop64]
    by_cases hc : rest.length ≥ 8 ∧ dstLen - dst.length ≥ 8
    · rw [if_pos hc]
      have hr : rest ≠ [] := by
        intro h; subst h; simp at hc
      simp only
      by_cases hok : (assemble64 (decodeMap (rest.getD 0 0)) (decodeMap (rest.getD 1 0))
          (decodeMap (rest.getD 2 0)) (decodeMap (rest.getD 3 0)) (decodeMap (rest.getD 4 0))
          (decodeMap (rest.getD 5 0)) (decodeMap (rest.getD 6 0))
          (decodeMap (rest.getD 7 0))).2 = true
      · -- eight alphabet characters at once
        rw [if_pos hok]
        obtain ⟨hl, -⟩ := hc
        match rest, hl, hf, hok with
        | a :: b :: c :: d :: e :: f :: g :: h :: tl, _, hf, hok =>
          simp only [List.getD_cons_zero, List.getD_cons_succ] at hok
          obtain ⟨⟨ha, hb, hc', hd⟩, he, hf', hg, hh⟩ := (assemble64_ok (decodeMap_range_all a)
            (decodeMap_range_all b) (decodeMap_range_all c) (decodeMap_range_all d)
            (decodeMap_range_all e) (decodeMap_range_all f) (decodeMap_range_all g)
            (decodeMap_range_all h)).1 hok
          have hq1 := decodeQuantum_four si a b c d (e :: f :: g :: h :: tl) ha hb hc' hd
          have hq2 := decodeQuantum_four (si + 4) e f g h tl he hf' hg hh
          obtain ⟨k, rfl⟩ : ∃ k, fuel = k + 1 := ⟨fuel - 1, by simp at hf; omega⟩
          rw [Decode_loop_step_ok _ _ _ _ (by simp) (by rw [hq1]), hq1]
          simp only
          rw [Decode_loop_step_ok _ _ _ _ (by simp) (by rw [hq2]), hq2]
          simp only [List.getD_cons_zero, List.getD_cons_succ, List.drop_succ_cons,
            List.drop_zero]
          rw [assemble64_bytes (decodeMap_lt ha) (decodeMap_lt hb) (decodeMap_lt hc')
            (decodeMap_lt hd) (decodeMap_lt he) (decodeMap_lt hf') (decodeMap_lt hg)
            (decodeMap_lt hh)]
          rw [ih _ _ _ (by simp only [List.length_cons] at hf; omega), List.append_assoc]
          apply Decode_loop_fuel <;> simp only [List.length_cons] at hf <;> omega
      · rw [if_neg hok]
        by_cases hq : (decodeQuantum si rest).err = none
        · rw [if_neg (by simp [hq]), Decode_loop_step_ok _ _ _ _ hr hq]
          apply ih
          have := decodeQuantum_rest_lt si rest hr hq
          omega
        · rw [if_pos hq, Decode_loop_step_err _ _ _ _ hr hq]
    · rw [if_neg hc]
      exact Decode_loop32_eq dstLen (fuel + 1) si rest dst hf

/-- The method `Decode` returns what its third loop alone returns. -/
theorem Decode_eq_loop (dstLen : Nat) (src : GoString) :
    Decode dstLen src = Decode.loop src.length 0 src [] := by
  unfold Decode
  split
  · rename_i he
    subst he
    rfl
  · exact Decode_loop64_eq dstLen src.length 0 src [] (le_refl _)

/-- On a string that RFC 4648 accepts, `DecodeString` returns the RFC bytes and
no error. -/
theorem DecodeString_valid {enc : GoString} {bytes : List Byte}
    (h : RFC4648.decode enc = some bytes) : DecodeString enc = (bytes, none) := by
  unfold DecodeString
  rw [Decode_eq_loop]
  simpa using Decode_loop_valid enc.length enc bytes (le_refl _) h enc.length 0 [] (le_refl _)

/-- The bytes `DecodeString` returns, with or without an error, are the bytes
it returns without error on some beginning of the string. -/
theorem DecodeString_pre (enc : GoString) :
    ∃ pre, pre <+: enc ∧ DecodeString pre = ((DecodeString enc).1, none) := by
  obtain ⟨pre, hp, h⟩ := Decode_loop_pre enc.length 0 enc [] (le_refl _)
  refine ⟨pre, hp, ?_⟩
  unfold DecodeString
  rw [Decode_eq_loop, Decode_eq_loop]
  exact h pre.length (le_refl _)

end Base64

/-! ## The iteration bounds of the string functions are enough -/

namespace Utf8

theorem DecodeRuneInString_nil : DecodeRuneInString [] = (RuneError, 0) := rfl

/-- On a non-empty string `DecodeRuneInString` returns a width between 1 and 4. -/
theorem DecodeRuneInString_size (c : Byte) (cs : GoString) :
    1 ≤ (DecodeRuneInString (c :: cs)).2 ∧ (DecodeRuneInString (c :: cs)).2 ≤ 4 := by
  unfold DecodeRuneInString
  simp only [List.length_cons]
  split_ifs <;> simp_all

/-- The scan of `DecodeLastRuneInString` only moves `start` down. -/
theorem scan_le (s : GoString) (lim : Int) (k : Nat) : ∀ start : Int,
    DecodeLastRuneInString.scan s lim k start ≤ start := by
  induction k with
  | zero => intro start; simp [DecodeLastRuneInString.scan]
  | succ k ih =>
    intro start
    rw [DecodeLastRuneInString.scan]
    split_ifs
    · exact le_refl _
    · have := ih (start - 1); omega
    · exact le_refl _

/-- The bound on the iterations of the scan is enough: once it exceeds the
distance from `start` down to `lim`, a larger bound gives the same result. -/
theorem scan_fuel (s : GoString) (lim : Int) (k1 : Nat) : ∀ (k2 : Nat) (start : Int),
    start - lim + 1 < k1 → start - lim + 1 < k2 →
      DecodeLastRuneInString.scan s lim k1 start = DecodeLastRuneInString.scan s lim k2 start := by
  induction k1 with
  | zero =>
    intro k2 start h1 h2
    cases k2 with
    | zero => rfl
    | succ k2 =>
      rw [DecodeLastRuneInString.scan, DecodeLastRuneInString.scan, if_neg]
      push_cast at h1
      omega
  | succ k1 ih =>
    intro k2 start h1 h2
    cases k2 with
    | zero => simp [DecodeLastRuneInString.scan]; omega
    | succ k2 =>
      rw [DecodeLastRuneInString.scan, DecodeLastRuneInString.scan]
      split_ifs
      · rfl
      · exact ih k2 (start - 1) (by omega) (by omega)
      · rfl

/-- In `DecodeLastRuneInString` the scan starts at `end - 2` with `lim` at least
`end - UTFMax`: the bound `UTFMax` on its iterations is enough. -/
theorem scan_UTFMax (s : GoString) (k : Nat) (hk : UTFMax ≤ k) :
    DecodeLastRuneInString.scan s
        (if (s.length : Int) - (UTFMax : Int) < 0 then 0 else (s.length : Int) - (UTFMax : Int))
        k ((s.length : Int) - 1 - 1) =
      DecodeLastRuneInString.scan s
        (if (s.length : Int) - (UTFMax : Int) < 0 then 0 else (s.length : Int) - (UTFMax : Int))
        UTFMax ((s.length : Int) - 1 - 1) := by
  have h4 : UTFMax = 4 := rfl
  apply scan_fuel <;> split_ifs <;> omega

theorem DecodeLastRuneInString_start_lt (s : GoString) (h : s ≠ []) :
    DecodeLastRuneInString.start s < s.length := by
  have hl : 0 < s.length := List.length_pos.mpr h
  unfold DecodeLastRuneInString.start
  simp only
  generalize (if (s.length : Int) - (UTFMax : Int) < 0 then (0 : Int)
    else (s.length : Int) - (UTFMax : Int)) = lim
  have := scan_le s lim UTFMax ((s.length : Int) - 1 - 1)
  split_ifs <;> omega

/-- On a non-empty string `DecodeLastRuneInString` returns a width of at least 1. -/
theorem DecodeLastRuneInString_size (s : GoString) (h : s ≠ []) :
    1 ≤ (DecodeLastRuneInString s).2 := by
  have hl : 0 < s.length := List.length_pos.mpr h
  have hs := DecodeLastRuneInString_start_lt s h
  unfold DecodeLastRuneInString
  simp only
  rw [if_neg (by omega)]
  split_ifs with h1 h2
  · exact le_refl _
  · exact le_refl _
  · simp only [ne_eq, Decidable.not_not] at h2
    omega

end Utf8

namespace Strings

theorem indexFunc_loop_nil (f : Nat → Bool) (truth : Bool) (fuel i : Nat) :
    indexFunc.loop f truth fuel i [] = none := by
  cases fuel <;> rfl

/-- The bound on the iterations of `indexFunc.loop` is enough: any bound that is
at least the length of the string gives the same result. -/
theorem indexFunc_loop_fuel (f : Nat → Bool) (truth : Bool) (f1 : Nat) :
    ∀ (f2 i : Nat) (s : GoString), s.length ≤ f1 → s.length ≤ f2 →
      indexFunc.loop f truth f1 i s = indexFunc.loop f truth f2 i s := by
  induction f1 with
  | zero =>
    intro f2 i s h1 _
    have : s = [] := List.length_eq_zero.mp (by omega)
    subst this
    simp [indexFunc_loop_nil]
  | succ f1 ih =>
    intro f2 i s h1 h2
    cases s with
    | nil => simp [indexFunc_loop_nil]
    | cons c cs =>
      obtain ⟨g, rfl⟩ : ∃ g, f2 = g + 1 := ⟨f2 - 1, by simp at h2; omega⟩
      rw [indexFunc.loop, indexFunc.loop]
      split_ifs
      · rfl
      · have hs := (Utf8.DecodeRuneInString_size c cs).1
        apply ih <;> simp only [List.length_drop, List.length_cons] at * <;> omega

theorem lastIndexFunc_loop_zero (s : GoString) (f : Nat → Bool) (truth : Bool) (fuel : Nat) :
    lastIndexFunc.loop s f truth fuel 0 = none := by
  cases fuel <;> simp [lastIndexFunc.loop]

theorem lastIndexFunc_loop_succ (s : GoString) (f : Nat → Bool) (truth : Bool) (fuel i : Nat)
    (h : i > 0) :
    lastIndexFunc.loop s f truth (fuel + 1) i =
      if f (Utf8.DecodeLastRuneInString (s.take i)).1 = truth then
        some (i - (Utf8.DecodeLastRuneInString (s.take i)).2)
      else lastIndexFunc.loop s f truth fuel (i - (Utf8.DecodeLastRuneInString (s.take i)).2) := by
  rw [lastIndexFunc.loop, if_pos h]

/-- The bound on the iterations of `lastIndexFunc.loop` is enough: any bound that
is at least the index `i` gives the same result. -/
theorem lastIndexFunc_loop_fuel (s : GoString) (f : Nat → Bool) (truth : Bool) (f1 : Nat) :
    ∀ (f2 i : Nat), i ≤ s.length → i ≤ f1 → i ≤ f2 →
      lastIndexFunc.loop s f truth f1 i = lastIndexFunc.loop s f truth f2 i := by
  induction f1 with
  | zero =>
    intro f2 i _ h1 _
    have : i = 0 := by omega
    subst this
    simp [lastIndexFunc_loop_zero]
  | succ f1 ih =>
    intro f2 i hi h1 h2
    by_cases h0 : i = 0
    · subst h0; simp [lastIndexFunc_loop_zero]
    · obtain ⟨g, rfl⟩ : ∃ g, f2 = g + 1 := ⟨f2 - 1, by omega⟩
      rw [lastIndexFunc_loop_succ _ _ _ _ _ (by omega), lastIndexFunc_loop_succ _ _ _ _ _ (by omega)]
      split_ifs
      · rfl
      · have hne : s.take i ≠ [] := by
          intro hc
          have := congrArg List.length hc
          simp only [List.length_take, List.length_nil] at this
          omega
        have hs := Utf8.DecodeLastRuneInString_size (s.take i) hne
        apply ih <;> omega

end Strings

/-! ## Classification of the notebook state -/

/-- C1. For every notebook status, whatever string its state holds, `IsSuccess()`
is true exactly when the state is the string "Finished". -/
theorem IsSuccess_iff_state_Finished (ns : NotebookStatus) :
    ns.IsSuccess = true ↔ ns.State = ascii "Finished" := by
  simp [NotebookStatus.IsSuccess, NotebookStateFinished]

/-- C2. For every notebook status, whatever string its state holds, `IsErrored()`
is true exactly when the state is one of the strings "Error",
"DownloadArtifactError", "IngressCreateError", "ServiceCreateError". -/
theorem IsErrored_iff_state_error (ns : NotebookStatus) :
    ns.IsErrored = true ↔
      (ns.State = ascii "Error" ∨ ns.State = ascii "DownloadArtifactError" ∨
        ns.State = ascii "IngressCreateError" ∨ ns.State = ascii "ServiceCreateError") := by
  simp [NotebookStatus.IsErrored, NotebookStateError, NotebookStateDownloadArtifactError,
    NotebookStateIngressError, NotebookStateServiceError, or_assoc]

/-- C3. Success and error are disjoint: no notebook status has both `IsSuccess()`
and `IsErrored()` true. -/
theorem IsSuccess_IsErrored_disjoint (ns : NotebookStatus) :
    ¬ (ns.IsSuccess = true ∧ ns.IsErrored = true) := by
  rintro ⟨hs, he⟩
  simp only [NotebookStatus.IsSuccess, beq_iff_eq] at hs
  simp only [NotebookStatus.IsErrored, hs, Bool.or_eq_true, beq_iff_eq] at he
  revert he
  decide

/-! ## Garbage collection -/

/-- C4. `NeedsGarbageCollection()` is true exactly when at least one of the
three tracked pod statuses is non-null and reports not deleted (a null pod
status counting as deleted); it is false exactly when each of the three is null
or reports deleted. -/
theorem NeedsGarbageCollection_iff (ns : NotebookStatus) :
    (ns.NeedsGarbageCollection = true ↔
      ((∃ ps, ns.PodStatus = some ps ∧ ps.Deleted = false) ∨
        (∃ ps, ns.WorkspaceUploadPodStatus = some ps ∧ ps.Deleted = false) ∨
        (∃ ps, ns.ImageCachePodStatus = some ps ∧ ps.Deleted = false))) ∧
    (ns.NeedsGarbageCollection = false ↔
      ((ns.PodStatus = none ∨ ∃ ps, ns.PodStatus = some ps ∧ ps.Deleted = true) ∧
        (ns.WorkspaceUploadPodStatus = none ∨
          ∃ ps, ns.WorkspaceUploadPodStatus = some ps ∧ ps.Deleted = true) ∧
        (ns.ImageCachePodStatus = none ∨
          ∃ ps, ns.ImageCachePodStatus = some ps ∧ ps.Deleted = true))) := by
  unfold NotebookStatus.NeedsGarbageCollection
  cases ns.PodStatus <;> cases ns.WorkspaceUploadPodStatus <;>
    cases ns.ImageCachePodStatus <;> simp [PodStatus.IsDeleted, or_assoc, and_assoc]

/-! ## Credentials: decoding -/

/-- On a non-null value, each output field is `strings.TrimSpace` of the bytes
`DecodeString` returns for the input field of the same name. -/
theorem GetDeserializedCredentials_some (v : ImageUpload) :
    ImageUpload.GetDeserializedCredentials (some v) =
      { Registry := Strings.TrimSpace (Base64.DecodeString v.Registry).1,
        Repository := Strings.TrimSpace (Base64.DecodeString v.Repository).1,
        Username := Strings.TrimSpace (Base64.DecodeString v.Username).1,
        Password := Strings.TrimSpace (Base64.DecodeString v.Password).1 } := rfl

/-- C8. Each decoded field depends only on its own encoded input: two non-null
credentials values that agree on a field have the same decoded value of that
field, whatever their other fields hold; and each output field is the trimmed
decoding of the input field of the same name. -/
theorem decoded_field_depends_on_own_input (a b : ImageUpload) :
    (a.Registry = b.Registry →
      (ImageUpload.GetDeserializedCredentials (some a)).Registry =
        (ImageUpload.GetDeserializedCredentials (some b)).Registry) ∧
    (a.Repository = b.Repository →
      (ImageUpload.GetDeserializedCredentials (some a)).Repository =
        (ImageUpload.GetDeserializedCredentials (some b)).Repository) ∧
    (a.Username = b.Username →
      (ImageUpload.GetDeserializedCredentials (some a)).Username =
        (ImageUpload.GetDeserializedCredentials (some b)).Username) ∧
    (a.Password = b.Password →
      (ImageUpload.GetDeserializedCredentials (some a)).Password =
        (ImageUpload.GetDeserializedCredentials (some b)).Password) ∧
    (ImageUpload.GetDeserializedCredentials (some a)).Registry =
      Strings.TrimSpace (Base64.DecodeString a.Registry).1 ∧
    (ImageUpload.GetDeserializedCredentials (some a)).Repository =
      Strings.TrimSpace (Base64.DecodeString a.Repository).1 ∧
    (ImageUpload.GetDeserializedCredentials (some a)).Username =
      Strings.TrimSpace (Base64.DecodeString a.Username).1 ∧
    (ImageUpload.GetDeserializedCredentials (some a)).Password =
      Strings.TrimSpace (Base64.DecodeString a.Password).1 := by
  rw [GetDeserializedCredentials_some, GetDeserializedCredentials_some]
  refine ⟨fun h => ?_, fun h => ?_, fun h => ?_, fun h => ?_, rfl, rfl, rfl, rfl⟩ <;>
    simp only [h]

/-- C8, witness: two credentials values with the same username "dXNlcg==" and
different other fields, some of them malformed ("!!!", "%%"), have the same
decoded username, "user". -/
theorem decoded_field_depends_on_own_input_witness :
    (ImageUpload.GetDeserializedCredentials
        (some { Registry := ascii "!!!", Repository := ascii "cmVwbw==",
                Username := ascii "dXNlcg==", Password := ascii "%%" })).Username =
      (ImageUpload.GetDeserializedCredentials
        (some { Registry := ascii "cmVn", Repository := [], Username := ascii "dXNlcg==",
                Password := ascii "cGFzcw==" })).Username ∧
    (ImageUpload.GetDeserializedCredentials
        (some { Registry := ascii "!!!", Repository := ascii "cmVwbw==",
                Username := ascii "dXNlcg==", Password := ascii "%%" })).Username =
      ascii "user" :=
  ⟨(decoded_field_depends_on_own_input
      { Registry := ascii "!!!", Repository := ascii "cmVwbw==", Username := ascii "dXNlcg==",
        Password := ascii "%%" }
      { Registry := ascii "cmVn", Repository := [], Username := ascii "dXNlcg==",
        Password := ascii "cGFzcw==" }).2.2.1 rfl,
    by decide⟩

/-! ## Credentials: presence and the null value -/

/-- C7. On the null credentials pointer `GetDeserializedCredentials()` returns the
value whose four fields are empty, and `HasCredentials()` returns false. -/
theorem GetDeserializedCredentials_nil :
    ImageUpload.GetDeserializedCredentials none =
        { Registry := [], Repository := [], Username := [], Password := [] } ∧
      ImageUpload.HasCredentials none = false := by
  constructor <;> rfl

/-- C9. `HasCredentials()` is true for every non-null credentials value, the one
with four empty fields included, and it is false only for the null value. -/
theorem HasCredentials_iff_non_nil :
    (∀ v : ImageUpload, ImageUpload.HasCredentials (some v) = true) ∧
      ImageUpload.HasCredentials
        (some { Registry := [], Repository := [], Username := [], Password := [] }) = true ∧
      (∀ iu : Option ImageUpload, ImageUpload.HasCredentials iu = false ↔ iu = none) := by
  refine ⟨fun _ => rfl, rfl, fun iu => ?_⟩
  cases iu <;> simp [ImageUpload.HasCredentials]

/-! ## Timestamps -/

/-- C10. For every notebook status, whatever its previous `lastUpdatedAt`, and
every timestamp `t`, `GetLastUpdatedAt()` after `SetLastUpdatedAt(t)` is non-null
and is exactly `t`. -/
theorem GetLastUpdatedAt_SetLastUpdatedAt (ns : NotebookStatus) (t : Time) :
    (ns.SetLastUpdatedAt t).GetLastUpdatedAt = some t ∧
      (ns.SetLastUpdatedAt t).GetLastUpdatedAt ≠ none := by
  simp [NotebookStatus.SetLastUpdatedAt, NotebookStatus.GetLastUpdatedAt]

/-! ## The RFC 4648 decoding of an RFC 4648 encoding -/

namespace RFC4648

set_option maxRecDepth 100000 in
theorem sextet_alphabet_all : ∀ v : Fin 64, sextet (alphabet v.val) = some v.val := by
  decide

theorem sextet_alphabet {v : Nat} (h : v < 64) : sextet (alphabet v) = some v :=
  sextet_alphabet_all ⟨v, h⟩

set_option maxRecDepth 100000 in
theorem alphabet_ne_pad_all : ∀ v : Fin 64, alphabet v.val ≠ pad := by
  decide

theorem alphabet_ne_pad {v : Nat} (h : v < 64) : alphabet v ≠ pad :=
  alphabet_ne_pad_all ⟨v, h⟩

theorem sextet_pad : sextet pad = none := by decide

/-- The RFC 4648 decoding of the RFC 4648 encoding of `s` is `s`. -/
theorem decode_encode (n : Nat) : ∀ s : List Byte, s.length ≤ n → decode (encode s) = some s := by
  induction n using Nat.strong_induction_on with
  | _ n ih =>
    intro s hn
    match s, hn with
    | [], _ => rfl
    | [a], _ =>
      have ha := a.isLt
      simp only [encode, decode, sextet_alphabet (show a.val / 4 < 64 by omega),
        sextet_alphabet (show a.val % 4 * 16 < 64 by omega), true_and, and_self, if_true,
        Option.some.injEq, List.cons.injEq, and_true]
      apply Fin.ext; simp only [Fin.ofNat]; omega
    | [a, b], _ =>
      have ha := a.isLt
      have hb := b.isLt
      have h3 := alphabet_ne_pad (show b.val % 16 * 4 < 64 by omega)
      simp only [encode, decode, sextet_alphabet (show a.val / 4 < 64 by omega),
        sextet_alphabet (show a.val % 4 * 16 + b.val / 16 < 64 by omega),
        sextet_alphabet (show b.val % 16 * 4 < 64 by omega), h3, true_and, and_true, false_and,
        and_self, if_true, if_false, Option.some.injEq, List.cons.injEq]
      refine ⟨?_, ?_⟩ <;> (apply Fin.ext; simp only [Fin.ofNat]; omega)
    | a :: b :: c :: rest, hn =>
      have ha := a.isLt
      have hb := b.isLt
      have hc := c.isLt
      have h3 := alphabet_ne_pad (show b.val % 16 * 4 + c.val / 64 < 64 by omega)
      have h4 := alphabet_ne_pad (show c.val % 64 < 64 by omega)
      have hr : decode (encode rest) = some rest :=
        ih rest.length (by simp only [List.length_cons] at hn; omega) rest (le_refl _)
      simp only [encode, List.cons_append, List.nil_append, decode,
        sextet_alphabet (show a.val / 4 < 64 by omega),
        sextet_alphabet (show a.val % 4 * 16 + b.val / 16 < 64 by omega),
        sextet_alphabet (show b.val % 16 * 4 + c.val / 64 < 64 by omega),
        sextet_alphabet (show c.val % 64 < 64 by omega), h3, h4, and_false, false_and, if_false,
        hr, Option.map_some', Option.some.injEq, List.cons.injEq]
      rw [show ([] : GoString).append (encode rest) = encode rest from rfl, hr]
      simp only [Option.map_some', Option.some.injEq, List.cons.injEq, and_true]
      refine ⟨?_, ?_, ?_⟩ <;> (apply Fin.ext; simp only [Fin.ofNat]; omega)

end RFC4648

/-! ## Decoding runes forwards and backwards -/

namespace Utf8

set_option maxRecDepth 1000000 in
theorem first_class_all : ∀ b : Byte,
    (b.val < 0x80 ∧ first.getD b.val xx = as) ∨
    (b.val ≥ 0x80 ∧ first.getD b.val xx = xx) ∨
    (b.val ≥ 0xC2 ∧ first.getD b.val xx < as ∧
      (first.getD b.val xx &&& 7 = 2 ∨ first.getD b.val xx &&& 7 = 3 ∨
        first.getD b.val xx &&& 7 = 4) ∧
      0x80 ≤ (acceptRanges.getD (first.getD b.val xx >>> 4) (0, 0)).1 ∧
      (acceptRanges.getD (first.getD b.val xx >>> 4) (0, 0)).2 ≤ 0xBF) := by
  decide

set_option maxRecDepth 1000000 in
theorem decode_single_all : ∀ b : Byte,
    (b.val < 0x80 → DecodeRuneInString [b] = (b.val, 1)) ∧
    (b.val ≥ 0x80 → DecodeRuneInString [b] = (RuneError, 1)) := by
  decide


theorem first_class (b : Byte) :
    (b.val < 0x80 ∧ first.getD b.val xx = as) ∨
    (b.val ≥ 0x80 ∧ first.getD b.val xx = xx) ∨
    (b.val ≥ 0xC2 ∧ first.getD b.val xx < as ∧
      (first.getD b.val xx &&& 7 = 2 ∨ first.getD b.val xx &&& 7 = 3 ∨
        first.getD b.val xx &&& 7 = 4) ∧
      0x80 ≤ (acceptRanges.getD (first.getD b.val xx >>> 4) (0, 0)).1 ∧
      (acceptRanges.getD (first.getD b.val xx >>> 4) (0, 0)).2 ≤ 0xBF) :=
  first_class_all b

/-- The decoding reads the first byte, compares the length with the number `sz`
of bytes the first byte announces, and then reads the bytes below `sz` only. -/
theorem DecodeRuneInString_congr (s t : GoString) (hs : s ≠ []) (ht : t ≠ [])
    (h0 : s.getD 0 0 = t.getD 0 0)
    (hsz : first.getD (s.getD 0 0).val xx < as →
      (s.length < first.getD (s.getD 0 0).val xx &&& 7 ↔
        t.length < first.getD (s.getD 0 0).val xx &&& 7))
    (h1 : first.getD (s.getD 0 0).val xx < as →
      ¬ s.length < first.getD (s.getD 0 0).val xx &&& 7 → s.getD 1 0 = t.getD 1 0)
    (h2 : first.getD (s.getD 0 0).val xx < as →
      ¬ s.length < first.getD (s.getD 0 0).val xx &&& 7 →
      ¬ first.getD (s.getD 0 0).val xx &&& 7 ≤ 2 → s.getD 2 0 = t.getD 2 0)
    (h3 : first.getD (s.getD 0 0).val xx < as →
      ¬ s.length < first.getD (s.getD 0 0).val xx &&& 7 →
      ¬ first.getD (s.getD 0 0).val xx &&& 7 ≤ 3 → s.getD 3 0 = t.getD 3 0) :
    DecodeRuneInString s = DecodeRuneInString t := by
  have hs1 : ¬ s.length < 1 := by
    have := List.length_pos.mpr hs; omega
  have ht1 : ¬ t.length < 1 := by
    have := List.length_pos.mpr ht; omega
  unfold DecodeRuneInString
  simp only
  rw [if_neg hs1, if_neg ht1, ← h0]
  by_cases hx : first.getD (s.getD 0 0).val xx ≥ as
  · rw [if_pos hx, if_pos hx]
  · rw [if_neg hx, if_neg hx]
    have hx' : first.getD (s.getD 0 0).val xx < as := by omega
    by_cases hl : s.length < first.getD (s.getD 0 0).val xx &&& 7
    · rw [if_pos hl, if_pos ((hsz hx').1 hl)]
    · rw [if_neg hl, if_neg (fun h => hl ((hsz hx').2 h)), ← h1 hx' hl]
      by_cases ha : (s.getD 1 0).val <
          (acceptRanges.getD (first.getD (s.getD 0 0).val xx >>> 4) (0, 0)).1 ∨
          (acceptRanges.getD (first.getD (s.getD 0 0).val xx >>> 4) (0, 0)).2 < (s.getD 1 0).val
      · rw [if_pos ha, if_pos ha]
      · rw [if_neg ha, if_neg ha]
        by_cases h22 : first.getD (s.getD 0 0).val xx &&& 7 ≤ 2
        · rw [if_pos h22, if_pos h22]
        · rw [if_neg h22, if_neg h22, ← h2 hx' hl h22]
          by_cases hb : (s.getD 2 0).val < locb ∨ hicb < (s.getD 2 0).val
          · rw [if_pos hb, if_pos hb]
          · rw [if_neg hb, if_neg hb]
            by_cases h33 : first.getD (s.getD 0 0).val xx &&& 7 ≤ 3
            · rw [if_pos h33, if_pos h33]
            · rw [if_neg h33, if_neg h33, ← h3 hx' hl h33]

/-- When the first byte is ASCII or invalid, only it is read. -/
theorem DecodeRuneInString_one (b : Byte) (cs : GoString) (h : first.getD b.val xx ≥ as) :
    DecodeRuneInString (b :: cs) = DecodeRuneInString [b] := by
  apply DecodeRuneInString_congr (b :: cs) [b] (by simp) (by simp) rfl <;>
    (simp only [List.getD_cons_zero]; intro h'; omega)

/-- An ASCII first byte is its own rune, of width 1. -/
theorem DecodeRuneInString_ascii (b : Byte) (cs : GoString) (h : b.val < 0x80) :
    DecodeRuneInString (b :: cs) = (b.val, 1) := by
  rcases first_class b with ⟨_, hx⟩ | ⟨h2, _⟩ | ⟨h2, _⟩
  · rw [DecodeRuneInString_one b cs (by rw [hx])]
    exact (decode_single_all b).1 h
  · omega
  · omega

/-- A first byte that is not ASCII, followed by nothing or by a byte that is not
a continuation byte, decodes to `(RuneError, 1)`. -/
theorem DecodeRuneInString_broken (b : Byte) (v : GoString) (h : b.val ≥ 0x80)
    (hv : v = [] ∨ ¬ (0x80 ≤ (v.getD 0 0).val ∧ (v.getD 0 0).val ≤ 0xBF)) :
    DecodeRuneInString (b :: v) = (RuneError, 1) := by
  rcases first_class b with ⟨h1, _⟩ | ⟨_, hx⟩ | ⟨_, hx, hsz, hlo, hhi⟩
  · omega
  · rw [DecodeRuneInString_one b v (by rw [hx]; decide)]
    exact (decode_single_all b).2 h
  · have hx' : ¬ first.getD b.val xx ≥ as := by omega
    unfold DecodeRuneInString
    simp only [List.length_cons, List.getD_cons_zero, List.getD_cons_succ]
    rw [if_neg (by omega), if_neg hx']
    rcases hv with rfl | hv
    · rw [if_pos (by simp only [List.length_nil]; omega)]
    · by_cases hl : v.length + 1 < first.getD b.val xx &&& 7
      · rw [if_pos hl]
      · rw [if_neg hl, if_pos]
        by_contra hc
        push_neg at hc
        apply hv
        constructor <;> omega

theorem getD_take_lt (t : GoString) (e k : Nat) (h : k < e) :
    (t.take e).getD k 0 = t.getD k 0 := by
  simp only [List.getD_eq_getElem?_getD, List.getElem?_take_of_lt h]

theorem getD_drop_add (t : GoString) (i k : Nat) :
    (t.drop i).getD k 0 = t.getD (i + k) 0 := by
  simp only [List.getD_eq_getElem?_getD, List.getElem?_drop]

/-- A string shorter than the number of bytes its first byte announces decodes
to `(RuneError, 1)`. -/
theorem DecodeRuneInString_short (a : GoString) (ha : a ≠ [])
    (hx : first.getD (a.getD 0 0).val xx < as)
    (hl : a.length < first.getD (a.getD 0 0).val xx &&& 7) :
    DecodeRuneInString a = (RuneError, 1) := by
  have h1 : ¬ a.length < 1 := by
    have := List.length_pos.mpr ha; omega
  unfold DecodeRuneInString
  simp only
  rw [if_neg h1, if_neg (by omega), if_pos hl]

/-- A decoding of width at least 2 comes from a first byte that announces at
least 2 bytes, all of them present. -/
theorem DecodeRuneInString_wide (a : GoString) (h : 2 ≤ (DecodeRuneInString a).2) :
    a ≠ [] ∧ first.getD (a.getD 0 0).val xx < as ∧
      2 ≤ first.getD (a.getD 0 0).val xx &&& 7 ∧
      first.getD (a.getD 0 0).val xx &&& 7 ≤ a.length ∧
      first.getD (a.getD 0 0).val xx &&& 7 ≤ 4 := by
  cases a with
  | nil => simp [DecodeRuneInString_nil] at h
  | cons b cs =>
    simp only [List.getD_cons_zero]
    rcases first_class b with ⟨h1, hx⟩ | ⟨h1, hx⟩ | ⟨_, hx, hsz, -, -⟩
    · rw [DecodeRuneInString_ascii b cs h1] at h; simp at h
    · rw [DecodeRuneInString_one b cs (by rw [hx]; decide), (decode_single_all b).2 h1] at h
      simp at h
    · refine ⟨by simp, hx, by omega, ?_, by omega⟩
      by_contra hc
      rw [DecodeRuneInString_short (b :: cs) (by simp) hx (by
        simp only [List.getD_cons_zero]; omega)] at h
      simp at h

/-- A decoding of width at least 2 has read a complete sequence: what follows
does not matter. -/
theorem DecodeRuneInString_append (a v : GoString) (h : 2 ≤ (DecodeRuneInString a).2) :
    DecodeRuneInString (a ++ v) = DecodeRuneInString a := by
  obtain ⟨ha, hx, hsz2, hszl, hsz4⟩ := DecodeRuneInString_wide a h
  symm
  apply DecodeRuneInString_congr a (a ++ v) ha (by simp [ha])
  · rw [List.getD_append _ _ _ _ (by omega)]
  · intro _
    simp only [List.length_append]
    constructor <;> intro h' <;> omega
  · intro _ _
    rw [List.getD_append _ _ _ _ (by omega)]
  · intro _ _ h2
    rw [List.getD_append _ _ _ _ (by omega)]
  · intro _ _ h3
    rw [List.getD_append _ _ _ _ (by omega)]

theorem IsSpace_RuneError : Unicode.IsSpace RuneError = false := by decide

theorem drop_length_sub_one (u : GoString) (h : u ≠ []) :
    u.drop (u.length - 1) = [u.getD (u.length - 1) 0] := by
  induction u with
  | nil => exact absurd rfl h
  | cons a as ih =>
    cases as with
    | nil => rfl
    | cons b bs =>
      have := ih (by simp)
      simp only [List.length_cons, Nat.add_sub_cancel] at this ⊢
      rw [List.drop_succ_cons, List.getD_cons_succ]
      exact this

/-- The last byte being ASCII, it is the last rune, of width 1. -/
theorem DecodeLastRuneInString_ascii (s : GoString) (hs : s ≠ [])
    (h : (s.getD (s.length - 1) 0).val < 0x80) :
    DecodeLastRuneInString s = ((s.getD (s.length - 1) 0).val, 1) := by
  have hl : s.length ≠ 0 := fun h0 => hs (List.length_eq_zero.mp h0)
  unfold DecodeLastRuneInString
  simp only
  rw [if_neg hl, if_pos (show _ < RuneSelf from h)]

/-- The last byte not being ASCII, the last rune is `(RuneError, 1)` or the rune
decoded at `start`, which then ends where the string ends. -/
theorem DecodeLastRuneInString_cases (s : GoString) (hs : s ≠ [])
    (h : ¬ (s.getD (s.length - 1) 0).val < 0x80) :
    DecodeLastRuneInString s = (RuneError, 1) ∨
      (DecodeLastRuneInString.start s +
          (DecodeRuneInString (s.drop (DecodeLastRuneInString.start s))).2 = s.length ∧
        DecodeLastRuneInString s = DecodeRuneInString (s.drop (DecodeLastRuneInString.start s))) := by
  have hl : s.length ≠ 0 := fun h0 => hs (List.length_eq_zero.mp h0)
  have ht : (s.drop (DecodeLastRuneInString.start s)).take
      (s.length - DecodeLastRuneInString.start s) = s.drop (DecodeLastRuneInString.start s) :=
    List.take_of_length_le (by simp)
  unfold DecodeLastRuneInString
  simp only
  rw [if_neg hl, if_neg (show ¬ _ < RuneSelf from h), ht]
  by_cases hc : DecodeLastRuneInString.start s +
      (DecodeRuneInString (s.drop (DecodeLastRuneInString.start s))).2 ≠ s.length
  · left; rw [if_pos hc]
  · right; rw [if_neg hc]; exact ⟨by simpa using hc, rfl⟩

/-- The width `DecodeLastRuneInString` returns, against the forward decoding at
the index where the last rune starts: on `u` followed by `v`, where `v` is empty
or does not start with a continuation byte, the test of `TrimRightFunc` and the
width it adds lead back to the end of `u`. -/
theorem DecodeLastRuneInString_forward (u v : GoString) (hu : u ≠ [])
    (hv : v = [] ∨ ¬ (0x80 ≤ (v.getD 0 0).val ∧ (v.getD 0 0).val ≤ 0xBF)) :
    (DecodeLastRuneInString u).2 ≤ u.length ∧ 1 ≤ (DecodeLastRuneInString u).2 ∧
      (if ((u ++ v).getD (u.length - (DecodeLastRuneInString u).2) 0).val ≥ RuneSelf then
        u.length - (DecodeLastRuneInString u).2 +
          (DecodeRuneInString ((u ++ v).drop (u.length - (DecodeLastRuneInString u).2))).2 =
            u.length
      else u.length - (DecodeLastRuneInString u).2 + 1 = u.length) := by
  have hl : 0 < u.length := List.length_pos.mpr hu
  -- the case of width 1 with a last byte that is not ASCII
  have one : ¬ (u.getD (u.length - 1) 0).val < 0x80 → (DecodeLastRuneInString u).2 = 1 →
      (if ((u ++ v).getD (u.length - 1) 0).val ≥ RuneSelf then
        u.length - 1 + (DecodeRuneInString ((u ++ v).drop (u.length - 1))).2 = u.length
      else u.length - 1 + 1 = u.length) := by
    intro hb _
    rw [List.getD_append _ _ _ _ (by omega), if_pos (by unfold RuneSelf; omega),
      List.drop_append_of_le_length (by omega), drop_length_sub_one u hu, List.singleton_append,
      DecodeRuneInString_broken _ v (by omega) hv]
    simp only
    omega
  by_cases hb : (u.getD (u.length - 1) 0).val < 0x80
  · rw [DecodeLastRuneInString_ascii u hu hb]
    simp only
    refine ⟨by omega, le_refl _, ?_⟩
    rw [List.getD_append _ _ _ _ (by omega), if_neg (by unfold RuneSelf; omega)]
    omega
  · rcases DecodeLastRuneInString_cases u hu hb with he | ⟨hsum, he⟩
    · have h1 : (DecodeLastRuneInString u).2 = 1 := by rw [he]
      have := one hb h1
      rw [h1]
      exact ⟨by omega, le_refl _, this⟩
    · have hst := DecodeLastRuneInString_start_lt u hu
      have hpos : 1 ≤ (DecodeLastRuneInString u).2 := DecodeLastRuneInString_size u hu
      by_cases h2 : 2 ≤ (DecodeLastRuneInString u).2
      · rw [he] at h2 ⊢
        have hi : u.length - (DecodeRuneInString (u.drop (DecodeLastRuneInString.start u))).2 =
            DecodeLastRuneInString.start u := by omega
        refine ⟨by omega, by omega, ?_⟩
        rw [hi, List.drop_append_of_le_length (by omega),
          DecodeRuneInString_append _ v h2, List.getD_append _ _ _ _ hst]
        split
        · exact hsum
        · rename_i hlt
          exfalso
          have hlt' : (u.getD (DecodeLastRuneInString.start u) 0).val < 0x80 := by
            unfold RuneSelf at hlt; omega
          have hd : u.drop (DecodeLastRuneInString.start u) =
              u.getD (DecodeLastRuneInString.start u) 0 ::
                u.drop (DecodeLastRuneInString.start u + 1) := by
            rw [List.getD_eq_getElem _ _ hst]
            exact List.drop_eq_getElem_cons hst
          rw [hd, DecodeRuneInString_ascii _ _ hlt'] at h2
          simp at h2
      · have h1 : (DecodeLastRuneInString u).2 = 1 := by omega
        have := one hb h1
        rw [h1]
        exact ⟨by omega, le_refl _, this⟩

/-- A last rune that is a space starts with a byte that is not a continuation
byte. -/
theorem DecodeLastRuneInString_space (u : GoString) (hu : u ≠ [])
    (h : Unicode.IsSpace (DecodeLastRuneInString u).1 = true) :
    ¬ (0x80 ≤ (u.getD (u.length - (DecodeLastRuneInString u).2) 0).val ∧
      (u.getD (u.length - (DecodeLastRuneInString u).2) 0).val ≤ 0xBF) := by
  have hl : 0 < u.length := List.length_pos.mpr hu
  by_cases hb : (u.getD (u.length - 1) 0).val < 0x80
  · rw [DecodeLastRuneInString_ascii u hu hb]
    simp only
    omega
  · rcases DecodeLastRuneInString_cases u hu hb with he | ⟨hsum, he⟩
    · rw [he, IsSpace_RuneError] at h
      cases h
    · have hst := DecodeLastRuneInString_start_lt u hu
      rw [he] at h ⊢
      have hi : u.length - (DecodeRuneInString (u.drop (DecodeLastRuneInString.start u))).2 =
          DecodeLastRuneInString.start u := by omega
      rw [hi]
      intro hc
      have hd : u.drop (DecodeLastRuneInString.start u) =
          u.getD (DecodeLastRuneInString.start u) 0 ::
            u.drop (DecodeLastRuneInString.start u + 1) := by
        rw [List.getD_eq_getElem _ _ hst]
        exact List.drop_eq_getElem_cons hst
      rcases first_class (u.getD (DecodeLastRuneInString.start u) 0) with
        ⟨h1, _⟩ | ⟨h1, hx⟩ | ⟨h1, _⟩
      · omega
      · rw [hd, DecodeRuneInString_one _ _ (by rw [hx]; decide),
          (decode_single_all _).2 h1, IsSpace_RuneError] at h
        cases h
      · omega

end Utf8

/-! ## The runes Go decodes as spaces are the whitespace characters of the spec -/

namespace Utf8

set_option maxRecDepth 1000000 in
theorem first_info_all : ∀ b : Byte,
    b.val < 0x80 ∨ (b.val ≥ 0x80 ∧ first.getD b.val xx = xx) ∨
    (0xC2 ≤ b.val ∧ b.val ≤ 0xDF ∧ first.getD b.val xx < as ∧ first.getD b.val xx &&& 7 = 2 ∧
      0x80 ≤ (acceptRanges.getD (first.getD b.val xx >>> 4) (0, 0)).1 ∧
      (acceptRanges.getD (first.getD b.val xx >>> 4) (0, 0)).2 ≤ 0xBF) ∨
    (0xE0 ≤ b.val ∧ b.val ≤ 0xEF ∧ first.getD b.val xx < as ∧ first.getD b.val xx &&& 7 = 3 ∧
      0x80 ≤ (acceptRanges.getD (first.getD b.val xx >>> 4) (0, 0)).1 ∧
      (acceptRanges.getD (first.getD b.val xx >>> 4) (0, 0)).2 ≤ 0xBF ∧
      (b.val = 0xE0 → 0xA0 ≤ (acceptRanges.getD (first.getD b.val xx >>> 4) (0, 0)).1)) ∨
    (0xF0 ≤ b.val ∧ b.val ≤ 0xF4 ∧ first.getD b.val xx < as ∧ first.getD b.val xx &&& 7 = 4 ∧
      0x80 ≤ (acceptRanges.getD (first.getD b.val xx >>> 4) (0, 0)).1 ∧
      (acceptRanges.getD (first.getD b.val xx >>> 4) (0, 0)).2 ≤ 0xBF ∧
      (b.val = 0xF0 → 0x90 ≤ (acceptRanges.getD (first.getD b.val xx >>> 4) (0, 0)).1)) := by
  decide

/-- What the decoding of a string returns when its first byte announces a
sequence of 2, 3 or 4 bytes. -/
theorem DecodeRuneInString_multi (b : Byte) (cs : GoString) (hx : first.getD b.val xx < as) :
    DecodeRuneInString (b :: cs) = (RuneError, 1) ∨
    (first.getD b.val xx &&& 7 ≤ cs.length + 1 ∧
      (acceptRanges.getD (first.getD b.val xx >>> 4) (0, 0)).1 ≤ (cs.getD 0 0).val ∧
      (cs.getD 0 0).val ≤ (acceptRanges.getD (first.getD b.val xx >>> 4) (0, 0)).2 ∧
      ((first.getD b.val xx &&& 7 ≤ 2 ∧
          DecodeRuneInString (b :: cs) =
            ((b.val &&& mask2) <<< 6 ||| ((cs.getD 0 0).val &&& maskx), 2)) ∨
        (¬ first.getD b.val xx &&& 7 ≤ 2 ∧
          locb ≤ (cs.getD 1 0).val ∧ (cs.getD 1 0).val ≤ hicb ∧
          ((first.getD b.val xx &&& 7 ≤ 3 ∧
              DecodeRuneInString (b :: cs) =
                ((b.val &&& mask3) <<< 12 ||| ((cs.getD 0 0).val &&& maskx) <<< 6 |||
                  ((cs.getD 1 0).val &&& maskx), 3)) ∨
            (¬ first.getD b.val xx &&& 7 ≤ 3 ∧
              locb ≤ (cs.getD 2 0).val ∧ (cs.getD 2 0).val ≤ hicb ∧
              DecodeRuneInString (b :: cs) =
                ((b.val &&& mask4) <<< 18 ||| ((cs.getD 0 0).val &&& maskx) <<< 12 |||
                  ((cs.getD 1 0).val &&& maskx) <<< 6 ||| ((cs.getD 2 0).val &&& maskx), 4)))))) := by
  have hx' : ¬ first.getD b.val xx ≥ as := by omega
  unfold DecodeRuneInString
  simp only [List.length_cons, List.getD_cons_zero, List.getD_cons_succ]
  rw [if_neg (by omega), if_neg hx']
  by_cases hl : cs.length + 1 < first.getD b.val xx &&& 7
  · left; rw [if_pos hl]
  · rw [if_neg hl]
    by_cases ha : (cs.getD 0 0).val <
        (acceptRanges.getD (first.getD b.val xx >>> 4) (0, 0)).1 ∨
        (acceptRanges.getD (first.getD b.val xx >>> 4) (0, 0)).2 < (cs.getD 0 0).val
    · left; rw [if_pos ha]
    · rw [if_neg ha]
      push_neg at ha
      by_cases h2 : first.getD b.val xx &&& 7 ≤ 2
      · right
        rw [if_pos h2]
        exact ⟨by omega, ha.1, ha.2, Or.inl ⟨h2, rfl⟩⟩
      · rw [if_neg h2]
        by_cases hb : (cs.getD 1 0).val < locb ∨ hicb < (cs.getD 1 0).val
        · left; rw [if_pos hb]
        · rw [if_neg hb]
          push_neg at hb
          by_cases h3 : first.getD b.val xx &&& 7 ≤ 3
          · right
            rw [if_pos h3]
            exact ⟨by omega, ha.1, ha.2, Or.inr ⟨h2, hb.1, hb.2, Or.inl ⟨h3, rfl⟩⟩⟩
          · rw [if_neg h3]
            by_cases hc : (cs.getD 2 0).val < locb ∨ hicb < (cs.getD 2 0).val
            · left; rw [if_pos hc]
            · rw [if_neg hc]
              push_neg at hc
              right
              exact ⟨by omega, ha.1, ha.2,
                Or.inr ⟨h2, hb.1, hb.2, Or.inr ⟨h3, hc.1, hc.2, rfl⟩⟩⟩

theorem lor2 (x y : Nat) (hy : y < 64) : x <<< 6 ||| y = x * 64 + y := by
  have := Nat.mul_add_lt_is_or (i := 6) (b := y) (by omega) x
  rw [Nat.shiftLeft_eq, Nat.mul_comm]; omega

theorem lor3 (x y z : Nat) (hy : y < 64) (hz : z < 64) :
    x <<< 12 ||| y <<< 6 ||| z = x * 4096 + y * 64 + z := by
  have h1 : y <<< 6 ||| z = y * 64 + z := lor2 y z hz
  have h2 : x <<< 12 ||| (y * 64 + z) = x * 4096 + (y * 64 + z) := by
    have := Nat.mul_add_lt_is_or (i := 12) (b := y * 64 + z) (by omega) x
    rw [Nat.shiftLeft_eq, Nat.mul_comm]; omega
  rw [Nat.lor_assoc, h1, h2]; omega

theorem and_mask (n k : Nat) : n &&& (2 ^ k - 1) = n % 2 ^ k :=
  Nat.and_pow_two_sub_one_eq_mod n k

theorem ofNat_val (b : Byte) (n : Nat) (h : n = b.val) : (Fin.ofNat n : Byte) = b := by
  apply Fin.ext
  subst h
  show b.val % 256 = b.val
  exact Nat.mod_eq_of_lt b.isLt

end Utf8

namespace Unicode

theorem is16_step (lo hi stride : Nat) (ranges : List (Nat × Nat × Nat)) (r : Nat)
    (h : is16 ((lo, hi, stride) :: ranges) r = true) :
    (lo ≤ r ∧ r ≤ hi ∧ (stride = 1 ∨ (r - lo) % stride = 0)) ∨
      (hi < r ∧ is16 ranges r = true) := by
  rw [is16] at h
  by_cases h1 : r < lo
  · rw [if_pos h1] at h; cases h
  · rw [if_neg h1] at h
    by_cases h2 : r ≤ hi
    · rw [if_pos h2] at h
      left
      refine ⟨by omega, h2, ?_⟩
      simpa using h
    · rw [if_neg h2] at h
      exact Or.inr ⟨by omega, h⟩

theorem isExcludingLatin_is16 (r : Nat) (h : isExcludingLatin r = true) :
    is16 [(0x00a0, 0x1680, 5600), (0x2000, 0x200a, 1), (0x2028, 0x2029, 1),
        (0x202f, 0x205f, 48), (0x3000, 0x3000, 1)] r = true := by
  unfold isExcludingLatin at h
  simp only at h
  split at h
  · exact h
  · cases h

theorem mem_codePoints (r : Nat) : r ∈ Whitespace.codePoints ↔
    (0x09 ≤ r ∧ r ≤ 0x0D) ∨ r = 0x20 ∨ r = 0x85 ∨ r = 0xA0 ∨ r = 0x1680 ∨
      (0x2000 ≤ r ∧ r ≤ 0x200A) ∨ r = 0x2028 ∨ r = 0x2029 ∨ r = 0x202F ∨ r = 0x205F ∨
      r = 0x3000 := by
  unfold Whitespace.codePoints
  simp only [List.mem_cons, List.mem_singleton, List.not_mem_nil, or_false]
  omega

/-- A rune that `IsSpace` accepts is a code point with the property White_Space. -/
theorem IsSpace_mem (r : Nat) (h : IsSpace r = true) : r ∈ Whitespace.codePoints := by
  rw [mem_codePoints]
  unfold IsSpace at h
  by_cases hl : r ≤ MaxLatin1
  · rw [if_pos hl] at h
    simp only [decide_eq_true_eq] at h
    omega
  · rw [if_neg hl] at h
    unfold MaxLatin1 at hl
    rcases is16_step _ _ _ _ _ (isExcludingLatin_is16 r h) with h1 | ⟨_, h⟩
    · omega
    rcases is16_step _ _ _ _ _ h with h1 | ⟨_, h⟩
    · omega
    rcases is16_step _ _ _ _ _ h with h1 | ⟨_, h⟩
    · omega
    rcases is16_step _ _ _ _ _ h with h1 | ⟨_, h⟩
    · omega
    rcases is16_step _ _ _ _ _ h with h1 | ⟨_, h⟩
    · omega
    cases h

end Unicode

namespace Utf8

set_option maxRecDepth 1000000 in
theorem spaces_decode_all : ∀ e ∈ Whitespace.spaces,
    Unicode.IsSpace (DecodeRuneInString e).1 = true ∧ (DecodeRuneInString e).2 = e.length ∧
      (2 ≤ (DecodeRuneInString e).2 ∨ (e.length = 1 ∧ (e.getD 0 0).val < 0x80)) := by
  decide

/-- A string that begins with a whitespace character decodes to a space of the
width of that character. -/
theorem leading_space (e s : GoString) (he : e ∈ Whitespace.spaces) (hp : e <+: s) :
    Unicode.IsSpace (DecodeRuneInString s).1 = true ∧ (DecodeRuneInString s).2 = e.length := by
  obtain ⟨t, rfl⟩ := hp
  obtain ⟨h1, h2, h3⟩ := spaces_decode_all e he
  rcases h3 with h3 | ⟨hl, ha⟩
  · rw [DecodeRuneInString_append e t h3]
    exact ⟨h1, h2⟩
  · match e, hl, ha, h1, h2 with
    | [b], _, ha, h1, h2 =>
      simp only [List.getD_cons_zero] at ha
      rw [DecodeRuneInString_ascii b [] ha] at h1
      rw [List.singleton_append, DecodeRuneInString_ascii b t ha]
      exact ⟨h1, rfl⟩

/-- The UTF-8 encoding of the rune decoded from a two-byte sequence is that
sequence. -/
theorem utf8_two (b c1 : Byte) (hb1 : 0xC2 ≤ b.val) (hb2 : b.val ≤ 0xDF)
    (hc1 : 0x80 ≤ c1.val) (hc2 : c1.val ≤ 0xBF) :
    Whitespace.utf8 (b.val % 32 * 64 + c1.val % 64) = [b, c1] := by
  unfold Whitespace.utf8
  rw [if_neg (by omega), if_pos (by omega), ofNat_val b _ (by omega), ofNat_val c1 _ (by omega)]

/-- The UTF-8 encoding of the rune decoded from a three-byte sequence that is
not overlong is that sequence. -/
theorem utf8_three (b c1 c2 : Byte) (hb1 : 0xE0 ≤ b.val) (hb2 : b.val ≤ 0xEF)
    (hc1 : 0x80 ≤ c1.val) (hc2 : c1.val ≤ 0xBF) (hd1 : 0x80 ≤ c2.val) (hd2 : c2.val ≤ 0xBF)
    (hge : 0x800 ≤ b.val % 16 * 4096 + c1.val % 64 * 64 + c2.val % 64) :
    Whitespace.utf8 (b.val % 16 * 4096 + c1.val % 64 * 64 + c2.val % 64) = [b, c1, c2] := by
  unfold Whitespace.utf8
  rw [if_neg (by omega), if_neg (by omega), if_pos (by omega), ofNat_val b _ (by omega),
    ofNat_val c1 _ (by omega), ofNat_val c2 _ (by omega)]

theorem codePoints_le (r : Nat) (h : r ∈ Whitespace.codePoints) : r ≤ 0x3000 := by
  rw [Unicode.mem_codePoints] at h
  omega

/-- A string whose first rune is a space begins with a whitespace character, of
the width of the rune. -/
theorem space_leading (s : GoString) (h : Unicode.IsSpace (DecodeRuneInString s).1 = true) :
    ∃ e ∈ Whitespace.spaces, e <+: s ∧ e.length = (DecodeRuneInString s).2 := by
  cases s with
  | nil =>
    rw [DecodeRuneInString_nil, IsSpace_RuneError] at h
    cases h
  | cons b cs =>
    rcases first_info_all b with h1 | ⟨h1, hx⟩ | ⟨lo, hi, hx, hsz, ha1, ha2⟩ |
      ⟨lo, hi, hx, hsz, ha1, ha2, ha3⟩ | ⟨lo, hi, hx, hsz, ha1, ha2, ha3⟩
    · -- one byte
      rw [DecodeRuneInString_ascii b cs h1] at h ⊢
      refine ⟨[b], List.mem_map.2 ⟨b.val, Unicode.IsSpace_mem _ h, ?_⟩, ⟨cs, rfl⟩, rfl⟩
      unfold Whitespace.utf8
      rw [if_pos h1, ofNat_val b _ rfl]
    · rw [DecodeRuneInString_one b cs (by rw [hx]; decide), (decode_single_all b).2 h1,
        IsSpace_RuneError] at h
      cases h
    · -- two bytes
      rcases DecodeRuneInString_multi b cs hx with he | ⟨hlen, hlo, hhi, ⟨_, he⟩ | ⟨hn2, _⟩⟩
      · rw [he, IsSpace_RuneError] at h; cases h
      · cases cs with
        | nil => simp only [List.length_nil] at hlen; omega
        | cons c1 t =>
          simp only [List.getD_cons_zero] at hlo hhi he
          have e1 : b.val &&& mask2 = b.val % 32 := and_mask b.val 5
          have e2 : c1.val &&& maskx = c1.val % 64 := and_mask c1.val 6
          rw [he] at h ⊢
          rw [e1, e2, lor2 _ _ (Nat.mod_lt _ (by decide))] at h
          exact ⟨[b, c1], List.mem_map.2 ⟨_, Unicode.IsSpace_mem _ h,
            utf8_two b c1 lo hi (by omega) (by omega)⟩, ⟨t, rfl⟩, rfl⟩
      · omega
    · -- three bytes
      rcases DecodeRuneInString_multi b cs hx with he | ⟨hlen, hlo, hhi, ⟨h2, _⟩ |
        ⟨_, hlo2, hhi2, ⟨_, he⟩ | ⟨hn3, _⟩⟩⟩
      · rw [he, IsSpace_RuneError] at h; cases h
      · omega
      · match cs, hlen, hlo, hhi, hlo2, hhi2, he with
        | [], hlen, _, _, _, _, _ => simp only [List.length_nil] at hlen; omega
        | [_], hlen, _, _, _, _, _ => simp only [List.length_singleton] at hlen; omega
        | c1 :: c2 :: t, _, hlo, hhi, hlo2, hhi2, he =>
          simp only [List.getD_cons_zero, List.getD_cons_succ] at hlo hhi hlo2 hhi2 he
          unfold locb at hlo2
          unfold hicb at hhi2
          have e1 : b.val &&& mask3 = b.val % 16 := and_mask b.val 4
          have e2 : c1.val &&& maskx = c1.val % 64 := and_mask c1.val 6
          have e3 : c2.val &&& maskx = c2.val % 64 := and_mask c2.val 6
          rw [he] at h ⊢
          rw [e1, e2, e3, lor3 _ _ _ (Nat.mod_lt _ (by decide)) (Nat.mod_lt _ (by decide))] at h
          have hge : 0x800 ≤ b.val % 16 * 4096 + c1.val % 64 * 64 + c2.val % 64 := by
            by_cases hb : b.val = 0xE0
            · have := ha3 hb
              omega
            · omega
          exact ⟨[b, c1, c2], List.mem_map.2 ⟨_, Unicode.IsSpace_mem _ h,
            utf8_three b c1 c2 lo hi (by omega) (by omega) hlo2 hhi2 hge⟩, ⟨t, rfl⟩, rfl⟩
      · omega
    · -- four bytes: beyond the whitespace code points
      rcases DecodeRuneInString_multi b cs hx with he | ⟨hlen, hlo, hhi, ⟨h2, _⟩ |
        ⟨_, hlo2, hhi2, ⟨h3, _⟩ | ⟨_, hlo3, hhi3, he⟩⟩⟩
      · rw [he, IsSpace_RuneError] at h; cases h
      · omega
      · omega
      · exfalso
        unfold locb at hlo2 hlo3
        unfold hicb at hhi2 hhi3
        have e1 : b.val &&& mask4 = b.val % 8 := and_mask b.val 3
        have e2 : (cs.getD 0 0).val &&& maskx = (cs.getD 0 0).val % 64 := and_mask _ 6
        have e3 : (cs.getD 1 0).val &&& maskx = (cs.getD 1 0).val % 64 := and_mask _ 6
        have e4 : (cs.getD 2 0).val &&& maskx = (cs.getD 2 0).val % 64 := and_mask _ 6
        rw [he] at h
        rw [e1, e2, e3, e4, Base64.sextet_val_eq _ _ _ _ (Nat.mod_lt _ (by decide))
          (Nat.mod_lt _ (by decide)) (Nat.mod_lt _ (by decide))] at h
        have hm := codePoints_le _ (Unicode.IsSpace_mem _ h)
        by_cases hb : b.val = 0xF0
        · have := ha3 hb
          omega
        · omega

end Utf8

namespace Whitespace

theorem leading_some {s e : GoString} (h : leading s = some e) : e ∈ spaces ∧ e <+: s := by
  unfold leading at h
  have hp : e.isPrefixOf s = true := List.find?_some (p := fun e : GoString => e.isPrefixOf s) h
  exact ⟨List.mem_of_find?_eq_some h, List.isPrefixOf_iff_prefix.1 hp⟩

theorem leading_none {s : GoString} : leading s = none ↔ ∀ e ∈ spaces, ¬ e <+: s := by
  unfold leading
  rw [List.find?_eq_none]
  constructor
  · intro h e he hp
    exact h e he ( List.isPrefixOf_iff_prefix.2 hp)
  · intro h e he hp
    exact h e he ( List.isPrefixOf_iff_prefix.1 hp)

/-- The first rune is not a space: the string begins with no whitespace
character. -/
theorem leading_of_not_space (s : GoString)
    (h : Unicode.IsSpace (Utf8.DecodeRuneInString s).1 = false) : leading s = none := by
  cases hl : leading s with
  | none => rfl
  | some e =>
    obtain ⟨he, hp⟩ := leading_some hl
    rw [(Utf8.leading_space e s he hp).1] at h
    cases h

/-- The first rune is a space: the string begins with a whitespace character, of
the width of the rune. -/
theorem leading_of_space (s : GoString)
    (h : Unicode.IsSpace (Utf8.DecodeRuneInString s).1 = true) :
    ∃ e, leading s = some e ∧ e.length = (Utf8.DecodeRuneInString s).2 := by
  obtain ⟨e0, he0, hp0, -⟩ := Utf8.space_leading s h
  cases hl : leading s with
  | none => exact absurd hp0 (leading_none.1 hl e0 he0)
  | some e =>
    obtain ⟨he, hp⟩ := leading_some hl
    exact ⟨e, rfl, (Utf8.leading_space e s he hp).2.symm⟩

end Whitespace

/-! ## The last rune Go decodes is a space exactly when the string ends with whitespace -/

namespace Utf8

set_option maxRecDepth 1000000 in
theorem spaces_shape_all : ∀ e ∈ Whitespace.spaces,
    (e.length = 1 ∧ (e.getD 0 0).val < 0x80) ∨
    (e.length = 2 ∧ RuneStart (e.getD 0 0) = true ∧ (e.getD 1 0).val ≥ 0x80) ∨
    (e.length = 3 ∧ RuneStart (e.getD 0 0) = true ∧ RuneStart (e.getD 1 0) = false ∧
      (e.getD 2 0).val ≥ 0x80) := by
  decide

theorem scan_hit (s : GoString) (lim : Int) (k : Nat) (start : Int) (h1 : start ≥ lim)
    (h2 : RuneStart (s.getD start.toNat 0) = true) :
    DecodeLastRuneInString.scan s lim (k + 1) start = start := by
  rw [DecodeLastRuneInString.scan, if_pos h1, if_pos h2]

theorem scan_miss (s : GoString) (lim : Int) (k : Nat) (start : Int) (h1 : start ≥ lim)
    (h2 : RuneStart (s.getD start.toNat 0) = false) :
    DecodeLastRuneInString.scan s lim (k + 1) start =
      DecodeLastRuneInString.scan s lim k (start - 1) := by
  rw [DecodeLastRuneInString.scan, if_pos h1, if_neg (by rw [h2]; decide)]

/-- The backward scan stops at the first byte of a two-byte sequence that ends
the string. -/
theorem start_two (u : GoString) (a b : Byte) (ha : RuneStart a = true) :
    DecodeLastRuneInString.start (u ++ [a, b]) = u.length := by
  unfold DecodeLastRuneInString.start
  simp only [List.length_append, List.length_cons, List.length_nil]
  have hs : ((u.length + (0 + 1 + 1) : Nat) : Int) - 1 - 1 = (u.length : Int) := by
    push_cast; omega
  rw [hs]
  have hscan : DecodeLastRuneInString.scan (u ++ [a, b])
      (if ((u.length + (0 + 1 + 1) : Nat) : Int) - (UTFMax : Nat) < 0 then 0
        else ((u.length + (0 + 1 + 1) : Nat) : Int) - (UTFMax : Nat)) UTFMax (u.length : Int) =
        (u.length : Int) := by
    apply scan_hit _ _ 3
    · unfold UTFMax; split_ifs <;> push_cast <;> omega
    · rw [Int.toNat_ofNat, List.getD_append_right _ _ _ _ (le_refl _), Nat.sub_self]
      exact ha
  rw [hscan, if_neg (by omega), Int.toNat_ofNat]

/-- The backward scan stops at the first byte of a three-byte sequence that ends
the string. -/
theorem start_three (u : GoString) (a b c : Byte) (ha : RuneStart a = true)
    (hb : RuneStart b = false) :
    DecodeLastRuneInString.start (u ++ [a, b, c]) = u.length := by
  unfold DecodeLastRuneInString.start
  simp only [List.length_append, List.length_cons, List.length_nil]
  have hs : ((u.length + (0 + 1 + 1 + 1) : Nat) : Int) - 1 - 1 = ((u.length + 1 : Nat) : Int) := by
    push_cast; omega
  rw [hs]
  have hscan : DecodeLastRuneInString.scan (u ++ [a, b, c])
      (if ((u.length + (0 + 1 + 1 + 1) : Nat) : Int) - (UTFMax : Nat) < 0 then 0
        else ((u.length + (0 + 1 + 1 + 1) : Nat) : Int) - (UTFMax : Nat)) UTFMax
        ((u.length + 1 : Nat) : Int) = (u.length : Int) := by
    have h1 := scan_miss (u ++ [a, b, c])
      (if ((u.length + (0 + 1 + 1 + 1) : Nat) : Int) - (UTFMax : Nat) < 0 then 0
        else ((u.length + (0 + 1 + 1 + 1) : Nat) : Int) - (UTFMax : Nat)) 3
        ((u.length + 1 : Nat) : Int)
      (by unfold UTFMax; split_ifs <;> push_cast <;> omega)
      (by
        rw [Int.toNat_ofNat, List.getD_append_right _ _ _ _ (by omega)]
        have : u.length + 1 - u.length = 1 := by omega
        rw [this]
        exact hb)
    have h2 := scan_hit (u ++ [a, b, c])
      (if ((u.length + (0 + 1 + 1 + 1) : Nat) : Int) - (UTFMax : Nat) < 0 then 0
        else ((u.length + (0 + 1 + 1 + 1) : Nat) : Int) - (UTFMax : Nat)) 2
        (((u.length + 1 : Nat) : Int) - 1)
      (by unfold UTFMax; split_ifs <;> push_cast <;> omega)
      (by
        have : ((u.length + 1 : Nat) : Int) - 1 = (u.length : Int) := by push_cast; omega
        rw [this, Int.toNat_ofNat, List.getD_append_right _ _ _ _ (le_refl _), Nat.sub_self]
        exact ha)
    have h3 : ((u.length + 1 : Nat) : Int) - 1 = (u.length : Int) := by push_cast; omega
    exact h1.trans (h2.trans h3)
  rw [hscan, if_neg (by omega), Int.toNat_ofNat]

/-- A string that ends with a whitespace character has a last rune that is a
space, of the width of that character. -/
theorem trailing_space (e s : GoString) (he : e ∈ Whitespace.spaces) (hp : e <:+ s) :
    Unicode.IsSpace (DecodeLastRuneInString s).1 = true ∧
      (DecodeLastRuneInString s).2 = e.length := by
  obtain ⟨u, rfl⟩ := hp
  obtain ⟨h1, h2, -⟩ := spaces_decode_all e he
  have key : (e.getD (e.length - 1) 0).val ≥ 0x80 →
      DecodeLastRuneInString.start (u ++ e) = u.length → e ≠ [] →
      DecodeLastRuneInString (u ++ e) = DecodeRuneInString e := by
    intro hlast hst hne
    have hlen : 0 < e.length := List.length_pos.mpr hne
    unfold DecodeLastRuneInString
    simp only
    rw [if_neg (by simp only [List.length_append]; omega)]
    rw [if_neg (by
      rw [List.getD_append_right _ _ _ _ (by simp only [List.length_append]; omega)]
      have : (u ++ e).length - 1 - u.length = e.length - 1 := by
        simp only [List.length_append]; omega
      rw [this]
      unfold RuneSelf
      omega)]
    rw [hst, List.drop_left]
    have : (u ++ e).length - u.length = e.length := by simp only [List.length_append]; omega
    rw [this, List.take_length, if_neg (by simp only [List.length_append]; omega)]
  rcases spaces_shape_all e he with ⟨hl, ha⟩ | ⟨hl, ha, hb⟩ | ⟨hl, ha, hb, hc⟩
  · match e, hl, ha, h1, h2 with
    | [b], _, ha, h1, h2 =>
      simp only [List.getD_cons_zero] at ha
      have hlast : (u ++ [b]).getD ((u ++ [b]).length - 1) 0 = b := by
        have hle : u.length ≤ (u ++ [b]).length - 1 := by
          simp only [List.length_append, List.length_singleton]; omega
        rw [List.getD_append_right _ _ _ _ hle]
        simp
      rw [DecodeLastRuneInString_ascii _ (by simp) (by rw [hlast]; exact ha), hlast]
      rw [DecodeRuneInString_ascii b [] ha] at h1
      exact ⟨h1, rfl⟩
  · match e, hl, ha, hb, h1, h2 with
    | [a, b], _, ha, hb, h1, h2 =>
      simp only [List.getD_cons_zero, List.getD_cons_succ] at ha hb
      rw [key (by simpa using hb) (start_two u a b ha) (by simp)]
      exact ⟨h1, h2⟩
  · match e, hl, ha, hb, hc, h1, h2 with
    | [a, b, c], _, ha, hb, hc, h1, h2 =>
      simp only [List.getD_cons_zero, List.getD_cons_succ] at ha hb hc
      rw [key (by simpa using hc) (start_three u a b c ha hb) (by simp)]
      exact ⟨h1, h2⟩

/-- A string whose last rune is a space ends with a whitespace character, of the
width of the rune. -/
theorem space_trailing (s : GoString)
    (h : Unicode.IsSpace (DecodeLastRuneInString s).1 = true) :
    ∃ e ∈ Whitespace.spaces, e <:+ s ∧ e.length = (DecodeLastRuneInString s).2 := by
  by_cases hs : s = []
  · subst hs
    have : DecodeLastRuneInString [] = (RuneError, 0) := rfl
    rw [this, IsSpace_RuneError] at h
    cases h
  · have hl : 0 < s.length := List.length_pos.mpr hs
    by_cases hb : (s.getD (s.length - 1) 0).val < 0x80
    · rw [DecodeLastRuneInString_ascii s hs hb] at h ⊢
      refine ⟨[s.getD (s.length - 1) 0],
        List.mem_map.2 ⟨_, Unicode.IsSpace_mem _ h, ?_⟩,
        ⟨s.take (s.length - 1), ?_⟩, rfl⟩
      · unfold Whitespace.utf8
        rw [if_pos hb, ofNat_val _ _ rfl]
      · rw [← drop_length_sub_one s hs, List.take_append_drop]
    · rcases DecodeLastRuneInString_cases s hs hb with he | ⟨hsum, he⟩
      · rw [he, IsSpace_RuneError] at h
        cases h
      · rw [he] at h ⊢
        obtain ⟨e, hmem, hp, hlen⟩ := space_leading _ h
        have heq : e = s.drop (DecodeLastRuneInString.start s) := by
          apply List.IsPrefix.eq_of_length hp
          rw [hlen, List.length_drop]
          omega
        refine ⟨e, hmem, ⟨s.take (DecodeLastRuneInString.start s), ?_⟩, hlen⟩
        rw [heq, List.take_append_drop]

end Utf8

namespace Whitespace

theorem trailing_some {s e : GoString} (h : trailing s = some e) : e ∈ spaces ∧ e <:+ s := by
  unfold trailing at h
  have hp : e.isSuffixOf s = true := List.find?_some (p := fun e : GoString => e.isSuffixOf s) h
  exact ⟨List.mem_of_find?_eq_some h, List.isSuffixOf_iff_suffix.1 hp⟩

theorem trailing_none {s : GoString} : trailing s = none ↔ ∀ e ∈ spaces, ¬ e <:+ s := by
  unfold trailing
  rw [List.find?_eq_none]
  constructor
  · intro h e he hp
    exact h e he (List.isSuffixOf_iff_suffix.2 hp)
  · intro h e he hp
    exact h e he (List.isSuffixOf_iff_suffix.1 hp)

/-- The last rune is not a space: the string ends with no whitespace character. -/
theorem trailing_of_not_space (s : GoString)
    (h : Unicode.IsSpace (Utf8.DecodeLastRuneInString s).1 = false) : trailing s = none := by
  cases hl : trailing s with
  | none => rfl
  | some e =>
    obtain ⟨he, hp⟩ := trailing_some hl
    rw [(Utf8.trailing_space e s he hp).1] at h
    cases h

/-- The last rune is a space: the string ends with a whitespace character, of
the width of the rune. -/
theorem trailing_of_space (s : GoString)
    (h : Unicode.IsSpace (Utf8.DecodeLastRuneInString s).1 = true) :
    ∃ e, trailing s = some e ∧ e.length = (Utf8.DecodeLastRuneInString s).2 := by
  obtain ⟨e0, he0, hp0, -⟩ := Utf8.space_trailing s h
  cases hl : trailing s with
  | none => exact absurd hp0 (trailing_none.1 hl e0 he0)
  | some e =>
    obtain ⟨he, hp⟩ := trailing_some hl
    exact ⟨e, rfl, (Utf8.trailing_space e s he hp).2.symm⟩

end Whitespace

/-! ## `strings.TrimSpace` is the trimming of the spec -/

namespace Whitespace

set_option maxRecDepth 1000000 in
theorem spaces_length_all : ∀ e ∈ spaces, 1 ≤ e.length := by
  decide

theorem leading_nil : leading [] = none := by decide

theorem trailing_nil : trailing [] = none := by decide

theorem trimLeft_go_none (n : Nat) (s : GoString) (h : leading s = none) :
    trimLeft.go n s = s := by
  cases n with
  | zero => rfl
  | succ n => rw [trimLeft.go, h]

theorem trimRight_go_none (n : Nat) (s : GoString) (h : trailing s = none) :
    trimRight.go n s = s := by
  cases n with
  | zero => rfl
  | succ n => rw [trimRight.go, h]

theorem trimLeft_go_some (n : Nat) (s e : GoString) (h : leading s = some e) :
    trimLeft.go (n + 1) s = trimLeft.go n (s.drop e.length) := by
  rw [trimLeft.go, h]

theorem trimRight_go_some (n : Nat) (s e : GoString) (h : trailing s = some e) :
    trimRight.go (n + 1) s = trimRight.go n (s.take (s.length - e.length)) := by
  rw [trimRight.go, h]

/-- What is left after the leading whitespace begins with no whitespace
character. -/
theorem trimLeft_go_leading (n : Nat) : ∀ s : GoString, s.length ≤ n →
    leading (trimLeft.go n s) = none := by
  induction n with
  | zero =>
    intro s hs
    have : s = [] := List.length_eq_zero.mp (by omega)
    subst this
    exact leading_nil
  | succ n ih =>
    intro s hs
    cases h : leading s with
    | none => rw [trimLeft_go_none _ _ h]; exact h
    | some e =>
      rw [trimLeft_go_some _ _ _ h]
      apply ih
      have := spaces_length_all e (leading_some h).1
      rw [List.length_drop]
      omega

/-- What is left after the trailing whitespace ends with no whitespace
character. -/
theorem trimRight_go_trailing (n : Nat) : ∀ s : GoString, s.length ≤ n →
    trailing (trimRight.go n s) = none := by
  induction n with
  | zero =>
    intro s hs
    have : s = [] := List.length_eq_zero.mp (by omega)
    subst this
    exact trailing_nil
  | succ n ih =>
    intro s hs
    cases h : trailing s with
    | none => rw [trimRight_go_none _ _ h]; exact h
    | some e =>
      rw [trimRight_go_some _ _ _ h]
      apply ih
      have := spaces_length_all e (trailing_some h).1
      rw [List.length_take]
      omega

theorem trimRight_go_beginning (n : Nat) : ∀ s : GoString, trimRight.go n s <+: s := by
  induction n with
  | zero => intro s; exact List.prefix_refl s
  | succ n ih =>
    intro s
    cases h : trailing s with
    | none => rw [trimRight_go_none _ _ h]
    | some e =>
      rw [trimRight_go_some _ _ _ h]
      exact (ih _).trans ( List.take_prefix _ _)

theorem leading_beginning {s t : GoString} (h : leading s = none) (ht : t <+: s) :
    leading t = none := by
  rw [leading_none] at h ⊢
  intro e he hp
  exact h e he (hp.trans ht)

/-- The trimmed string begins with no whitespace character. -/
theorem trim_leading (s : GoString) : leading (trim s) = none :=
  leading_beginning (trimLeft_go_leading _ s (le_refl _)) (trimRight_go_beginning _ _)

/-- The trimmed string ends with no whitespace character. -/
theorem trim_trailing (s : GoString) : trailing (trim s) = none :=
  trimRight_go_trailing _ _ (le_refl _)

/-- A string that neither begins nor ends with a whitespace character is its own
trimmed string. -/
theorem trim_fixed (s : GoString) (hl : leading s = none) (ht : trailing s = none) :
    trim s = s := by
  unfold trim trimRight trimLeft
  rw [trimLeft_go_none _ _ hl, trimRight_go_none _ _ ht]

/-- Trimming twice is trimming once. -/
theorem trim_idempotent (s : GoString) : trim (trim s) = trim s :=
  trim_fixed _ (trim_leading s) (trim_trailing s)

end Whitespace

namespace Strings

set_option maxRecDepth 1000000 in
theorem asciiSpace_iff_all : ∀ c : Byte, c.val < 0x80 →
    (asciiSpace c = 0 ↔ Unicode.IsSpace c.val = false) := by
  decide

/-- The loop of `indexFunc`, for `IsSpace` and `false`, removes the leading
whitespace characters one by one. -/
theorem indexFunc_loop_trimLeft (fuel : Nat) : ∀ (i : Nat) (s rest : GoString),
    s.drop i = rest → rest.length ≤ fuel →
      (match indexFunc.loop Unicode.IsSpace false fuel i rest with
        | none => []
        | some j => s.drop j) = Whitespace.trimLeft.go fuel rest := by
  induction fuel with
  | zero =>
    intro i s rest _ hl
    have : rest = [] := List.length_eq_zero.mp (by omega)
    subst this
    rfl
  | succ fuel ih =>
    intro i s rest hs hl
    cases rest with
    | nil =>
      rw [Whitespace.trimLeft_go_none _ _ Whitespace.leading_nil]
      rfl
    | cons c cs =>
      rw [indexFunc.loop]
      by_cases hf : Unicode.IsSpace (Utf8.DecodeRuneInString (c :: cs)).1 = false
      · rw [if_pos hf, Whitespace.trimLeft_go_none _ _ (Whitespace.leading_of_not_space _ hf)]
        exact hs
      · rw [if_neg hf]
        obtain ⟨e, he, hlen⟩ := Whitespace.leading_of_space _ (by simpa using hf)
        rw [Whitespace.trimLeft_go_some _ _ _ he, hlen]
        have h1 := Whitespace.spaces_length_all e (Whitespace.leading_some he).1
        apply ih
        · rw [← hs, List.drop_drop, Nat.add_comm]
        · rw [List.length_drop]
          simp only [List.length_cons] at hl ⊢
          omega

/-- For `IsSpace`, `TrimLeftFunc` removes the leading whitespace. -/
theorem TrimLeftFunc_eq_trimLeft (s : GoString) :
    TrimLeftFunc s Unicode.IsSpace = Whitespace.trimLeft s := by
  unfold TrimLeftFunc indexFunc Whitespace.trimLeft
  exact indexFunc_loop_trimLeft s.length 0 s s rfl (le_refl _)

/-- The loop of `lastIndexFunc`, for `IsSpace` and `false`, followed by the cut
`TrimRightFunc` makes, removes the trailing whitespace characters one by one.
What follows the index `i` does not start with a continuation byte. -/
theorem lastIndexFunc_loop_trimRight (t : GoString) (fuel : Nat) : ∀ i : Nat,
    i ≤ t.length → i ≤ fuel →
    (i = t.length ∨ ¬ (0x80 ≤ (t.getD i 0).val ∧ (t.getD i 0).val ≤ 0xBF)) →
      (match lastIndexFunc.loop t Unicode.IsSpace false fuel i with
        | some j =>
          if (t.getD j 0).val ≥ Utf8.RuneSelf then
            t.take (j + (Utf8.DecodeRuneInString (t.drop j)).2)
          else t.take (j + 1)
        | none => t.take 0) = Whitespace.trimRight.go fuel (t.take i) := by
  induction fuel with
  | zero =>
    intro i _ hf _
    have : i = 0 := by omega
    subst this
    rfl
  | succ fuel ih =>
    intro i hi hfu hv
    by_cases h0 : i > 0
    · rw [lastIndexFunc_loop_succ _ _ _ _ _ h0]
      have hne : t.take i ≠ [] := by
        intro hc
        have := congrArg List.length hc
        simp only [List.length_take, List.length_nil] at this
        omega
      have hlen : (t.take i).length = i := by simp only [List.length_take]; omega
      have hsz := Utf8.DecodeLastRuneInString_size _ hne
      by_cases hf : Unicode.IsSpace (Utf8.DecodeLastRuneInString (t.take i)).1 = false
      · rw [if_pos hf, Whitespace.trimRight_go_none _ _ (Whitespace.trailing_of_not_space _ hf)]
        have hv' : t.drop i = [] ∨
            ¬ (0x80 ≤ ((t.drop i).getD 0 0).val ∧ ((t.drop i).getD 0 0).val ≤ 0xBF) := by
          rcases hv with rfl | hv
          · left; simp
          · right; rw [Utf8.getD_drop_add]; exact hv
        have hfw := Utf8.DecodeLastRuneInString_forward (t.take i) (t.drop i) hne hv'
        rw [List.take_append_drop, hlen] at hfw
        obtain ⟨-, -, hfw⟩ := hfw
        simp only
        split_ifs at hfw ⊢ with hc
        · rw [hfw]
        · rw [hfw]
      · rw [if_neg hf]
        obtain ⟨e, he, hel⟩ := Whitespace.trailing_of_space _ (by simpa using hf)
        rw [Whitespace.trimRight_go_some _ _ _ he, hel, hlen, List.take_take,
          Nat.min_eq_left (Nat.sub_le _ _)]
        have hsp := Utf8.DecodeLastRuneInString_space (t.take i) hne (by simpa using hf)
        rw [hlen, Utf8.getD_take_lt t i _ (by omega)] at hsp
        exact ih _ (by omega) (by omega) (Or.inr hsp)
    · have : i = 0 := by omega
      subst this
      rw [lastIndexFunc.loop, if_neg h0, List.take_zero,
        Whitespace.trimRight_go_none _ _ Whitespace.trailing_nil]

/-- For `IsSpace`, `TrimRightFunc` removes the trailing whitespace. -/
theorem TrimRightFunc_eq_trimRight (t : GoString) :
    TrimRightFunc t Unicode.IsSpace = Whitespace.trimRight t := by
  have h := lastIndexFunc_loop_trimRight t t.length t.length (le_refl _) (le_refl _) (Or.inl rfl)
  rw [List.take_length] at h
  unfold TrimRightFunc lastIndexFunc Whitespace.trimRight
  exact h

/-- The second loop of `TrimSpace` removes the trailing whitespace of the string
cut at `stop`. -/
theorem TrimSpace_right_eq (t : GoString) (stop : Nat) : stop ≤ t.length →
    TrimSpace.right t stop = Whitespace.trimRight (t.take stop) := by
  induction stop with
  | zero => intro _; rfl
  | succ k ih =>
    intro hk
    rw [TrimSpace.right]
    have hne : t.take (k + 1) ≠ [] := by
      intro h0
      have := congrArg List.length h0
      simp only [List.length_take, List.length_nil] at this
      omega
    have hlen : (t.take (k + 1)).length = k + 1 := by
      simp only [List.length_take]; omega
    have hlast : (t.take (k + 1)).getD ((t.take (k + 1)).length - 1) 0 = t.getD k 0 := by
      rw [hlen, Nat.add_sub_cancel, Utf8.getD_take_lt t (k + 1) k (by omega)]
    by_cases hc : (t.getD k 0).val ≥ Utf8.RuneSelf
    · rw [if_pos hc]
      exact TrimRightFunc_eq_trimRight _
    · rw [if_neg hc]
      have hlt80 : (t.getD k 0).val < 0x80 := by
        unfold Utf8.RuneSelf at hc; omega
      have hdec := Utf8.DecodeLastRuneInString_ascii _ hne (by rw [hlast]; exact hlt80)
      rw [hlast] at hdec
      unfold Whitespace.trimRight
      rw [hlen]
      by_cases ha : asciiSpace (t.getD k 0) = 0
      · rw [if_pos ha]
        have hsp : Unicode.IsSpace (Utf8.DecodeLastRuneInString (t.take (k + 1))).1 = false := by
          rw [hdec]
          exact (asciiSpace_iff_all _ hlt80).1 ha
        rw [Whitespace.trimRight_go_none _ _ (Whitespace.trailing_of_not_space _ hsp)]
      · rw [if_neg ha]
        have hsp : Unicode.IsSpace (Utf8.DecodeLastRuneInString (t.take (k + 1))).1 = true := by
          rw [hdec]
          by_contra hn
          exact ha ((asciiSpace_iff_all _ hlt80).2 (by simpa using hn))
        obtain ⟨e, he, hel⟩ := Whitespace.trailing_of_space _ hsp
        rw [hdec] at hel
        simp only at hel
        rw [Whitespace.trimRight_go_some _ _ _ he, hel, hlen, Nat.add_sub_cancel, List.take_take,
          Nat.min_eq_left (Nat.le_succ k), ih (by omega)]
        unfold Whitespace.trimRight
        have : (t.take k).length = k := by simp only [List.length_take]; omega
        rw [this]

/-- The function `strings.TrimSpace` removes the leading and the trailing
whitespace: on every string it returns what the spec's trimming returns. -/
theorem TrimSpace_eq_trim (s : GoString) : TrimSpace s = Whitespace.trim s := by
  induction s with
  | nil => rfl
  | cons c cs ih =>
    rw [TrimSpace]
    by_cases hc : c.val ≥ Utf8.RuneSelf
    · rw [if_pos hc]
      unfold TrimFunc Whitespace.trim
      rw [TrimLeftFunc_eq_trimLeft, TrimRightFunc_eq_trimRight]
    · rw [if_neg hc]
      have hlt80 : c.val < 0x80 := by unfold Utf8.RuneSelf at hc; omega
      have hdec := Utf8.DecodeRuneInString_ascii c cs hlt80
      by_cases ha : asciiSpace c = 0
      · rw [if_pos ha]
        have hsp : Unicode.IsSpace (Utf8.DecodeRuneInString (c :: cs)).1 = false := by
          rw [hdec]
          exact (asciiSpace_iff_all _ hlt80).1 ha
        rw [TrimSpace_right_eq _ _ (le_refl _), List.take_length]
        unfold Whitespace.trim Whitespace.trimLeft
        rw [Whitespace.trimLeft_go_none _ _ (Whitespace.leading_of_not_space _ hsp)]
      · rw [if_neg ha, ih]
        have hsp : Unicode.IsSpace (Utf8.DecodeRuneInString (c :: cs)).1 = true := by
          rw [hdec]
          by_contra hn
          exact ha ((asciiSpace_iff_all _ hlt80).2 (by simpa using hn))
        obtain ⟨e, he, hel⟩ := Whitespace.leading_of_space _ hsp
        rw [hdec] at hel
        simp only at hel
        unfold Whitespace.trim Whitespace.trimLeft
        rw [List.length_cons, Whitespace.trimLeft_go_some _ _ _ he, hel]
        rfl

end Strings

/-! ## Reading statuses in memory; the layout of a deep copy -/

namespace Memory

theorem readCell_lt {h : Heap} {a : Nat} {oc : Option Cell} (hr : readCell h (some a) = some oc) :
    a < h.length := by
  simp only [readCell, Option.map_eq_some'] at hr
  obtain ⟨c, hc, -⟩ := hr
  exact (List.getElem?_eq_some.mp hc).1

/-- Allocation leaves what a pointer refers to as it is. -/
theorem readCell_append {h : Heap} {p : Option Nat} {oc : Option Cell} (ext : Heap)
    (hr : readCell h p = some oc) : readCell (h ++ ext) p = some oc := by
  cases p with
  | none => exact hr
  | some a =>
    have hlt := readCell_lt hr
    simp only [readCell] at hr ⊢
    rw [List.getElem?_append_left hlt]
    exact hr

/-- A write at an address leaves what a pointer to another address refers to as
it is. -/
theorem readCell_set {h : Heap} {p : Option Nat} {oc : Option Cell} (a : Nat) (x : Cell)
    (hne : ∀ b, p = some b → b ≠ a) (hr : readCell h p = some oc) :
    readCell (h.set a x) p = some oc := by
  cases p with
  | none => exact hr
  | some b =>
    have := hne b rfl
    simp only [readCell] at hr ⊢
    rw [List.getElem?_set_ne (Ne.symm this)]
    exact hr

/-- The copy of a pointer refers to a fresh cell with the same content, in a
memory that extends the old one. -/
theorem copyPtr_spec (h : Heap) (p : Option Nat) :
    ∃ ext, (copyPtr h p).1 = h ++ ext ∧
      (∀ oc, readCell h p = some oc → readCell (h ++ ext) (copyPtr h p).2 = some oc) ∧
      (∀ a, (copyPtr h p).2 = some a → h.length ≤ a ∧ a < (h ++ ext).length) := by
  cases p with
  | none => exact ⟨[], by simp [copyPtr], fun oc hr => by simpa [copyPtr] using hr, by
      simp [copyPtr]⟩
  | some a =>
    cases hc : h[a]? with
    | none =>
      refine ⟨[], by simp [copyPtr, hc], fun oc hr => ?_, by simp [copyPtr, hc]⟩
      simp [readCell, hc] at hr
    | some c =>
      refine ⟨[c], by simp [copyPtr, hc], fun oc hr => ?_, fun b hb => ?_⟩
      · simp only [readCell, hc, Option.map_some', Option.some.injEq] at hr
        subst hr
        simp [copyPtr, hc, readCell]
      · simp only [copyPtr, hc, Option.some.injEq] at hb
        subst hb
        simp

theorem bind_transport {h H : Heap} {p q : Option Nat} {α : Type} (f : Option Cell → Option α)
    {x : α} (ht : ∀ oc, readCell h p = some oc → readCell H q = some oc)
    (hr : (readCell h p).bind f = some x) : (readCell H q).bind f = some x := by
  rw [Option.bind_eq_some] at hr ⊢
  obtain ⟨oc, h1, h2⟩ := hr
  exact ⟨oc, ht oc h1, h2⟩

/-- What `read` returns, field by field. -/
theorem read_inv {h : Heap} {r : NotebookStatusRef} {v : NotebookStatus}
    (hv : read h r = some v) :
    ((readCell h r.LastUpdatedAt).bind asTime = some v.LastUpdatedAt ∧
      (readCell h r.RunningAt).bind asTime = some v.RunningAt ∧
      (readCell h r.PodStatus).bind asPod = some v.PodStatus ∧
      (readCell h r.DownloadArtifactStatuses).bind asArtifacts =
        some v.DownloadArtifactStatuses ∧
      (readCell h r.NBConvertJobStatus).bind asJob = some v.NBConvertJobStatus ∧
      (readCell h r.WorkspaceUploadJobStatus).bind asJob = some v.WorkspaceUploadJobStatus ∧
      (readCell h r.ImageCacheJobStatus).bind asJob = some v.ImageCacheJobStatus ∧
      (readCell h r.WorkspaceUploadPodStatus).bind asPod = some v.WorkspaceUploadPodStatus ∧
      (readCell h r.ImageCachePodStatus).bind asPod = some v.ImageCachePodStatus ∧
      (readCell h r.WorkspaceExportJobStatus).bind asJob = some v.WorkspaceExportJobStatus ∧
      (readCell h r.ImageExportJobStatus).bind asJob = some v.ImageExportJobStatus) ∧
    (v.State = r.State ∧ v.GradientStatus = r.GradientStatus ∧ v.EndpointURL = r.EndpointURL ∧
      v.Message = r.Message ∧ v.ImageSecretName = r.ImageSecretName ∧ v.ExitCode = r.ExitCode ∧
      v.ServiceName = r.ServiceName ∧ v.IngressName = r.IngressName ∧
      v.NotebookNodeName = r.NotebookNodeName) := by
  unfold read at hv
  simp only [Option.bind_eq_some] at hv
  obtain ⟨x1, h1, x2, h2, x3, h3, x4, h4, x5, h5, x6, h6, x7, h7, x8, h8, x9, h9, x10, h10, x11,
    h11, hv⟩ := hv
  simp only [Option.some.injEq] at hv
  subst hv
  exact ⟨⟨Option.bind_eq_some.mpr h1, Option.bind_eq_some.mpr h2, Option.bind_eq_some.mpr h3,
    Option.bind_eq_some.mpr h4, Option.bind_eq_some.mpr h5, Option.bind_eq_some.mpr h6,
    Option.bind_eq_some.mpr h7, Option.bind_eq_some.mpr h8, Option.bind_eq_some.mpr h9,
    Option.bind_eq_some.mpr h10, Option.bind_eq_some.mpr h11⟩, rfl, rfl, rfl, rfl, rfl, rfl, rfl,
    rfl, rfl⟩

/-- The value `read` returns, from what each pointer field gives. -/
theorem read_eq {H : Heap} {q : NotebookStatusRef} {v : NotebookStatus}
    (h1 : (readCell H q.LastUpdatedAt).bind asTime = some v.LastUpdatedAt)
    (h2 : (readCell H q.RunningAt).bind asTime = some v.RunningAt)
    (h3 : (readCell H q.PodStatus).bind asPod = some v.PodStatus)
    (h4 : (readCell H q.DownloadArtifactStatuses).bind asArtifacts =
      some v.DownloadArtifactStatuses)
    (h5 : (readCell H q.NBConvertJobStatus).bind asJob = some v.NBConvertJobStatus)
    (h6 : (readCell H q.WorkspaceUploadJobStatus).bind asJob = some v.WorkspaceUploadJobStatus)
    (h7 : (readCell H q.ImageCacheJobStatus).bind asJob = some v.ImageCacheJobStatus)
    (h8 : (readCell H q.WorkspaceUploadPodStatus).bind asPod = some v.WorkspaceUploadPodStatus)
    (h9 : (readCell H q.ImageCachePodStatus).bind asPod = some v.ImageCachePodStatus)
    (h10 : (readCell H q.WorkspaceExportJobStatus).bind asJob = some v.WorkspaceExportJobStatus)
    (h11 : (readCell H q.ImageExportJobStatus).bind asJob = some v.ImageExportJobStatus)
    (hs : v.State = q.State ∧ v.GradientStatus = q.GradientStatus ∧
      v.EndpointURL = q.EndpointURL ∧ v.Message = q.Message ∧
      v.ImageSecretName = q.ImageSecretName ∧ v.ExitCode = q.ExitCode ∧
      v.ServiceName = q.ServiceName ∧ v.IngressName = q.IngressName ∧
      v.NotebookNodeName = q.NotebookNodeName) :
    read H q = some v := by
  obtain ⟨s1, s2, s3, s4, s5, s6, s7, s8, s9⟩ := hs
  unfold read
  rw [h1, Option.some_bind, h2, Option.some_bind, h3, Option.some_bind, h4, Option.some_bind, h5,
    Option.some_bind, h6, Option.some_bind, h7, Option.some_bind, h8, Option.some_bind, h9,
    Option.some_bind, h10, Option.some_bind, h11, Option.some_bind, ← s1, ← s2, ← s3, ← s4, ← s5,
    ← s6, ← s7, ← s8, ← s9]


theorem readCell_mono {h H : Heap} {p : Option Nat} {oc : Option Cell} (hp : h <+: H)
    (hr : readCell h p = some oc) : readCell H p = some oc := by
  obtain ⟨ext, rfl⟩ := hp
  exact readCell_append ext hr

theorem copyPtr_fresh (h : Heap) (p : Option Nat) :
    h <+: (copyPtr h p).1 ∧
      (∀ oc, readCell h p = some oc → readCell (copyPtr h p).1 (copyPtr h p).2 = some oc) ∧
      (∀ a, (copyPtr h p).2 = some a → h.length ≤ a ∧ a < (copyPtr h p).1.length) := by
  obtain ⟨ext, h1, h2, h3⟩ := copyPtr_spec h p
  rw [h1]
  exact ⟨List.prefix_append _ _, h2, h3⟩

/-- The layout of a deep copy: the memory is extended, each pointer field of the
copy refers to the content the original field refers to, and the eleven fields
of the copy have their addresses in eleven successive intervals above the old
memory. -/
theorem DeepCopy_layout (h : Heap) (r : NotebookStatusRef) :
    ∃ n1 n2 n3 n4 n5 n6 n7 n8 n9 n10 : Nat,
      h <+: (DeepCopy h r).1 ∧
      (h.length ≤ n1 ∧ n1 ≤ n2 ∧ n2 ≤ n3 ∧ n3 ≤ n4 ∧ n4 ≤ n5 ∧ n5 ≤ n6 ∧ n6 ≤ n7 ∧ n7 ≤ n8 ∧
        n8 ≤ n9 ∧ n9 ≤ n10 ∧ n10 ≤ (DeepCopy h r).1.length) ∧
      ((∀ oc, readCell h r.LastUpdatedAt = some oc →
          readCell (DeepCopy h r).1 (DeepCopy h r).2.LastUpdatedAt = some oc) ∧
        (∀ oc, readCell h r.RunningAt = some oc →
          readCell (DeepCopy h r).1 (DeepCopy h r).2.RunningAt = some oc) ∧
        (∀ oc, readCell h r.PodStatus = some oc →
          readCell (DeepCopy h r).1 (DeepCopy h r).2.PodStatus = some oc) ∧
        (∀ oc, readCell h r.DownloadArtifactStatuses = some oc →
          readCell (DeepCopy h r).1 (DeepCopy h r).2.DownloadArtifactStatuses = some oc) ∧
        (∀ oc, readCell h r.NBConvertJobStatus = some oc →
          readCell (DeepCopy h r).1 (DeepCopy h r).2.NBConvertJobStatus = some oc) ∧
        (∀ oc, readCell h r.WorkspaceUploadJobStatus = some oc →
          readCell (DeepCopy h r).1 (DeepCopy h r).2.WorkspaceUploadJobStatus = some oc) ∧
        (∀ oc, readCell h r.ImageCacheJobStatus = some oc →
          readCell (DeepCopy h r).1 (DeepCopy h r).2.ImageCacheJobStatus = some oc) ∧
        (∀ oc, readCell h r.WorkspaceUploadPodStatus = some oc →
          readCell (DeepCopy h r).1 (DeepCopy h r).2.WorkspaceUploadPodStatus = some oc) ∧
        (∀ oc, readCell h r.ImageCachePodStatus = some oc →
          readCell (DeepCopy h r).1 (DeepCopy h r).2.ImageCachePodStatus = some oc) ∧
        (∀ oc, readCell h r.WorkspaceExportJobStatus = some oc →
          readCell (DeepCopy h r).1 (DeepCopy h r).2.WorkspaceExportJobStatus = some oc) ∧
        (∀ oc, readCell h r.ImageExportJobStatus = some oc →
          readCell (DeepCopy h r).1 (DeepCopy h r).2.ImageExportJobStatus = some oc)) ∧
      ((∀ a, (DeepCopy h r).2.LastUpdatedAt = some a → h.length ≤ a ∧ a < n1) ∧
        (∀ a, (DeepCopy h r).2.RunningAt = some a → n1 ≤ a ∧ a < n2) ∧
        (∀ a, (DeepCopy h r).2.PodStatus = some a → n2 ≤ a ∧ a < n3) ∧
        (∀ a, (DeepCopy h r).2.DownloadArtifactStatuses = some a → n3 ≤ a ∧ a < n4) ∧
        (∀ a, (DeepCopy h r).2.NBConvertJobStatus = some a → n4 ≤ a ∧ a < n5) ∧
        (∀ a, (DeepCopy h r).2.WorkspaceUploadJobStatus = some a → n5 ≤ a ∧ a < n6) ∧
        (∀ a, (DeepCopy h r).2.ImageCacheJobStatus = some a → n6 ≤ a ∧ a < n7) ∧
        (∀ a, (DeepCopy h r).2.WorkspaceUploadPodStatus = some a → n7 ≤ a ∧ a < n8) ∧
        (∀ a, (DeepCopy h r).2.ImageCachePodStatus = some a → n8 ≤ a ∧ a < n9) ∧
        (∀ a, (DeepCopy h r).2.WorkspaceExportJobStatus = some a → n9 ≤ a ∧ a < n10) ∧
        (∀ a, (DeepCopy h r).2.ImageExportJobStatus = some a →
          n10 ≤ a ∧ a < (DeepCopy h r).1.length)) ∧
      ((DeepCopy h r).2.State = r.State ∧ (DeepCopy h r).2.GradientStatus = r.GradientStatus ∧
        (DeepCopy h r).2.EndpointURL = r.EndpointURL ∧ (DeepCopy h r).2.Message = r.Message ∧
        (DeepCopy h r).2.ImageSecretName = r.ImageSecretName ∧
        (DeepCopy h r).2.ExitCode = r.ExitCode ∧ (DeepCopy h r).2.ServiceName = r.ServiceName ∧
        (DeepCopy h r).2.IngressName = r.IngressName ∧
        (DeepCopy h r).2.NotebookNodeName = r.NotebookNodeName) := by
  unfold DeepCopy
  simp only
  have P1 := copyPtr_fresh h r.LastUpdatedAt
  generalize copyPtr h r.LastUpdatedAt = c1 at P1 ⊢
  have P2 := copyPtr_fresh c1.1 r.RunningAt
  generalize copyPtr c1.1 r.RunningAt = c2 at P2 ⊢
  have P3 := copyPtr_fresh c2.1 r.PodStatus
  generalize copyPtr c2.1 r.PodStatus = c3 at P3 ⊢
  have P4 := copyPtr_fresh c3.1 r.DownloadArtifactStatuses
  generalize copyPtr c3.1 r.DownloadArtifactStatuses = c4 at P4 ⊢
  have P5 := copyPtr_fresh c4.1 r.NBConvertJobStatus
  generalize copyPtr c4.1 r.NBConvertJobStatus = c5 at P5 ⊢
  have P6 := copyPtr_fresh c5.1 r.WorkspaceUploadJobStatus
  generalize copyPtr c5.1 r.WorkspaceUploadJobStatus = c6 at P6 ⊢
  have P7 := copyPtr_fresh c6.1 r.ImageCacheJobStatus
  generalize copyPtr c6.1 r.ImageCacheJobStatus = c7 at P7 ⊢
  have P8 := copyPtr_fresh c7.1 r.WorkspaceUploadPodStatus
  generalize copyPtr c7.1 r.WorkspaceUploadPodStatus = c8 at P8 ⊢
  have P9 := copyPtr_fresh c8.1 r.ImageCachePodStatus
  generalize copyPtr c8.1 r.ImageCachePodStatus = c9 at P9 ⊢
  have P10 := copyPtr_fresh c9.1 r.WorkspaceExportJobStatus
  generalize copyPtr c9.1 r.WorkspaceExportJobStatus = c10 at P10 ⊢
  have P11 := copyPtr_fresh c10.1 r.ImageExportJobStatus
  generalize copyPtr c10.1 r.ImageExportJobStatus = c11 at P11 ⊢
  obtain ⟨E1, R1, F1⟩ := P1
  obtain ⟨E2, R2, F2⟩ := P2
  obtain ⟨E3, R3, F3⟩ := P3
  obtain ⟨E4, R4, F4⟩ := P4
  obtain ⟨E5, R5, F5⟩ := P5
  obtain ⟨E6, R6, F6⟩ := P6
  obtain ⟨E7, R7, F7⟩ := P7
  obtain ⟨E8, R8, F8⟩ := P8
  obtain ⟨E9, R9, F9⟩ := P9
  obtain ⟨E10, R10, F10⟩ := P10
  obtain ⟨E11, R11, F11⟩ := P11
  -- the chain of extensions
  have A2 := E1.trans E2
  have A3 := A2.trans E3
  have A4 := A3.trans E4
  have A5 := A4.trans E5
  have A6 := A5.trans E6
  have A7 := A6.trans E7
  have A8 := A7.trans E8
  have A9 := A8.trans E9
  have A10 := A9.trans E10
  have B10 := E11
  have B9 := E10.trans B10
  have B8 := E9.trans B9
  have B7 := E8.trans B8
  have B6 := E7.trans B7
  have B5 := E6.trans B6
  have B4 := E5.trans B5
  have B3 := E4.trans B4
  have B2 := E3.trans B3
  have B1 := E2.trans B2
  refine ⟨c1.1.length, c2.1.length, c3.1.length, c4.1.length, c5.1.length, c6.1.length,
    c7.1.length, c8.1.length, c9.1.length, c10.1.length, E1.trans B1,
    ⟨E1.length_le, E2.length_le, E3.length_le, E4.length_le, E5.length_le, E6.length_le,
      E7.length_le, E8.length_le, E9.length_le, E10.length_le, E11.length_le⟩,
    ⟨fun oc hr => readCell_mono B1 (R1 oc hr),
      fun oc hr => readCell_mono B2 (R2 oc (readCell_mono E1 hr)),
      fun oc hr => readCell_mono B3 (R3 oc (readCell_mono A2 hr)),
      fun oc hr => readCell_mono B4 (R4 oc (readCell_mono A3 hr)),
      fun oc hr => readCell_mono B5 (R5 oc (readCell_mono A4 hr)),
      fun oc hr => readCell_mono B6 (R6 oc (readCell_mono A5 hr)),
      fun oc hr => readCell_mono B7 (R7 oc (readCell_mono A6 hr)),
      fun oc hr => readCell_mono B8 (R8 oc (readCell_mono A7 hr)),
      fun oc hr => readCell_mono B9 (R9 oc (readCell_mono A8 hr)),
      fun oc hr => readCell_mono B10 (R10 oc (readCell_mono A9 hr)),
      fun oc hr => R11 oc (readCell_mono A10 hr)⟩,
    ⟨F1, F2, F3, F4, F5, F6, F7, F8, F9, F10, F11⟩,
    trivial, trivial, trivial, trivial, trivial, trivial, trivial, trivial, trivial⟩


theorem readCell_set_same (H : Heap) (a : Nat) (x : Cell) (ha : a < H.length) :
    readCell (H.set a x) (some a) = some (some x) := by
  simp [readCell, List.getElem?_set_self ha]

theorem readCell_fresh (H : Heap) (x : Cell) :
    readCell (H ++ [x]) (some H.length) = some (some x) := by
  simp [readCell]

theorem readCell_set_old {h H : Heap} {p : Option Nat} {oc : Option Cell} (a : Nat) (x : Cell)
    (hp : h <+: H) (ha : h.length ≤ a) (hr : readCell h p = some oc) :
    readCell (H.set a x) p = some oc := by
  apply readCell_set a x _ (readCell_mono hp hr)
  intro b hb
  subst hb
  have := readCell_lt hr
  omega

end Memory

/-! ## The Go decoder on any input: the bytes of the well-formed beginning -/

namespace Base64

set_option maxRecDepth 1000000 in
theorem sextet_none_all : ∀ c : Byte, RFC4648.sextet c = none → decodeMap c = 0xff := by
  decide

theorem sextet_cases (c : Byte) :
    (RFC4648.sextet c = none ∧ decodeMap c = 0xff) ∨
      ∃ v, RFC4648.sextet c = some v ∧ decodeMap c = v ∧ v < 64 := by
  cases h : RFC4648.sextet c with
  | none => exact Or.inl ⟨rfl, sextet_none_all c h⟩
  | some v => exact Or.inr ⟨v, rfl, sextet_decodeMap h⟩

/-- A byte that is neither of the alphabet nor a new line, and is not a padding
character after two or three sextets, ends the quantum with an error and nothing
stored. -/
theorem loop_stop (dbuf : List Nat) (si : Nat) (c : Byte) (cs : GoString)
    (hl : dbuf.length < 4) (hs : RFC4648.sextet c = none) (hn : ¬ (c = 10 ∨ c = 13))
    (hp : c ≠ StdPadding ∨ dbuf.length ≤ 1) :
    (decodeQuantum.loop dbuf si (c :: cs)).err ≠ none ∧
      (decodeQuantum.loop dbuf si (c :: cs)).out = [] := by
  have hc : ¬ decodeMap c ≠ 0xff := by
    rw [sextet_none_all c hs]; simp
  by_cases hpad : c ≠ StdPadding
  · rw [loop_cons_bad _ _ _ _ hl hc hn hpad]
    simp
  · rw [loop_cons_pad _ _ _ _ hl hc hn hpad]
    have h1 : dbuf.length = 0 ∨ dbuf.length = 1 := by
      rcases hp with hp | hp
      · exact absurd hp hpad
      · omega
    rw [decodePadding_lt2 _ _ _ h1]
    simp

/-- The source ends inside a quantum: an error and nothing stored. -/
theorem loop_end (dbuf : List Nat) (si : Nat) (h0 : 0 < dbuf.length) (h4 : dbuf.length < 4) :
    (decodeQuantum.loop dbuf si []).err ≠ none ∧ (decodeQuantum.loop dbuf si []).out = [] := by
  rw [decodeQuantum.loop, if_neg (by omega), if_neg (by omega)]
  simp

theorem skipNewlines_stay (si : Nat) (rest : GoString)
    (h : ∀ c ∈ rest, ¬ (c = 10 ∨ c = 13)) : skipNewlines si rest = (si, rest) := by
  cases rest with
  | nil => rfl
  | cons c cs =>
    rw [skipNewlines, if_neg (h c (List.mem_cons_self c cs))]

theorem finish_stay (dbuf : List Nat) (si : Nat) (rest : GoString)
    (h : ∀ c ∈ rest, ¬ (c = 10 ∨ c = 13)) :
    decodePadding.finish dbuf si rest =
      ⟨si, rest, quantumBytes dbuf dbuf.length,
        if rest ≠ [] then some ⟨(si : Int)⟩ else none⟩ := by
  unfold decodePadding.finish
  rw [skipNewlines_stay si rest h]

/-- A source without new lines that is too short for a quantum: an error and
nothing stored. -/
theorem loop_short (y : GoString) : ∀ (dbuf : List Nat) (si : Nat),
    (∀ c ∈ y, ¬ (c = 10 ∨ c = 13)) → dbuf.length + y.length < 4 → 0 < dbuf.length + y.length →
      (decodeQuantum.loop dbuf si y).err ≠ none ∧ (decodeQuantum.loop dbuf si y).out = [] := by
  induction y with
  | nil =>
    intro dbuf si _ h4 h0
    simp only [List.length_nil, Nat.add_zero] at h4 h0
    exact loop_end dbuf si h0 h4
  | cons c cs ih =>
    intro dbuf si hnf h4 h0
    simp only [List.length_cons] at h4
    have hn := hnf c (List.mem_cons_self c cs)
    have hnf' : ∀ c' ∈ cs, ¬ (c' = 10 ∨ c' = 13) := fun c' hc' => hnf c' (List.mem_cons_of_mem c hc')
    rcases sextet_cases c with ⟨hs, -⟩ | ⟨v, hs, -, -⟩
    · by_cases hp : c ≠ StdPadding ∨ dbuf.length ≤ 1
      · exact loop_stop dbuf si c cs (by omega) hs hn hp
      · push_neg at hp
        have hcs : cs = [] := List.length_eq_zero.mp (by omega)
        subst hcs
        have hc : ¬ decodeMap c ≠ 0xff := by
          rw [sextet_none_all c hs]; simp
        rw [loop_cons_pad _ _ _ _ (by omega) hc hn (by simpa using hp.1),
          decodePadding_two_nil dbuf (si + 1) [] (by omega) rfl]
        simp
    · rw [loop_sextet dbuf si cs hs (by omega)]
      apply ih _ _ hnf'
      · simp only [List.length_append, List.length_singleton]; omega
      · simp only [List.length_append, List.length_singleton]; omega

theorem beginning_short (y : GoString) (h : y.length < 4) : RFC4648.beginning y = [] := by
  match y, h with
  | [], _ => rfl
  | [_], _ => rfl
  | [_, _], _ => rfl
  | [_, _, _], _ => rfl
  | _ :: _ :: _ :: _ :: _, h => simp only [List.length_cons] at h; omega

theorem decode_short (y : GoString) (h : y.length < 4) (h0 : y ≠ []) : RFC4648.decode y = none := by
  match y, h, h0 with
  | [], _, h0 => exact absurd rfl h0
  | [_], _, _ => rfl
  | [_, _], _, _ => rfl
  | [_, _, _], _, _ => rfl
  | _ :: _ :: _ :: _ :: _, h, _ => simp only [List.length_cons] at h; omega

/-- The step of `Decode.loop` at a quantum that fails with nothing stored, on a
source with no well-formed group at its beginning. -/
theorem Decode_loop_stop (fuel si : Nat) (y : GoString) (dst : List Byte) (hy : y ≠ [])
    (hq : (decodeQuantum si y).err ≠ none ∧ (decodeQuantum si y).out = [])
    (hb : RFC4648.beginning y = []) (hd : RFC4648.decode y = none) :
    (Decode.loop (fuel + 1) si y dst).1 = dst ++ RFC4648.beginning y ∧
      ((Decode.loop (fuel + 1) si y dst).2 = none ↔ RFC4648.decode y ≠ none) := by
  rw [Decode_loop_step_err _ _ _ _ hy hq.1, hq.2, hb, hd]
  simp only [ne_eq, not_true_eq_false, iff_false]
  exact ⟨trivial, hq.1⟩

/-- The step of `Decode.loop` at a padded quantum, on a source whose first group
is padded. -/
theorem Decode_loop_padded (fuel si : Nat) (y rest : GoString) (dst bytes : List Byte)
    (hy : y ≠ []) (hr : (decodeQuantum si y).rest = rest)
    (ho : (decodeQuantum si y).out = bytes)
    (he : (decodeQuantum si y).err = none ↔ rest = [])
    (hb : RFC4648.beginning y = bytes) (hd : RFC4648.decode y ≠ none ↔ rest = []) :
    (Decode.loop (fuel + 1) si y dst).1 = dst ++ RFC4648.beginning y ∧
      ((Decode.loop (fuel + 1) si y dst).2 = none ↔ RFC4648.decode y ≠ none) := by
  by_cases h : rest = []
  · rw [Decode_loop_step_ok _ _ _ _ hy (he.2 h), hr, ho, h, Decode_loop_nil, hb]
    simp only [true_and, true_iff]
    exact hd.2 h
  · have he' : (decodeQuantum si y).err ≠ none := fun hc => h (he.1 hc)
    rw [Decode_loop_step_err _ _ _ _ hy he', ho, hb]
    simp only [true_and]
    constructor
    · intro hc; exact absurd hc he'
    · intro hc; exact absurd (hd.1 hc) h

end Base64

namespace Base64

/-- On a source without new lines, the third loop of `Decode` stores the bytes
of the well-formed groups at the beginning of the source, and it reports no
error exactly when RFC 4648 accepts the source. -/
theorem Decode_loop_beginning (fuel : Nat) : ∀ (si : Nat) (y : GoString) (dst : List Byte),
    (∀ c ∈ y, ¬ (c = 10 ∨ c = 13)) → y.length ≤ fuel →
      (Decode.loop fuel si y dst).1 = dst ++ RFC4648.beginning y ∧
        ((Decode.loop fuel si y dst).2 = none ↔ RFC4648.decode y ≠ none) := by
  induction fuel with
  | zero =>
    intro si y dst _ hl
    have : y = [] := List.length_eq_zero.mp (by omega)
    subst this
    simp [Decode.loop, RFC4648.beginning, RFC4648.decode]
  | succ fuel ih =>
    intro si y dst hnf hl
    by_cases hy : y = []
    · subst hy
      rw [Decode_loop_nil]
      simp [RFC4648.beginning, RFC4648.decode]
    by_cases h4 : y.length < 4
    · exact Decode_loop_stop fuel si y dst hy
        (loop_short y [] si hnf (by simpa using h4)
          (by simpa using List.length_pos.mpr hy))
        (beginning_short y h4) (decode_short y h4 hy)
    · match y, hnf, hl, hy, h4 with
      | [], _, _, hy, _ => exact absurd rfl hy
      | [_], _, _, _, h4 => simp at h4
      | [_, _], _, _, _, h4 => simp at h4
      | [_, _, _], _, _, _, h4 => simp at h4
      | a :: b :: c :: d :: rest, hnf, hl, hy, _ =>
        have hna := hnf a (by simp)
        have hnb := hnf b (by simp)
        have hnc := hnf c (by simp)
        have hnd := hnf d (by simp)
        have hnr : ∀ c' ∈ rest, ¬ (c' = 10 ∨ c' = 13) := fun c' h' => hnf c' (by simp [h'])
        have hndr : ∀ c' ∈ d :: rest, ¬ (c' = 10 ∨ c' = 13) :=
          fun c' h' => hnf c' (by simp only [List.mem_cons] at h' ⊢; tauto)
        rcases sextet_cases a with ⟨ha, -⟩ | ⟨x, ha, -, -⟩
        · -- the first character is not of the alphabet
          apply Decode_loop_stop _ _ _ _ hy
            (loop_stop [] si a _ (by simp) ha hna (Or.inr (by simp)))
          · simp [RFC4648.beginning, ha]
          · simp [RFC4648.decode, ha]
        rcases sextet_cases b with ⟨hb, -⟩ | ⟨y', hb, -, hy64⟩
        · -- the second character is not of the alphabet
          apply Decode_loop_stop _ _ _ _ hy
          · unfold decodeQuantum
            rw [loop_sextet [] si _ ha (by simp)]
            exact loop_stop _ _ b _ (by simp) hb hnb (Or.inr (by simp))
          · simp [RFC4648.beginning, ha, hb]
          · simp [RFC4648.decode, ha, hb]
        rcases sextet_cases c with ⟨hc, hcm⟩ | ⟨z, hc, -, hz64⟩
        · by_cases hcp : c = RFC4648.pad
          · subst hcp
            by_cases hdp : d = RFC4648.pad
            · -- two sextets and `==`
              subst hdp
              have hq : decodeQuantum si (a :: b :: RFC4648.pad :: RFC4648.pad :: rest) =
                  decodePadding.finish [x, y'] (si + 1 + 1 + 1 + 1) rest := by
                unfold decodeQuantum
                rw [loop_sextet [] si _ ha (by simp), loop_sextet _ _ _ hb (by simp),
                  loop_pad _ _ _ (by simp),
                  decodePadding_two_pad _ _ (RFC4648.pad :: rest) (by simp)
                    rfl]
                rfl
              rw [finish_stay _ _ _ hnr] at hq
              refine Decode_loop_padded fuel si _ rest dst [Fin.ofNat (x * 4 + y' / 16)] hy
                (by rw [hq]) ?_ (by rw [hq]; simp) ?_ ?_
              · rw [hq]
                exact quantumBytes_two hy64
              · simp [RFC4648.beginning, ha, hb]
              · by_cases hr : rest = [] <;> simp [RFC4648.decode, ha, hb, hr, RFC4648.sextet_pad]
            · -- two sextets, `=` and another character
              apply Decode_loop_stop _ _ _ _ hy
              · unfold decodeQuantum
                rw [loop_sextet [] si _ ha (by simp), loop_sextet _ _ _ hb (by simp),
                  loop_pad _ _ _ (by simp),
                  decodePadding_two_bad _ _ (d :: rest) (by simp)
                    (by rw [skipNewlines_stay _ _ hndr]) hdp]
                simp
              · simp [RFC4648.beginning, ha, hb, hc, hdp]
              · simp [RFC4648.decode, ha, hb, hc, hdp]
          · -- the third character is neither of the alphabet nor `=`
            apply Decode_loop_stop _ _ _ _ hy
            · unfold decodeQuantum
              rw [loop_sextet [] si _ ha (by simp), loop_sextet _ _ _ hb (by simp)]
              exact loop_stop _ _ c _ (by simp) hc hnc (Or.inl hcp)
            · simp [RFC4648.beginning, ha, hb, hc, hcp]
            · simp [RFC4648.decode, ha, hb, hc, hcp]
        have hcp : c ≠ RFC4648.pad := by
          rintro rfl
          rw [RFC4648.sextet_pad] at hc
          cases hc
        rcases sextet_cases d with ⟨hd, -⟩ | ⟨w, hd, -, hw64⟩
        · by_cases hdp : d = RFC4648.pad
          · -- three sextets and `=`
            subst hdp
            have hq : decodeQuantum si (a :: b :: c :: RFC4648.pad :: rest) =
                decodePadding.finish [x, y', z] (si + 1 + 1 + 1 + 1) rest := by
              unfold decodeQuantum
              rw [loop_sextet [] si _ ha (by simp), loop_sextet _ _ _ hb (by simp),
                loop_sextet _ _ _ hc (by simp), loop_pad _ _ _ (by simp),
                decodePadding_three _ _ _ (by simp)]
              rfl
            rw [finish_stay _ _ _ hnr] at hq
            refine Decode_loop_padded fuel si _ rest dst
              [Fin.ofNat (x * 4 + y' / 16), Fin.ofNat (y' % 16 * 16 + z / 4)] hy
              (by rw [hq]) ?_ (by rw [hq]; simp) ?_ ?_
            · rw [hq]
              exact quantumBytes_three hy64 hz64
            · simp [RFC4648.beginning, ha, hb, hc, hcp]
            · by_cases hr : rest = [] <;>
                simp [RFC4648.decode, ha, hb, hc, hcp, hr, RFC4648.sextet_pad]
          · -- the fourth character is neither of the alphabet nor `=`
            apply Decode_loop_stop _ _ _ _ hy
            · unfold decodeQuantum
              rw [loop_sextet [] si _ ha (by simp), loop_sextet _ _ _ hb (by simp),
                loop_sextet _ _ _ hc (by simp)]
              exact loop_stop _ _ d _ (by simp) hd hnd (Or.inl hdp)
            · simp [RFC4648.beginning, ha, hb, hc, hd, hcp, hdp]
            · simp [RFC4648.decode, ha, hb, hc, hd, hcp, hdp]
        · -- four sextets
          have hdp : d ≠ RFC4648.pad := by
            rintro rfl
            rw [RFC4648.sextet_pad] at hd
            cases hd
          have hq := decodeQuantum_full si rest ha hb hc hd
          have he : (decodeQuantum si (a :: b :: c :: d :: rest)).err = none := by rw [hq]
          rw [Decode_loop_step_ok _ _ _ _ hy he, hq]
          have hlen : rest.length ≤ fuel := by
            simp only [List.length_cons] at hl; omega
          obtain ⟨i1, i2⟩ := ih (si + 4) rest
            (dst ++ [Fin.ofNat (x * 4 + y' / 16), Fin.ofNat (y' % 16 * 16 + z / 4),
              Fin.ofNat (z % 4 * 64 + w)]) hnr hlen
          constructor
          · rw [i1]
            simp [RFC4648.beginning, ha, hb, hc, hd, hcp, hdp]
          · rw [i2]
            simp [RFC4648.decode, ha, hb, hc, hd, hcp, hdp]

end Base64

/-! ## The Go decoder ignores new lines -/

namespace Base64

theorem withoutNewlines_newline (c : Byte) (cs : GoString) (h : c = 10 ∨ c = 13) :
    RFC4648.withoutNewlines (c :: cs) = RFC4648.withoutNewlines cs := by
  unfold RFC4648.withoutNewlines
  rw [List.filter_cons_of_neg (by simp [h])]

theorem withoutNewlines_other (c : Byte) (cs : GoString) (h : ¬ (c = 10 ∨ c = 13)) :
    RFC4648.withoutNewlines (c :: cs) = c :: RFC4648.withoutNewlines cs := by
  unfold RFC4648.withoutNewlines
  rw [List.filter_cons_of_pos (by simp [h])]

theorem withoutNewlines_free (x : GoString) :
    ∀ c ∈ RFC4648.withoutNewlines x, ¬ (c = 10 ∨ c = 13) := by
  intro c hc
  unfold RFC4648.withoutNewlines at hc
  simpa using (List.mem_filter.1 hc).2

theorem withoutNewlines_length (x : GoString) :
    (RFC4648.withoutNewlines x).length ≤ x.length :=
  List.length_filter_le _ _

theorem newline_decodeMap (c : Byte) (h : c = 10 ∨ c = 13) : ¬ decodeMap c ≠ 0xff := by
  rcases h with rfl | rfl <;> decide

/-- What `skipNewlines` leaves, against the source without its new lines. -/
theorem skipNewlines_without (r : GoString) : ∀ si : Nat,
    ((skipNewlines si r).2 = [] ∧ RFC4648.withoutNewlines r = []) ∨
      ∃ c cs, (skipNewlines si r).2 = c :: cs ∧ ¬ (c = 10 ∨ c = 13) ∧
        RFC4648.withoutNewlines r = c :: RFC4648.withoutNewlines cs := by
  induction r with
  | nil => intro si; exact Or.inl ⟨rfl, rfl⟩
  | cons a as ih =>
    intro si
    by_cases h : a = 10 ∨ a = 13
    · rw [skipNewlines, if_pos h, withoutNewlines_newline a as h]
      exact ih (si + 1)
    · rw [skipNewlines, if_neg h]
      exact Or.inr ⟨a, as, rfl, h, withoutNewlines_other a as h⟩

/-- The end of the padding branch does the same on the source without its new
lines: the same bytes, an error in the same cases. -/
theorem finish_without (dbuf : List Nat) (si si' : Nat) (r : GoString) :
    (decodePadding.finish dbuf si r).out =
        (decodePadding.finish dbuf si' (RFC4648.withoutNewlines r)).out ∧
      ((decodePadding.finish dbuf si r).err = none ↔
        (decodePadding.finish dbuf si' (RFC4648.withoutNewlines r)).err = none) ∧
      ((decodePadding.finish dbuf si r).err = none →
        RFC4648.withoutNewlines (decodePadding.finish dbuf si r).rest =
          (decodePadding.finish dbuf si' (RFC4648.withoutNewlines r)).rest) := by
  rw [finish_stay dbuf si' _ (withoutNewlines_free r)]
  unfold decodePadding.finish
  rcases skipNewlines_without r si with ⟨h1, h2⟩ | ⟨c, cs, h1, -, h2⟩
  · simp only [h1, h2, ne_eq, not_true_eq_false, if_false, true_and, imp_self, iff_self, and_true]
    intro _; rfl
  · simp [h1, h2]

/-- The padding branch does the same on the source without its new lines. -/
theorem decodePadding_without (dbuf : List Nat) (si si' : Nat) (r : GoString) :
    (decodePadding dbuf si r).out =
        (decodePadding dbuf si' (RFC4648.withoutNewlines r)).out ∧
      ((decodePadding dbuf si r).err = none ↔
        (decodePadding dbuf si' (RFC4648.withoutNewlines r)).err = none) ∧
      ((decodePadding dbuf si r).err = none →
        RFC4648.withoutNewlines (decodePadding dbuf si r).rest =
          (decodePadding dbuf si' (RFC4648.withoutNewlines r)).rest) := by
  by_cases h1 : dbuf.length = 0 ∨ dbuf.length = 1
  · rw [decodePadding_lt2 _ _ _ h1, decodePadding_lt2 _ _ _ h1]
    simp
  · by_cases h2 : dbuf.length = 2
    · rcases skipNewlines_without r si with ⟨e1, e2⟩ | ⟨c, cs, e1, hn, e2⟩
      · rw [decodePadding_two_nil _ _ _ h2 e1, e2, decodePadding_two_nil _ _ [] h2 rfl]
        simp
      · have e3 : (skipNewlines si' (RFC4648.withoutNewlines r)).2 =
            c :: RFC4648.withoutNewlines cs := by
          rw [skipNewlines_stay _ _ (withoutNewlines_free r), e2]
        by_cases hc : c = StdPadding
        · subst hc
          rw [decodePadding_two_pad _ _ _ h2 e1, decodePadding_two_pad _ _ _ h2 e3]
          exact finish_without _ _ _ _
        · rw [decodePadding_two_bad _ _ _ h2 e1 hc, decodePadding_two_bad _ _ _ h2 e3 hc]
          simp
    · rw [decodePadding_three _ _ _ (by omega), decodePadding_three _ _ _ (by omega)]
      exact finish_without _ _ _ _

/-- The method `decodeQuantum` does the same on the source without its new lines:
the same bytes, an error in the same cases, and the same source left. -/
theorem loop_without (x : GoString) : ∀ (dbuf : List Nat) (si si' : Nat),
    (decodeQuantum.loop dbuf si x).out =
        (decodeQuantum.loop dbuf si' (RFC4648.withoutNewlines x)).out ∧
      ((decodeQuantum.loop dbuf si x).err = none ↔
        (decodeQuantum.loop dbuf si' (RFC4648.withoutNewlines x)).err = none) ∧
      ((decodeQuantum.loop dbuf si x).err = none →
        RFC4648.withoutNewlines (decodeQuantum.loop dbuf si x).rest =
          (decodeQuantum.loop dbuf si' (RFC4648.withoutNewlines x)).rest) := by
  induction x with
  | nil =>
    intro dbuf si si'
    have : RFC4648.withoutNewlines [] = [] := rfl
    rw [this]
    by_cases h4 : 4 ≤ dbuf.length
    · rw [loop_done _ _ _ h4, loop_done _ _ _ h4]
      simp [this]
    · by_cases h0 : dbuf.length = 0
      · rw [loop_nil _ _ h0, loop_nil _ _ h0]
        simp [this]
      · rw [decodeQuantum.loop, if_neg h4, if_neg h0, decodeQuantum.loop, if_neg h4, if_neg h0]
        simp
  | cons c cs ih =>
    intro dbuf si si'
    by_cases h4 : 4 ≤ dbuf.length
    · rw [loop_done _ _ _ h4, loop_done _ _ _ h4]
      simp
    · have hl : dbuf.length < 4 := by omega
      by_cases hn : c = 10 ∨ c = 13
      · rw [loop_cons_newline _ _ _ _ hl (newline_decodeMap c hn) hn,
          withoutNewlines_newline c cs hn]
        exact ih _ _ _
      · rw [withoutNewlines_other c cs hn]
        by_cases hc : decodeMap c ≠ 0xff
        · rw [loop_cons_alpha _ _ _ _ hl hc, loop_cons_alpha _ _ _ _ hl hc]
          exact ih _ _ _
        · by_cases hp : c ≠ StdPadding
          · rw [loop_cons_bad _ _ _ _ hl hc hn hp, loop_cons_bad _ _ _ _ hl hc hn hp]
            simp
          · rw [loop_cons_pad _ _ _ _ hl hc hn hp, loop_cons_pad _ _ _ _ hl hc hn hp]
            exact decodePadding_without _ _ _ _

/-- The third loop of `Decode` ignores the new lines of the source: it stores
the same bytes, and reports an error in the same cases, as on the source without
them. -/
theorem Decode_loop_without (fuel : Nat) : ∀ (si si' : Nat) (x : GoString) (dst : List Byte)
    (fuel' : Nat), x.length ≤ fuel → (RFC4648.withoutNewlines x).length ≤ fuel' →
      (Decode.loop fuel si x dst).1 =
          (Decode.loop fuel' si' (RFC4648.withoutNewlines x) dst).1 ∧
        ((Decode.loop fuel si x dst).2 = none ↔
          (Decode.loop fuel' si' (RFC4648.withoutNewlines x) dst).2 = none) := by
  induction fuel with
  | zero =>
    intro si si' x dst fuel' hl _
    have : x = [] := List.length_eq_zero.mp (by omega)
    subst this
    have : RFC4648.withoutNewlines [] = [] := rfl
    rw [this, Decode_loop_nil, Decode_loop_nil]
    simp
  | succ fuel ih =>
    intro si si' x dst fuel' hl hl'
    by_cases hx : x = []
    · subst hx
      have : RFC4648.withoutNewlines [] = [] := rfl
      rw [this, Decode_loop_nil, Decode_loop_nil]
      simp
    · obtain ⟨r1, r2, r3⟩ := loop_without x [] si si'
      by_cases hw : RFC4648.withoutNewlines x = []
      · rw [hw] at r1 r2 r3 ⊢
        rw [loop_nil [] si' rfl] at r1 r2 r3
        have he : (decodeQuantum si x).err = none := r2.2 rfl
        have ho : (decodeQuantum si x).out = [] := r1
        have hr : RFC4648.withoutNewlines (decodeQuantum si x).rest = [] := r3 he
        have hlt := decodeQuantum_rest_lt si x hx he
        rw [Decode_loop_step_ok _ _ _ _ hx he, ho, Decode_loop_nil]
        have := ih (decodeQuantum si x).nsi si' (decodeQuantum si x).rest (dst ++ []) fuel'
          (by omega) (by rw [hr]; exact Nat.zero_le _)
        rw [hr, Decode_loop_nil] at this
        simpa using this
      · obtain ⟨f, rfl⟩ : ∃ f, fuel' = f + 1 := by
          have : 0 < (RFC4648.withoutNewlines x).length := List.length_pos.mpr hw
          exact ⟨fuel' - 1, by omega⟩
        by_cases he : (decodeQuantum si x).err = none
        · have he' : (decodeQuantum si' (RFC4648.withoutNewlines x)).err = none := r2.1 he
          have hlt := decodeQuantum_rest_lt si x hx he
          have hlt' := decodeQuantum_rest_lt si' _ hw he'
          have ho : (decodeQuantum si x).out =
              (decodeQuantum si' (RFC4648.withoutNewlines x)).out := r1
          have hr : RFC4648.withoutNewlines (decodeQuantum si x).rest =
              (decodeQuantum si' (RFC4648.withoutNewlines x)).rest := r3 he
          rw [Decode_loop_step_ok _ _ _ _ hx he, Decode_loop_step_ok _ _ _ _ hw he', ← ho, ← hr]
          apply ih
          · omega
          · rw [hr]; omega
        · have he' : (decodeQuantum si' (RFC4648.withoutNewlines x)).err ≠ none :=
            fun h => he (r2.2 h)
          have ho : (decodeQuantum si x).out =
              (decodeQuantum si' (RFC4648.withoutNewlines x)).out := r1
          rw [Decode_loop_step_err _ _ _ _ hx he, Decode_loop_step_err _ _ _ _ hw he', ho]
          simp [he, he']

/-- What `DecodeString` returns on any string: the bytes of the well-formed
groups at the beginning of the string, its new lines ignored; and no error
exactly when RFC 4648 accepts the string without its new lines. -/
theorem DecodeString_beginning (enc : GoString) :
    (DecodeString enc).1 = RFC4648.beginning (RFC4648.withoutNewlines enc) ∧
      ((DecodeString enc).2 = none ↔
        RFC4648.decode (RFC4648.withoutNewlines enc) ≠ none) := by
  unfold DecodeString
  rw [Decode_eq_loop]
  obtain ⟨h1, h2⟩ := Decode_loop_without enc.length 0 0 enc []
    (RFC4648.withoutNewlines enc).length (le_refl _) (le_refl _)
  obtain ⟨h3, h4⟩ := Decode_loop_beginning (RFC4648.withoutNewlines enc).length 0
    (RFC4648.withoutNewlines enc) [] (withoutNewlines_free enc) (le_refl _)
  rw [h1, h2, h3, h4]
  simp

end Base64

/-! ## Garbage collection, pending states, frame of `SetLastUpdatedAt`, presence -/

/-- C11. `NeedsGarbageCollection()` depends only on the three tracked pod
statuses: two statuses that agree on them give the same result whatever their
state and other fields hold; and state and the result are independent, there
being a status in state "Error" on which it is true and one on which it is
false. -/
theorem NeedsGarbageCollection_depends_on_pods (a b : NotebookStatus) :
    (a.PodStatus = b.PodStatus → a.WorkspaceUploadPodStatus = b.WorkspaceUploadPodStatus →
      a.ImageCachePodStatus = b.ImageCachePodStatus →
      a.NeedsGarbageCollection = b.NeedsGarbageCollection) ∧
    (∃ ns : NotebookStatus, ns.State = NotebookStateError ∧ ns.IsErrored = true ∧
      ns.NeedsGarbageCollection = true) ∧
    (∃ ns : NotebookStatus, ns.State = NotebookStateError ∧ ns.IsErrored = true ∧
      ns.NeedsGarbageCollection = false) := by
  refine ⟨fun h1 h2 h3 => ?_, ?_, ?_⟩
  · simp only [NotebookStatus.NeedsGarbageCollection, h1, h2, h3]
  · exact ⟨NotebookStatus.zeroWith NotebookStateError (some ⟨false⟩) none none, rfl, by decide,
      by decide⟩
  · exact ⟨NotebookStatus.zeroWith NotebookStateError (some ⟨true⟩) none none, rfl, by decide,
      by decide⟩

/-- C11, witness: a running status with a message and an exit code and an
errored zero status, both with the same three pod statuses, give the same
result. -/
theorem NeedsGarbageCollection_depends_on_pods_witness :
    ({ NotebookStatus.zeroWith NotebookStateRunning (some ⟨false⟩) none (some ⟨true⟩) with
        Message := ascii "up", ExitCode := 3 } : NotebookStatus).NeedsGarbageCollection =
      (NotebookStatus.zeroWith NotebookStateError (some ⟨false⟩) none
        (some ⟨true⟩)).NeedsGarbageCollection :=
  (NeedsGarbageCollection_depends_on_pods
    { NotebookStatus.zeroWith NotebookStateRunning (some ⟨false⟩) none (some ⟨true⟩) with
        Message := ascii "up", ExitCode := 3 }
    (NotebookStatus.zeroWith NotebookStateError (some ⟨false⟩) none (some ⟨true⟩))).1 rfl rfl rfl

/-- C12. On every status whose three tracked pod statuses are all null,
whatever its state, `NeedsGarbageCollection()` returns false; so it does on the
zero value of `NotebookStatus`. -/
theorem NeedsGarbageCollection_all_nil (ns : NotebookStatus) (hp : ns.PodStatus = none)
    (hw : ns.WorkspaceUploadPodStatus = none) (hc : ns.ImageCachePodStatus = none) :
    ns.NeedsGarbageCollection = false ∧
      (NotebookStatus.zeroWith NotebookStateUninitialized none none
        none).NeedsGarbageCollection = false := by
  refine ⟨?_, rfl⟩
  simp [NotebookStatus.NeedsGarbageCollection, hp, hw, hc, PodStatus.IsDeleted]

/-- C12, witness: a status in state "Running" with no pod status. -/
theorem NeedsGarbageCollection_all_nil_witness :
    (NotebookStatus.zeroWith NotebookStateRunning none none none).NeedsGarbageCollection = false :=
  (NeedsGarbageCollection_all_nil (NotebookStatus.zeroWith NotebookStateRunning none none none)
    rfl rfl rfl).1

/-- C13. When exactly one of the three tracked pod statuses is non-null and it
reports not deleted, the other two being null, `NeedsGarbageCollection()` returns
true, in whichever of the three positions the non-null status is. -/
theorem NeedsGarbageCollection_one_not_deleted (ns : NotebookStatus) (ps : PodStatus)
    (hd : ps.Deleted = false) :
    (ns.PodStatus = some ps → ns.WorkspaceUploadPodStatus = none →
      ns.ImageCachePodStatus = none → ns.NeedsGarbageCollection = true) ∧
    (ns.PodStatus = none → ns.WorkspaceUploadPodStatus = some ps →
      ns.ImageCachePodStatus = none → ns.NeedsGarbageCollection = true) ∧
    (ns.PodStatus = none → ns.WorkspaceUploadPodStatus = none →
      ns.ImageCachePodStatus = some ps → ns.NeedsGarbageCollection = true) := by
  refine ⟨fun h1 h2 h3 => ?_, fun h1 h2 h3 => ?_, fun h1 h2 h3 => ?_⟩ <;>
    simp [NotebookStatus.NeedsGarbageCollection, h1, h2, h3, PodStatus.IsDeleted, hd]

/-- C13, witness: the only pod status is the image-cache one, not deleted. -/
theorem NeedsGarbageCollection_one_not_deleted_witness :
    (NotebookStatus.zeroWith NotebookStateTearingDown none none
      (some ⟨false⟩)).NeedsGarbageCollection = true :=
  (NeedsGarbageCollection_one_not_deleted
    (NotebookStatus.zeroWith NotebookStateTearingDown none none (some ⟨false⟩)) ⟨false⟩
    rfl).2.2 rfl rfl rfl

/-- C14. In each of the states "WaitingForVolume", "WaitingForArtifact",
"PodStarting", "Running", "Teardown" and the empty state of an uninitialized
status, both `IsErrored()` and `IsSuccess()` return false. -/
theorem pending_states_neither_errored_nor_success (ns : NotebookStatus)
    (h : ns.State = ascii "WaitingForVolume" ∨ ns.State = ascii "WaitingForArtifact" ∨
      ns.State = ascii "PodStarting" ∨ ns.State = ascii "Running" ∨
      ns.State = ascii "Teardown" ∨ ns.State = ascii "") :
    ns.IsErrored = false ∧ ns.IsSuccess = false := by
  unfold NotebookStatus.IsErrored NotebookStatus.IsSuccess
  rcases h with h | h | h | h | h | h <;> rw [h] <;> decide

/-- C14, witness: the zero value of `NotebookStatus`, in the empty state. -/
theorem pending_states_neither_errored_nor_success_witness :
    (NotebookStatus.zeroWith NotebookStateUninitialized none none none).IsErrored = false ∧
      (NotebookStatus.zeroWith NotebookStateUninitialized none none none).IsSuccess = false :=
  pending_states_neither_errored_nor_success
    (NotebookStatus.zeroWith NotebookStateUninitialized none none none)
    (Or.inr (Or.inr (Or.inr (Or.inr (Or.inr rfl)))))

/-- C16. `SetLastUpdatedAt(t)` changes no field other than `lastUpdatedAt`: the
state, `runningAt`, the exit code, the message, the three pod statuses and every
other field are the same before and after, and so are the results of
`IsSuccess()`, `IsErrored()` and `NeedsGarbageCollection()`. -/
theorem SetLastUpdatedAt_frame (ns : NotebookStatus) (t : Time) :
    (ns.SetLastUpdatedAt t).State = ns.State ∧
    (ns.SetLastUpdatedAt t).GradientStatus = ns.GradientStatus ∧
    (ns.SetLastUpdatedAt t).EndpointURL = ns.EndpointURL ∧
    (ns.SetLastUpdatedAt t).Message = ns.Message ∧
    (ns.SetLastUpdatedAt t).ImageSecretName = ns.ImageSecretName ∧
    (ns.SetLastUpdatedAt t).RunningAt = ns.RunningAt ∧
    (ns.SetLastUpdatedAt t).ExitCode = ns.ExitCode ∧
    (ns.SetLastUpdatedAt t).PodStatus = ns.PodStatus ∧
    (ns.SetLastUpdatedAt t).DownloadArtifactStatuses = ns.DownloadArtifactStatuses ∧
    (ns.SetLastUpdatedAt t).NBConvertJobStatus = ns.NBConvertJobStatus ∧
    (ns.SetLastUpdatedAt t).WorkspaceUploadJobStatus = ns.WorkspaceUploadJobStatus ∧
    (ns.SetLastUpdatedAt t).ImageCacheJobStatus = ns.ImageCacheJobStatus ∧
    (ns.SetLastUpdatedAt t).WorkspaceUploadPodStatus = ns.WorkspaceUploadPodStatus ∧
    (ns.SetLastUpdatedAt t).ImageCachePodStatus = ns.ImageCachePodStatus ∧
    (ns.SetLastUpdatedAt t).ServiceName = ns.ServiceName ∧
    (ns.SetLastUpdatedAt t).IngressName = ns.IngressName ∧
    (ns.SetLastUpdatedAt t).NotebookNodeName = ns.NotebookNodeName ∧
    (ns.SetLastUpdatedAt t).WorkspaceExportJobStatus = ns.WorkspaceExportJobStatus ∧
    (ns.SetLastUpdatedAt t).ImageExportJobStatus = ns.ImageExportJobStatus ∧
    (ns.SetLastUpdatedAt t).IsSuccess = ns.IsSuccess ∧
    (ns.SetLastUpdatedAt t).IsErrored = ns.IsErrored ∧
    (ns.SetLastUpdatedAt t).NeedsGarbageCollection = ns.NeedsGarbageCollection := by
  refine ⟨rfl, rfl, rfl, rfl, rfl, rfl, rfl, rfl, rfl, rfl, rfl, rfl, rfl, rfl, rfl, rfl, rfl,
    rfl, rfl, rfl, rfl, rfl⟩

/-- C19. The decoded value does not reveal presence: on the non-null credentials
value whose four fields are empty `GetDeserializedCredentials()` returns the
all-empty value, the same as on the null value, while `HasCredentials()` is true
on the former and false on the latter. -/
theorem GetDeserializedCredentials_empty_eq_nil :
    ImageUpload.GetDeserializedCredentials
        (some { Registry := [], Repository := [], Username := [], Password := [] }) =
      { Registry := [], Repository := [], Username := [], Password := [] } ∧
    ImageUpload.GetDeserializedCredentials
        (some { Registry := [], Repository := [], Username := [], Password := [] }) =
      ImageUpload.GetDeserializedCredentials none ∧
    ImageUpload.HasCredentials
        (some { Registry := [], Repository := [], Username := [], Password := [] }) = true ∧
    ImageUpload.HasCredentials none = false := by
  decide

/-- C20. `NeedsGarbageCollection()` is monotone in deletion. When it is false,
replacing any one of the three tracked pod statuses by null or by a status that
reports deleted leaves it false; when it is true, replacing any one of them by a
status that reports not deleted leaves it true. -/
theorem NeedsGarbageCollection_monotone (ns : NotebookStatus) (p : Option PodStatus) :
    (ns.NeedsGarbageCollection = false →
      (p = none ∨ ∃ ps, p = some ps ∧ ps.Deleted = true) →
        ({ ns with PodStatus := p } : NotebookStatus).NeedsGarbageCollection = false ∧
        ({ ns with WorkspaceUploadPodStatus := p } : NotebookStatus).NeedsGarbageCollection =
          false ∧
        ({ ns with ImageCachePodStatus := p } : NotebookStatus).NeedsGarbageCollection = false) ∧
    (ns.NeedsGarbageCollection = true →
      (∃ ps, p = some ps ∧ ps.Deleted = false) →
        ({ ns with PodStatus := p } : NotebookStatus).NeedsGarbageCollection = true ∧
        ({ ns with WorkspaceUploadPodStatus := p } : NotebookStatus).NeedsGarbageCollection =
          true ∧
        ({ ns with ImageCachePodStatus := p } : NotebookStatus).NeedsGarbageCollection = true) := by
  constructor
  · intro h hp
    have hd : PodStatus.IsDeleted p = true := by
      rcases hp with rfl | ⟨ps, rfl, hps⟩
      · rfl
      · exact hps
    simp only [NotebookStatus.NeedsGarbageCollection, Bool.or_eq_false_iff,
      Bool.not_eq_false'] at h ⊢
    simp [h.1.1, h.1.2, h.2, hd]
  · intro _ hp
    obtain ⟨ps, rfl, hps⟩ := hp
    simp [NotebookStatus.NeedsGarbageCollection, PodStatus.IsDeleted, hps]

/-- C20, witness: a status with one deleted pod status needs no collection, and
still needs none when its workspace-upload pod status becomes a deleted one; a
status with one pod status not deleted needs collection, and still does when its
image-cache pod status becomes one that is not deleted. -/
theorem NeedsGarbageCollection_monotone_witness :
    ({ NotebookStatus.zeroWith NotebookStateFinished (some ⟨true⟩) none none with
        WorkspaceUploadPodStatus := some ⟨true⟩ } : NotebookStatus).NeedsGarbageCollection =
      false ∧
    ({ NotebookStatus.zeroWith NotebookStateError (some ⟨false⟩) none none with
        ImageCachePodStatus := some ⟨false⟩ } : NotebookStatus).NeedsGarbageCollection = true :=
  ⟨((NeedsGarbageCollection_monotone
      (NotebookStatus.zeroWith NotebookStateFinished (some ⟨true⟩) none none)
      (some ⟨true⟩)).1 rfl (Or.inr ⟨⟨true⟩, rfl, rfl⟩)).2.1,
    ((NeedsGarbageCollection_monotone
      (NotebookStatus.zeroWith NotebookStateError (some ⟨false⟩) none none)
      (some ⟨false⟩)).2 rfl ⟨⟨false⟩, rfl, rfl⟩).2.2⟩

/-! ## Deep copy -/

/-- C17. `CopyToStatus()` returns a status equal to the original in every field,
the original being left as it is, and the copy is independently mutable: setting
the copy's `lastUpdatedAt`, or assigning through the copy's pod-status pointer,
changes the copy and leaves the original unchanged. -/
theorem CopyToStatus_independent (h : Memory.Heap) (r : Memory.NotebookStatusRef)
    (v : NotebookStatus) (hv : Memory.read h r = some v) :
    Memory.read (Memory.CopyToStatus h r).1 (Memory.CopyToStatus h r).2 = some v ∧
    Memory.read (Memory.CopyToStatus h r).1 r = some v ∧
    (∀ t : Time,
      Memory.read
          (Memory.SetLastUpdatedAt (Memory.CopyToStatus h r).1 (Memory.CopyToStatus h r).2 t).1
          (Memory.SetLastUpdatedAt (Memory.CopyToStatus h r).1 (Memory.CopyToStatus h r).2 t).2 =
        some (v.SetLastUpdatedAt t) ∧
      Memory.read
          (Memory.SetLastUpdatedAt (Memory.CopyToStatus h r).1 (Memory.CopyToStatus h r).2 t).1
          r = some v) ∧
    (∀ (a : Nat) (ps : PodStatus), (Memory.CopyToStatus h r).2.PodStatus = some a →
      Memory.read (Memory.writePod (Memory.CopyToStatus h r).1 a ps)
          (Memory.CopyToStatus h r).2 =
        some { v with PodStatus := some ps } ∧
      Memory.read (Memory.writePod (Memory.CopyToStatus h r).1 a ps) r = some v) := by
  unfold Memory.CopyToStatus
  obtain ⟨n1, n2, n3, n4, n5, n6, n7, n8, n9, n10, hp,
    ⟨l0, l1, l2, l3, l4, l5, l6, l7, l8, l9, l10⟩,
    ⟨T1, T2, T3, T4, T5, T6, T7, T8, T9, T10, T11⟩,
    ⟨F1, F2, F3, F4, F5, F6, F7, F8, F9, F10, F11⟩, hs⟩ := Memory.DeepCopy_layout h r
  obtain ⟨⟨v1, v2, v3, v4, v5, v6, v7, v8, v9, v10, v11⟩, vs⟩ := Memory.read_inv hv
  have hs' : v.State = (Memory.DeepCopy h r).2.State ∧
      v.GradientStatus = (Memory.DeepCopy h r).2.GradientStatus ∧
      v.EndpointURL = (Memory.DeepCopy h r).2.EndpointURL ∧
      v.Message = (Memory.DeepCopy h r).2.Message ∧
      v.ImageSecretName = (Memory.DeepCopy h r).2.ImageSecretName ∧
      v.ExitCode = (Memory.DeepCopy h r).2.ExitCode ∧
      v.ServiceName = (Memory.DeepCopy h r).2.ServiceName ∧
      v.IngressName = (Memory.DeepCopy h r).2.IngressName ∧
      v.NotebookNodeName = (Memory.DeepCopy h r).2.NotebookNodeName := by
    obtain ⟨a1, a2, a3, a4, a5, a6, a7, a8, a9⟩ := hs
    obtain ⟨b1, b2, b3, b4, b5, b6, b7, b8, b9⟩ := vs
    exact ⟨b1.trans a1.symm, b2.trans a2.symm, b3.trans a3.symm, b4.trans a4.symm,
      b5.trans a5.symm, b6.trans a6.symm, b7.trans a7.symm, b8.trans a8.symm, b9.trans a9.symm⟩
  refine ⟨?_, ?_, fun t => ⟨?_, ?_⟩, fun a ps hps => ⟨?_, ?_⟩⟩
  · -- the copy has the value of the original
    exact Memory.read_eq (Memory.bind_transport _ T1 v1) (Memory.bind_transport _ T2 v2)
      (Memory.bind_transport _ T3 v3) (Memory.bind_transport _ T4 v4)
      (Memory.bind_transport _ T5 v5) (Memory.bind_transport _ T6 v6)
      (Memory.bind_transport _ T7 v7) (Memory.bind_transport _ T8 v8)
      (Memory.bind_transport _ T9 v9) (Memory.bind_transport _ T10 v10)
      (Memory.bind_transport _ T11 v11) hs'
  · -- the original keeps its value
    have M : ∀ (p : Option Nat) (oc : Option Memory.Cell), Memory.readCell h p = some oc →
        Memory.readCell (Memory.DeepCopy h r).1 p = some oc :=
      fun p oc hr => Memory.readCell_mono hp hr
    exact Memory.read_eq (Memory.bind_transport _ (M _) v1) (Memory.bind_transport _ (M _) v2)
      (Memory.bind_transport _ (M _) v3) (Memory.bind_transport _ (M _) v4)
      (Memory.bind_transport _ (M _) v5) (Memory.bind_transport _ (M _) v6)
      (Memory.bind_transport _ (M _) v7) (Memory.bind_transport _ (M _) v8)
      (Memory.bind_transport _ (M _) v9) (Memory.bind_transport _ (M _) v10)
      (Memory.bind_transport _ (M _) v11) vs
  · -- the copy after `SetLastUpdatedAt`
    unfold Memory.SetLastUpdatedAt
    have X : ∀ {p q : Option Nat}, (∀ oc, Memory.readCell h p = some oc →
        Memory.readCell (Memory.DeepCopy h r).1 q = some oc) →
        ∀ oc, Memory.readCell h p = some oc →
          Memory.readCell ((Memory.DeepCopy h r).1 ++ [Memory.Cell.time t]) q = some oc :=
      fun T oc hr => Memory.readCell_append _ (T oc hr)
    apply Memory.read_eq (v := v.SetLastUpdatedAt t)
    · simp only [NotebookStatus.SetLastUpdatedAt]
      rw [Memory.readCell_fresh]
      rfl
    · exact Memory.bind_transport _ (X T2) v2
    · exact Memory.bind_transport _ (X T3) v3
    · exact Memory.bind_transport _ (X T4) v4
    · exact Memory.bind_transport _ (X T5) v5
    · exact Memory.bind_transport _ (X T6) v6
    · exact Memory.bind_transport _ (X T7) v7
    · exact Memory.bind_transport _ (X T8) v8
    · exact Memory.bind_transport _ (X T9) v9
    · exact Memory.bind_transport _ (X T10) v10
    · exact Memory.bind_transport _ (X T11) v11
    · exact hs'
  · -- the original after `SetLastUpdatedAt` on the copy
    unfold Memory.SetLastUpdatedAt
    have M : ∀ (p : Option Nat) (oc : Option Memory.Cell), Memory.readCell h p = some oc →
        Memory.readCell ((Memory.DeepCopy h r).1 ++ [Memory.Cell.time t]) p = some oc :=
      fun p oc hr => Memory.readCell_append _ (Memory.readCell_mono hp hr)
    exact Memory.read_eq (Memory.bind_transport _ (M _) v1) (Memory.bind_transport _ (M _) v2)
      (Memory.bind_transport _ (M _) v3) (Memory.bind_transport _ (M _) v4)
      (Memory.bind_transport _ (M _) v5) (Memory.bind_transport _ (M _) v6)
      (Memory.bind_transport _ (M _) v7) (Memory.bind_transport _ (M _) v8)
      (Memory.bind_transport _ (M _) v9) (Memory.bind_transport _ (M _) v10)
      (Memory.bind_transport _ (M _) v11) vs
  · -- the copy after a write through its pod-status pointer
    unfold Memory.writePod
    obtain ⟨ha1, ha2⟩ := F3 a hps
    have X : ∀ {p q : Option Nat}, (∀ b, q = some b → b ≠ a) →
        (∀ oc, Memory.readCell h p = some oc →
          Memory.readCell (Memory.DeepCopy h r).1 q = some oc) →
        ∀ oc, Memory.readCell h p = some oc →
          Memory.readCell ((Memory.DeepCopy h r).1.set a (Memory.Cell.pod ps)) q = some oc :=
      fun hne T oc hr => Memory.readCell_set a _ hne (T oc hr)
    apply Memory.read_eq (v := { v with PodStatus := some ps })
    · exact Memory.bind_transport _ (X (fun b hb => by have := F1 b hb; omega) T1) v1
    · exact Memory.bind_transport _ (X (fun b hb => by have := F2 b hb; omega) T2) v2
    · rw [hps, Memory.readCell_set_same _ _ _ (by omega)]
      rfl
    · exact Memory.bind_transport _ (X (fun b hb => by have := F4 b hb; omega) T4) v4
    · exact Memory.bind_transport _ (X (fun b hb => by have := F5 b hb; omega) T5) v5
    · exact Memory.bind_transport _ (X (fun b hb => by have := F6 b hb; omega) T6) v6
    · exact Memory.bind_transport _ (X (fun b hb => by have := F7 b hb; omega) T7) v7
    · exact Memory.bind_transport _ (X (fun b hb => by have := F8 b hb; omega) T8) v8
    · exact Memory.bind_transport _ (X (fun b hb => by have := F9 b hb; omega) T9) v9
    · exact Memory.bind_transport _ (X (fun b hb => by have := F10 b hb; omega) T10) v10
    · exact Memory.bind_transport _ (X (fun b hb => by have := F11 b hb; omega) T11) v11
    · exact hs'
  · -- the original after a write through the copy's pod-status pointer
    unfold Memory.writePod
    obtain ⟨ha1, ha2⟩ := F3 a hps
    have M : ∀ (p : Option Nat) (oc : Option Memory.Cell), Memory.readCell h p = some oc →
        Memory.readCell ((Memory.DeepCopy h r).1.set a (Memory.Cell.pod ps)) p = some oc :=
      fun p oc hr => Memory.readCell_set_old a _ hp (by omega) hr
    exact Memory.read_eq (Memory.bind_transport _ (M _) v1) (Memory.bind_transport _ (M _) v2)
      (Memory.bind_transport _ (M _) v3) (Memory.bind_transport _ (M _) v4)
      (Memory.bind_transport _ (M _) v5) (Memory.bind_transport _ (M _) v6)
      (Memory.bind_transport _ (M _) v7) (Memory.bind_transport _ (M _) v8)
      (Memory.bind_transport _ (M _) v9) (Memory.bind_transport _ (M _) v10)
      (Memory.bind_transport _ (M _) v11) vs

/-- A write through a pointer that two statuses share is seen by both: in the
memory `[time, pod]`, a status and its shallow copy (the same struct, hence the
same pod-status address 1) both change when the cell at address 1 is assigned.
This is the aliasing that a deep copy excludes. -/
theorem shared_pointer_write_is_seen :
    Memory.read [Memory.Cell.time ⟨1, 2, none⟩, Memory.Cell.pod ⟨false⟩]
        (Memory.NotebookStatusRef.zeroWith NotebookStateRunning (some 0) (some 1)) =
      some { NotebookStatus.zeroWith NotebookStateRunning (some ⟨false⟩) none none with
        LastUpdatedAt := some ⟨1, 2, none⟩ } ∧
    Memory.read
        (Memory.writePod [Memory.Cell.time ⟨1, 2, none⟩, Memory.Cell.pod ⟨false⟩] 1 ⟨true⟩)
        (Memory.NotebookStatusRef.zeroWith NotebookStateRunning (some 0) (some 1)) =
      some { NotebookStatus.zeroWith NotebookStateRunning (some ⟨true⟩) none none with
        LastUpdatedAt := some ⟨1, 2, none⟩ } := by
  decide

/-- C17, witness: in the memory `[time, pod]` a running status with both
pointers set is copied; the copy's pod status lies at the fresh address 3, and
assigning a deleted pod status through it changes the copy and not the
original. -/
theorem CopyToStatus_independent_witness :
    (Memory.CopyToStatus [Memory.Cell.time ⟨1, 2, none⟩, Memory.Cell.pod ⟨false⟩]
        (Memory.NotebookStatusRef.zeroWith NotebookStateRunning (some 0) (some 1))).2.PodStatus =
      some 3 ∧
    Memory.read
        (Memory.writePod
          (Memory.CopyToStatus [Memory.Cell.time ⟨1, 2, none⟩, Memory.Cell.pod ⟨false⟩]
            (Memory.NotebookStatusRef.zeroWith NotebookStateRunning (some 0) (some 1))).1
          3 ⟨true⟩)
        (Memory.CopyToStatus [Memory.Cell.time ⟨1, 2, none⟩, Memory.Cell.pod ⟨false⟩]
          (Memory.NotebookStatusRef.zeroWith NotebookStateRunning (some 0) (some 1))).2 =
      some { ({ NotebookStatus.zeroWith NotebookStateRunning (some ⟨false⟩) none none with
        LastUpdatedAt := some ⟨1, 2, none⟩ } : NotebookStatus) with PodStatus := some ⟨true⟩ } ∧
    Memory.read
        (Memory.writePod
          (Memory.CopyToStatus [Memory.Cell.time ⟨1, 2, none⟩, Memory.Cell.pod ⟨false⟩]
            (Memory.NotebookStatusRef.zeroWith NotebookStateRunning (some 0) (some 1))).1
          3 ⟨true⟩)
        (Memory.NotebookStatusRef.zeroWith NotebookStateRunning (some 0) (some 1)) =
      some { NotebookStatus.zeroWith NotebookStateRunning (some ⟨false⟩) none none with
        LastUpdatedAt := some ⟨1, 2, none⟩ } :=
  ⟨rfl,
    (CopyToStatus_independent [Memory.Cell.time ⟨1, 2, none⟩, Memory.Cell.pod ⟨false⟩]
      (Memory.NotebookStatusRef.zeroWith NotebookStateRunning (some 0) (some 1))
      { NotebookStatus.zeroWith NotebookStateRunning (some ⟨false⟩) none none with
        LastUpdatedAt := some ⟨1, 2, none⟩ } rfl).2.2.2 3 ⟨true⟩ rfl⟩

/-! ## Credentials: what each decoded field holds -/

/-- What holds of one field, whatever its input: it is the trimmed decoding of
the well-formed groups at the beginning of the input, new lines ignored. -/
theorem decoded_field (enc : GoString) :
    Strings.TrimSpace (Base64.DecodeString enc).1 =
      Whitespace.trim (RFC4648.beginning (RFC4648.withoutNewlines enc)) := by
  rw [Strings.TrimSpace_eq_trim, (Base64.DecodeString_beginning enc).1]

/-- C5, counterexample. The usernames "dXNl!" (a valid group, then a character
outside the alphabet) and "dXNlcg=" (wrong padding) are malformed: the decoder
reports an error and RFC 4648 rejects them. The decoded username is "use" in
both cases, not the empty string. -/
theorem malformed_field_not_empty :
    ((Base64.DecodeString (ascii "dXNl!")).2 ≠ none ∧
      RFC4648.decode (ascii "dXNl!") = none ∧
      (ImageUpload.GetDeserializedCredentials
        (some { Registry := [], Repository := [], Username := ascii "dXNl!",
                Password := [] })).Username = ascii "use" ∧
      (ImageUpload.GetDeserializedCredentials
        (some { Registry := [], Repository := [], Username := ascii "dXNl!",
                Password := [] })).Username ≠ []) ∧
    ((Base64.DecodeString (ascii "dXNlcg=")).2 ≠ none ∧
      RFC4648.decode (ascii "dXNlcg=") = none ∧
      (ImageUpload.GetDeserializedCredentials
        (some { Registry := [], Repository := [], Username := ascii "dXNlcg=",
                Password := [] })).Username = ascii "use" ∧
      (ImageUpload.GetDeserializedCredentials
        (some { Registry := [], Repository := [], Username := ascii "dXNlcg=",
                Password := [] })).Username ≠ []) := by
  decide

/-- C5, amended. For every non-null credentials value, each field whose encoded
input is malformed standard base64 (RFC 4648 rejects it) holds the bytes of the
well-formed groups at the beginning of the input, the new lines of the input
ignored, with leading and trailing whitespace trimmed: the part decoded before
the error, which is not the empty string for every malformed input. -/
theorem malformed_field_decodes_beginning (v : ImageUpload) :
    (RFC4648.decode v.Registry = none →
      (ImageUpload.GetDeserializedCredentials (some v)).Registry =
        Whitespace.trim (RFC4648.beginning (RFC4648.withoutNewlines v.Registry))) ∧
    (RFC4648.decode v.Repository = none →
      (ImageUpload.GetDeserializedCredentials (some v)).Repository =
        Whitespace.trim (RFC4648.beginning (RFC4648.withoutNewlines v.Repository))) ∧
    (RFC4648.decode v.Username = none →
      (ImageUpload.GetDeserializedCredentials (some v)).Username =
        Whitespace.trim (RFC4648.beginning (RFC4648.withoutNewlines v.Username))) ∧
    (RFC4648.decode v.Password = none →
      (ImageUpload.GetDeserializedCredentials (some v)).Password =
        Whitespace.trim (RFC4648.beginning (RFC4648.withoutNewlines v.Password))) := by
  rw [GetDeserializedCredentials_some]
  exact ⟨fun _ => decoded_field _, fun _ => decoded_field _, fun _ => decoded_field _,
    fun _ => decoded_field _⟩

/-- C5, witness of the amended statement: the username "dXNl!" is malformed, its
well-formed beginning is the group "dXNl", and the decoded username is "use";
the password "IHBh\nc3Mg!" is malformed, its well-formed beginning decodes to
" pass ", and the decoded password is "pass". -/
theorem malformed_field_decodes_beginning_witness :
    RFC4648.decode (ascii "dXNl!") = none ∧
    (ImageUpload.GetDeserializedCredentials
      (some { Registry := [], Repository := [], Username := ascii "dXNl!",
              Password := ascii "IHBh\nc3Mg!" })).Username = ascii "use" ∧
    RFC4648.decode (ascii "IHBh\nc3Mg!") = none ∧
    RFC4648.beginning (RFC4648.withoutNewlines (ascii "IHBh\nc3Mg!")) = ascii " pass " ∧
    (ImageUpload.GetDeserializedCredentials
      (some { Registry := [], Repository := [], Username := ascii "dXNl!",
              Password := ascii "IHBh\nc3Mg!" })).Password = ascii "pass" :=
  ⟨by decide,
    ((malformed_field_decodes_beginning
      { Registry := [], Repository := [], Username := ascii "dXNl!",
        Password := ascii "IHBh\nc3Mg!" }).2.2.1 (by decide)).trans (by decide),
    by decide, by decide,
    ((malformed_field_decodes_beginning
      { Registry := [], Repository := [], Username := ascii "dXNl!",
        Password := ascii "IHBh\nc3Mg!" }).2.2.2 (by decide)).trans (by decide)⟩

/-- What holds of one valid field: it is its decoded bytes, trimmed. -/
theorem valid_decoded_field {enc : GoString} {bytes : List Byte}
    (h : RFC4648.decode enc = some bytes) :
    Strings.TrimSpace (Base64.DecodeString enc).1 = Whitespace.trim bytes := by
  rw [Strings.TrimSpace_eq_trim, Base64.DecodeString_valid h]

/-- C6. For every non-null credentials value, a field that is valid padded
base64 of the standard alphabet decodes to its base64-decoded bytes with leading
and trailing whitespace trimmed; in particular the username "dXNlcg==" and the
password "cGFzcw==" decode to "user" and "pass", whatever the other fields. -/
theorem valid_field_decodes_trimmed (v : ImageUpload) :
    (∀ bytes, RFC4648.decode v.Registry = some bytes →
      (ImageUpload.GetDeserializedCredentials (some v)).Registry = Whitespace.trim bytes) ∧
    (∀ bytes, RFC4648.decode v.Repository = some bytes →
      (ImageUpload.GetDeserializedCredentials (some v)).Repository = Whitespace.trim bytes) ∧
    (∀ bytes, RFC4648.decode v.Username = some bytes →
      (ImageUpload.GetDeserializedCredentials (some v)).Username = Whitespace.trim bytes) ∧
    (∀ bytes, RFC4648.decode v.Password = some bytes →
      (ImageUpload.GetDeserializedCredentials (some v)).Password = Whitespace.trim bytes) ∧
    (ImageUpload.GetDeserializedCredentials
      (some { v with Username := ascii "dXNlcg==", Password := ascii "cGFzcw==" })).Username =
        ascii "user" ∧
    (ImageUpload.GetDeserializedCredentials
      (some { v with Username := ascii "dXNlcg==", Password := ascii "cGFzcw==" })).Password =
        ascii "pass" := by
  rw [GetDeserializedCredentials_some]
  refine ⟨fun b h => valid_decoded_field h, fun b h => valid_decoded_field h,
    fun b h => valid_decoded_field h, fun b h => valid_decoded_field h, ?_, ?_⟩
  · rw [GetDeserializedCredentials_some]
    simp only
    decide
  · rw [GetDeserializedCredentials_some]
    simp only
    decide

/-- C6, witness: the password "IHBhc3MgCg==" is valid base64 of " pass \n" (a
leading space, a trailing space and newline) and decodes to "pass"; the username
"wqB1c2Vy44CA" is valid base64 of "user" between a no-break space (U+00A0) and an
ideographic space (U+3000) and decodes to "user". -/
theorem valid_field_decodes_trimmed_witness :
    RFC4648.decode (ascii "IHBhc3MgCg==") = some (ascii " pass \n") ∧
    (ImageUpload.GetDeserializedCredentials
      (some { Registry := ascii "cmVn", Repository := [], Username := ascii "wqB1c2Vy44CA",
              Password := ascii "IHBhc3MgCg==" })).Password = ascii "pass" ∧
    RFC4648.decode (ascii "wqB1c2Vy44CA") =
      some ([0xC2, 0xA0] ++ ascii "user" ++ [0xE3, 0x80, 0x80]) ∧
    (ImageUpload.GetDeserializedCredentials
      (some { Registry := ascii "cmVn", Repository := [], Username := ascii "wqB1c2Vy44CA",
              Password := ascii "IHBhc3MgCg==" })).Username = ascii "user" :=
  ⟨by decide,
    ((valid_field_decodes_trimmed
      { Registry := ascii "cmVn", Repository := [], Username := ascii "wqB1c2Vy44CA",
        Password := ascii "IHBhc3MgCg==" }).2.2.2.1 (ascii " pass \n") (by decide)).trans
      (by decide),
    by decide,
    ((valid_field_decodes_trimmed
      { Registry := ascii "cmVn", Repository := [], Username := ascii "wqB1c2Vy44CA",
        Password := ascii "IHBhc3MgCg==" }).2.2.1
      ([0xC2, 0xA0] ++ ascii "user" ++ [0xE3, 0x80, 0x80]) (by decide)).trans (by decide)⟩

/-! ## Trimmed fields and the round trip -/

/-- What `TrimSpace` returns neither begins nor ends with a whitespace character
and is its own trimmed string. -/
theorem TrimSpace_is_trimmed (s : GoString) :
    Whitespace.leading (Strings.TrimSpace s) = none ∧
      Whitespace.trailing (Strings.TrimSpace s) = none ∧
      Whitespace.trim (Strings.TrimSpace s) = Strings.TrimSpace s := by
  rw [Strings.TrimSpace_eq_trim]
  exact ⟨Whitespace.trim_leading s, Whitespace.trim_trailing s, Whitespace.trim_idempotent s⟩

/-- C15. For every credentials value, null or not, with valid or malformed
fields, every field of the result of `GetDeserializedCredentials()` has no
leading and no trailing whitespace: no whitespace character begins it, none ends
it, and trimming it leaves it as it is. -/
theorem decoded_fields_are_trimmed (iu : Option ImageUpload) :
    (Whitespace.leading (ImageUpload.GetDeserializedCredentials iu).Registry = none ∧
      Whitespace.trailing (ImageUpload.GetDeserializedCredentials iu).Registry = none ∧
      Whitespace.trim (ImageUpload.GetDeserializedCredentials iu).Registry =
        (ImageUpload.GetDeserializedCredentials iu).Registry) ∧
    (Whitespace.leading (ImageUpload.GetDeserializedCredentials iu).Repository = none ∧
      Whitespace.trailing (ImageUpload.GetDeserializedCredentials iu).Repository = none ∧
      Whitespace.trim (ImageUpload.GetDeserializedCredentials iu).Repository =
        (ImageUpload.GetDeserializedCredentials iu).Repository) ∧
    (Whitespace.leading (ImageUpload.GetDeserializedCredentials iu).Username = none ∧
      Whitespace.trailing (ImageUpload.GetDeserializedCredentials iu).Username = none ∧
      Whitespace.trim (ImageUpload.GetDeserializedCredentials iu).Username =
        (ImageUpload.GetDeserializedCredentials iu).Username) ∧
    (Whitespace.leading (ImageUpload.GetDeserializedCredentials iu).Password = none ∧
      Whitespace.trailing (ImageUpload.GetDeserializedCredentials iu).Password = none ∧
      Whitespace.trim (ImageUpload.GetDeserializedCredentials iu).Password =
        (ImageUpload.GetDeserializedCredentials iu).Password) := by
  cases iu with
  | none => decide
  | some v =>
    rw [GetDeserializedCredentials_some]
    exact ⟨TrimSpace_is_trimmed _, TrimSpace_is_trimmed _, TrimSpace_is_trimmed _,
      TrimSpace_is_trimmed _⟩

/-- What holds of one field: the decoding of the encoding of `s` is `s` trimmed,
and `s` itself when `s` neither begins nor ends with a whitespace character. -/
theorem round_trip_field (s : List Byte) :
    Strings.TrimSpace (Base64.DecodeString (RFC4648.encode s)).1 = Whitespace.trim s ∧
      (Whitespace.leading s = none → Whitespace.trailing s = none →
        Strings.TrimSpace (Base64.DecodeString (RFC4648.encode s)).1 = s) := by
  rw [Base64.DecodeString_valid (RFC4648.decode_encode s.length s (le_refl _)),
    Strings.TrimSpace_eq_trim]
  exact ⟨rfl, fun hl ht => Whitespace.trim_fixed s hl ht⟩

/-- C18. Round trip: for every byte string `s`, a credentials field that holds
the standard padded base64 encoding of `s` decodes to `s` with leading and
trailing whitespace trimmed, and to `s` itself when `s` has no leading and no
trailing whitespace. -/
theorem encoded_field_round_trip (v : ImageUpload) (s : List Byte) :
    (v.Registry = RFC4648.encode s →
      (ImageUpload.GetDeserializedCredentials (some v)).Registry = Whitespace.trim s ∧
      (Whitespace.leading s = none → Whitespace.trailing s = none →
        (ImageUpload.GetDeserializedCredentials (some v)).Registry = s)) ∧
    (v.Repository = RFC4648.encode s →
      (ImageUpload.GetDeserializedCredentials (some v)).Repository = Whitespace.trim s ∧
      (Whitespace.leading s = none → Whitespace.trailing s = none →
        (ImageUpload.GetDeserializedCredentials (some v)).Repository = s)) ∧
    (v.Username = RFC4648.encode s →
      (ImageUpload.GetDeserializedCredentials (some v)).Username = Whitespace.trim s ∧
      (Whitespace.leading s = none → Whitespace.trailing s = none →
        (ImageUpload.GetDeserializedCredentials (some v)).Username = s)) ∧
    (v.Password = RFC4648.encode s →
      (ImageUpload.GetDeserializedCredentials (some v)).Password = Whitespace.trim s ∧
      (Whitespace.leading s = none → Whitespace.trailing s = none →
        (ImageUpload.GetDeserializedCredentials (some v)).Password = s)) := by
  rw [GetDeserializedCredentials_some]
  refine ⟨fun h => ?_, fun h => ?_, fun h => ?_, fun h => ?_⟩ <;>
    (simp only [h]; exact round_trip_field s)

/-- C18, witness: the username is the encoding "dXNlcg==" of "user", which has
no leading or trailing whitespace, and decodes to "user"; the password is the
encoding "IHBhc3MgCg==" of " pass \n" and decodes to it trimmed, "pass". -/
theorem encoded_field_round_trip_witness :
    RFC4648.encode (ascii "user") = ascii "dXNlcg==" ∧
    (ImageUpload.GetDeserializedCredentials
      (some { Registry := [], Repository := [], Username := ascii "dXNlcg==",
              Password := ascii "IHBhc3MgCg==" })).Username = ascii "user" ∧
    RFC4648.encode (ascii " pass \n") = ascii "IHBhc3MgCg==" ∧
    (ImageUpload.GetDeserializedCredentials
      (some { Registry := [], Repository := [], Username := ascii "dXNlcg==",
              Password := ascii "IHBhc3MgCg==" })).Password = ascii "pass" :=
  ⟨by decide,
    ((encoded_field_round_trip
      { Registry := [], Repository := [], Username := ascii "dXNlcg==",
        Password := ascii "IHBhc3MgCg==" } (ascii "user")).2.2.1 (by decide)).2
      (by decide) (by decide),
    by decide,
    (((encoded_field_round_trip
      { Registry := [], Repository := [], Username := ascii "dXNlcg==",
        Password := ascii "IHBhc3MgCg==" } (ascii " pass \n")).2.2.2 (by decide)).1).trans
      (by decide)⟩

end GradientV1
